import Mathlib

/-!
Verification development for the structure-aware merge-driver repository
(`parsing`): a shallow embedding of its tokenization / bracket-matching /
line- and block-segmentation / definition-extraction / three-way-merge
pipeline, together with theorems settling the specification claims.

Texts are modelled as `List Char` (Python `str` is a sequence of code
points).  Fallible code returns `Except Err`; Python exceptions
(`ParsingError`, `AssertionError`, `IndexError`, `ValueError`,
`AttributeError`) become `Err` values.
-/

set_option maxRecDepth 20000

namespace Parsing

/-- Characters that Python `str.strip()` / `str.isspace()` treat as
whitespace, restricted to the Latin-1 range (the development's theorems
about arbitrary inputs restrict attention to ASCII inputs). -/
def isPySpace (c : Char) : Bool :=
  c == ' ' || c == '\t' || c == '\n' || c == '\r' ||
  c == Char.ofNat 11 || c == Char.ofNat 12 ||
  c == Char.ofNat 28 || c == Char.ofNat 29 || c == Char.ofNat 30 ||
  c == Char.ofNat 31 || c == Char.ofNat 133

/-- Python slice `buf[i:j]` on code-point lists. -/
def sliceList (buf : List Char) (i j : Nat) : List Char :=
  (buf.drop i).take (j - i)

/-- Python `s.lstrip()`. -/
def lstripL (s : List Char) : List Char := s.dropWhile (fun c => isPySpace c)

/-- Python `s.rstrip()`. -/
def rstripL (s : List Char) : List Char :=
  (s.reverse.dropWhile (fun c => isPySpace c)).reverse

/-- Python `s.strip()`. -/
def stripL (s : List Char) : List Char := rstripL (lstripL s)

/-- Source `base.py` `Position`: code-point offset, 1-based line number,
0-based column. -/
structure Position where
  index : Nat
  lineno : Nat
  column : Nat
deriving DecidableEq, Repr

/-- Source `Position.advanced(buf, i, j)`: add `j - i` to the index; if
the consumed slice has no newline the column grows by the same amount,
otherwise the line count grows by the newline count and the column
becomes the distance from the last newline to the slice end
(`j - (rindex + 1)`, here computed as the length of the newline-free
tail of the slice). -/
def Position.advanced (p : Position) (buf : List Char) (i j : Nat) : Position :=
  let s := sliceList buf i j
  let nls := s.count '\n'
  let k := j - i
  if nls = 0 then ⟨p.index + k, p.lineno, p.column + k⟩
  else ⟨p.index + k, p.lineno + nls,
        ((s.reverse.takeWhile (fun c => !(c == '\n'))).length)⟩

/-- Source `base.py` `Span`.  (`end` is a Lean keyword; the field is
named `stop`.) -/
structure Span where
  start : Position
  stop : Position
deriving DecidableEq, Repr

/-- Python exceptions raised by the pipeline. -/
inductive Err where
  | parsing (message : String) (sidx eidx : Nat)
  | assertionError
  | indexError
  | valueError
  | attributeError
  | stopIteration
deriving DecidableEq, Repr

instance {ε α : Type} [DecidableEq ε] [DecidableEq α] :
    DecidableEq (Except ε α) := fun x y =>
  match x, y with
  | .ok a, .ok b =>
    if h : a = b then isTrue (congrArg Except.ok h)
    else isFalse (fun hh => h (Except.ok.inj hh))
  | .error a, .error b =>
    if h : a = b then isTrue (congrArg Except.error h)
    else isFalse (fun hh => h (Except.error.inj hh))
  | .ok _, .error _ => isFalse (fun hh => Except.noConfusion hh)
  | .error _, .ok _ => isFalse (fun hh => Except.noConfusion hh)

/-- Source `base.py` `Token` (the buffer is threaded separately). -/
structure Token where
  kind : String
  span : Span
deriving DecidableEq, Repr

def Token.sidx (t : Token) : Nat := t.span.start.index

def Token.eidx (t : Token) : Nat := t.span.stop.index

/-- Source `Token.text`: the lazily computed slice of the buffer. -/
def Token.text (buf : List Char) (t : Token) : List Char :=
  sliceList buf t.sidx t.eidx

/-- Source `base.py` `OptToken`: kind `none` marks unmatched (gap)
data. -/
structure OptTok where
  kind : Option String
  span : Span
deriving DecidableEq, Repr

def OptTok.text (buf : List Char) (t : OptTok) : List Char :=
  sliceList buf t.span.start.index t.span.stop.index

def OptTok.blank (buf : List Char) (t : OptTok) : Bool :=
  stripL (t.text buf) == []

/-- Source `base.py` `strip_count_if_non_empty`: shrink a span to its
stripped text, except when the text strips to nothing, strips to
itself, or has no leading whitespace. -/
def strip_count_if_non_empty (text : List Char) (sp : Span) : Span :=
  let u := lstripL text
  let t := rstripL u
  if t = [] ∨ t.length = text.length then sp
  else if text.length = u.length then sp
  else
    let newStart := sp.start.advanced text 0 (text.length - u.length)
    ⟨newStart, newStart.advanced t 0 t.length⟩

/-! ## Generic pattern-driven lexer (`base.py` `iter_opt_tokens_impl`)

A `MatchFn` models one attempt of the compiled alternation at a single
position: given whether the position is at a physical line start (`re.M`
anchor) and the remaining suffix of the buffer, it returns the winning
alternative's group name and match length, or `none`.  `nextMatchFrom`
models the `re.finditer` scan for the leftmost match at or after a
position. -/

def MatchFn : Type := Bool → List Char → Option (String × Nat)

def isLineStart (buf : List Char) (p : Nat) : Bool :=
  p == 0 || buf.get? (p - 1) == some '\n'

def nextMatchFromF (m : MatchFn) (buf : List Char) :
    Nat → Nat → Option (Nat × String × Nat)
  | 0, _ => none
  | fuel + 1, p =>
    match m (isLineStart buf p) (buf.drop p) with
    | some (k, len) => some (p, k, len)
    | none =>
      if p < buf.length then nextMatchFromF m buf fuel (p + 1) else none

/-- The `re.finditer` scan: `fuel` only forces termination and
`buf.length + 1 - p` always suffices (the scan stops at the end of the
buffer). -/
def nextMatchFrom (m : MatchFn) (buf : List Char) (p : Nat) :
    Option (Nat × String × Nat) :=
  nextMatchFromF m buf (buf.length + 1 - p) p

/-- The loop of `iter_opt_tokens_impl`: emit an unmatched `OptTok` for
any gap before the next match, then the matched `OptTok`, advancing the
position over each consumed slice.  `fuel` only forces termination; any
`fuel > buf.length - pos.index` yields the full sequence (every match
has positive length). -/
def lexOptLoop (m : MatchFn) (buf : List Char) :
    Nat → Position → List OptTok
  | 0, _ => []
  | fuel + 1, pos =>
    match nextMatchFrom m buf pos.index with
    | none =>
      if pos.index < buf.length then
        [⟨none, ⟨pos, pos.advanced buf pos.index buf.length⟩⟩]
      else []
    | some (q, k, len) =>
      let posq := if pos.index < q then pos.advanced buf pos.index q else pos
      let gap : List OptTok :=
        if pos.index < q then [⟨none, ⟨pos, posq⟩⟩] else []
      let pose := posq.advanced buf q (q + len)
      gap ++ ⟨some k, ⟨posq, pose⟩⟩ :: lexOptLoop m buf fuel pose

def startPosition : Position := ⟨0, 1, 0⟩

def iterOptTokens (m : MatchFn) (buf : List Char) : List OptTok :=
  lexOptLoop m buf (buf.length + 1) startPosition

/-- Source `base.py` `unwrapped_non_blank` composed with
`OptToken.unwrap`: blank unmatched data is skipped, non-blank unmatched
data raises "unexpected data while lexing" (on the stripped span),
matches become `Token`s. -/
def unwrappedNonBlank (buf : List Char) :
    List OptTok → Except Err (List Token)
  | [] => .ok []
  | t :: rest =>
    match t.kind with
    | some k => do
      let ts ← unwrappedNonBlank buf rest
      .ok (⟨k, t.span⟩ :: ts)
    | none =>
      if t.blank buf then unwrappedNonBlank buf rest
      else
        let sp := strip_count_if_non_empty (t.text buf) t.span
        .error (.parsing "unexpected data while lexing" sp.start.index sp.stop.index)

def lexTokens (m : MatchFn) (buf : List Char) : Except Err (List Token) :=
  unwrappedNonBlank buf (iterOptTokens m buf)

/-! ## CMake lexer (`cmakeparser.py` `cmake_lexer`)

The regex alternation, in order:
`unimplemented_brackets` (optional hash, bracket, equals-run, bracket);
`comment` (hash to end of physical line);
`quoted` (double-quoted with backslash escapes);
`unquoted`;
`special` (a single open or close parenthesis); `newline`;
`indent` (run of space/tab anchored at a physical line start, `re.M`).
Each alternative is modelled as a scanner over the remaining suffix
returning the matched length.  In `quoted`/`unquoted`, backtracking
never changes the greedy result (every give-back position starts with a
character the closing part cannot match), so greedy scanners are exact.
The backslash-escape branches of `unquoted` are unreachable: a
backslash already matches the preceding character class, which the
engine tries first. -/

def cmFirstChar (c : Char) : Bool :=
  !(c == '#' || c == '(' || c == ')' || c == ',' || c == ' ' || c == '\t' ||
    c == '\r' || c == '\n')

def cmContChar (c : Char) : Bool :=
  !(c == '#' || c == '$' || c == '(' || c == ')' || c == ',' || c == ' ' ||
    c == '\t' || c == '\r' || c == '\n')

/-- Greedy length of the `unquoted` continuation: ordinary continuation
characters, or a dollar sign optionally followed by a parenthesized
variable reference (closed by the first close parenthesis; if none
exists the optional group matches empty). -/
def cmUnqContF : Nat → List Char → Nat
  | 0, _ => 0
  | _, [] => 0
  | fuel + 1, c :: rest =>
    if cmContChar c then 1 + cmUnqContF fuel rest
    else if c == '$' then
      match rest with
      | e :: rest2 =>
        if e == '(' then
          if rest2.contains ')' then
            let n := (rest2.takeWhile (fun d => !(d == ')'))).length + 1
            2 + n + cmUnqContF fuel (rest2.drop n)
          else 1 + cmUnqContF fuel (e :: rest2)
        else 1 + cmUnqContF fuel (e :: rest2)
      | [] => 1 + cmUnqContF fuel []
    else 0

def cmUnqCont (s : List Char) : Nat := cmUnqContF (s.length + 1) s

/-- Greedy scan for the double-quoted alternative, given the suffix
after the opening quote; returns combined length including both
quotes or `none` (an unescapable backslash-newline / end of input). -/
def cmQuotedTail (s : List Char) : Option Nat :=
  match s with
  | [] => none
  | c :: rest =>
    if c == '"' then some 1
    else if c == '\\' then
      match rest with
      | [] => none
      | d :: rest2 =>
        if d == '\n' then none
        else (cmQuotedTail rest2).map (· + 2)
    else (cmQuotedTail rest).map (· + 1)

def cmQuotedScan (s : List Char) : Option Nat :=
  match s with
  | c :: rest => if c == '"' then (cmQuotedTail rest).map (· + 1) else none
  | [] => none

/-- The `unimplemented_brackets` alternative. -/
def cmUnimplScan (s : List Char) : Option Nat :=
  let check : List Char → Nat → Option Nat := fun t off =>
    match t with
    | c :: rest =>
      if c == '[' then
        let r := (rest.takeWhile (fun d => d == '=')).length
        if rest.get? r = some '[' then some (off + 1 + r + 1) else none
      else none
    | [] => none
  match s with
  | c :: rest =>
    if c == '#' then
      match check rest 1 with
      | some n => some n
      | none => none
    else check (c :: rest) 0
  | [] => none

/-- The full CMake alternation in source order. -/
def cmakeMatchAt : MatchFn := fun lineStart s =>
  match cmUnimplScan s with
  | some n => some ("unimplemented_brackets", n)
  | none =>
  match s with
  | [] => none
  | c :: rest =>
    if c == '#' then
      some ("comment", 1 + (rest.takeWhile (fun d => !(d == '\n'))).length)
    else match cmQuotedScan (c :: rest) with
    | some n => some ("quoted", n)
    | none =>
      if cmFirstChar c then
        some ("unquoted", 1 + cmUnqCont rest)
      else if c == '(' || c == ')' then
        some ("special", 1)
      else if c == '\n' then
        some ("newline", 1)
      else if lineStart && (c == ' ' || c == '\t') then
        some ("indent",
          1 + (rest.takeWhile (fun d => d == ' ' || d == '\t')).length)
      else none

def iter_cmake_tokens (buf : List Char) : Except Err (List Token) :=
  lexTokens cmakeMatchAt buf

/-! ## Bracket matcher (`base.py` `iter_match_parens` / `collect`)

`iter_match_parens` is a recursive generator; consumers either collect
each yielded `IterParenthesized` into an eager `Parenthesized` (the
CMake line segmenter) or keep the already-exhausted wrapper around (the
Python line segmenter).  `GElem` models one yielded element: a plain
token, or a group holding its opening token and everything the inner
generator yielded (the matching closer is the last yielded element when
matching succeeded; on end of input the generator just stops, yielding
no error).  `mpWork` returns the yielded elements together with the
tokens remaining after a `break` on the `until` closer. -/

inductive GElem where
  | tok (t : Token)
  | group (left : Token) (ys : List GElem)
deriving Repr

def lookupParen (parens : List (List Char × List Char)) (text : List Char) :
    Option (List Char) :=
  match parens.find? (fun p => p.1 == text) with
  | some p => some p.2
  | none => none

def isCloser (parens : List (List Char × List Char)) (text : List Char) : Bool :=
  parens.any (fun p => p.2 == text)

/-- Build the message of the mismatched-parenthesis error without
writing quote characters in a literal. -/
def sq : String := String.singleton (Char.ofNat 39)

def mismatchMsg (u : List Char) : String :=
  "incorrectly matched parentheses: expected " ++ sq ++ String.mk u ++ sq

def mpWorkF (buf : List Char) (parens : List (List Char × List Char)) :
    Nat → List Token → Option (List Char) →
    Except Err (List GElem × List Token)
  | 0, _, _ => .error .assertionError
  | _ + 1, [], _ => .ok ([], [])
  | fuel + 1, tok :: rest, untl =>
    let text := tok.text buf
    if some text = untl then .ok ([.tok tok], rest)
    else match lookupParen parens text with
    | some closer =>
      match mpWorkF buf parens fuel rest (some closer) with
      | .error e => .error e
      | .ok (ys, rest2) =>
        match mpWorkF buf parens fuel rest2 untl with
        | .error e => .error e
        | .ok (es, rest3) => .ok (.group tok ys :: es, rest3)
    | none =>
      if isCloser parens text then
        match untl with
        | some u => .error (.parsing (mismatchMsg u) tok.sidx tok.eidx)
        | none => .error (.parsing "unexpected parenthesis" tok.sidx tok.eidx)
      else
        match mpWorkF buf parens fuel rest untl with
        | .error e => .error e
        | .ok (es, rest3) => .ok (.tok tok :: es, rest3)

/-- The generator with its remaining input; each recursive call (both
the nested-group call and each continuation call) receives a strictly
shorter token list, so `ts.length + 1` fuel always suffices. -/
def mpWork (buf : List Char) (parens : List (List Char × List Char))
    (ts : List Token) (untl : Option (List Char)) :
    Except Err (List GElem × List Token) :=
  mpWorkF buf parens (ts.length + 1) ts untl

/-- Source `iter_match_parens` at top level (no `until`). -/
def iter_match_parens (buf : List Char) (parens : List (List Char × List Char))
    (ts : List Token) : Except Err (List GElem) :=
  match mpWork buf parens ts none with
  | .error e => .error e
  | .ok (es, _) => .ok es

/-- Eager `Parenthesized` (`base.py`): opening token, interior
elements, closing token. -/
inductive CElem where
  | tok (t : Token)
  | paren (left : Token) (inner : List CElem) (right : Token)
deriving Repr

/-- Source `IterParenthesized.collect`: the last yielded element of a
group becomes the closing token (asserted to be a plain token — on a
truncated group this silently takes whatever came last); an empty group
raises "BUG: no tokens?".  `fuel` bounds the nesting depth, which never
exceeds the token count. -/
def collectGF : Nat → GElem → Except Err CElem
  | _, .tok t => .ok (.tok t)
  | 0, .group _ _ => .error .assertionError
  | fuel + 1, .group left ys =>
    match ys with
    | [] => .error (.parsing "BUG: no tokens?" left.sidx left.eidx)
    | _ :: _ => do
      let cs ← ys.mapM (collectGF fuel)
      match cs.getLast? with
      | some (.tok rt) => .ok (.paren left cs.dropLast rt)
      | _ => .error .assertionError

def CElem.startPos : CElem → Position
  | .tok t => t.span.start
  | .paren left _ _ => left.span.start

def CElem.endPos : CElem → Position
  | .tok t => t.span.stop
  | .paren _ _ right => right.span.stop

/-! ## CMake line segmenter and definition extractor
(`cmakeparser.py` `identify_cmake_lines`, `get_grouped_args`;
`cmakemerger.py` `parse_line_as_definition`, `identify_definitions`) -/

structure CLine where
  tokens : List CElem
  indent : Option Token
  newline : Option Token
  first_non_blank : Option Token
deriving Repr

def CLine.startPos (l : CLine) : Except Err Position :=
  match l.tokens.head? with
  | some e => .ok e.startPos
  | none => .error .assertionError

def CLine.endPos (l : CLine) : Except Err Position :=
  match l.tokens.getLast? with
  | some e => .ok e.endPos
  | none => .error .assertionError

/-- Source `identify_cmake_lines` (collects each yielded group
eagerly); `fuel` is passed to `collectGF` and bounds group nesting. -/
def cmLinesLoop (buf : List Char) (fuel : Nat) (line : List CElem)
    (got_indent first_non_blank : Option Token) :
    List GElem → Except Err (List CLine)
  | [] =>
    if line.isEmpty then .ok []
    else .ok [⟨line, got_indent, none, first_non_blank⟩]
  | g :: rest => do
    let e ← collectGF fuel g
    match e with
    | .tok tok =>
      if tok.kind = "indent" then
        if !line.isEmpty || got_indent.isSome || first_non_blank.isSome then
          .error .assertionError
        else cmLinesLoop buf fuel (line ++ [e]) (some tok) first_non_blank rest
      else if tok.kind = "newline" then do
        let ls ← cmLinesLoop buf fuel [] none none rest
        .ok (⟨line ++ [e], got_indent, some tok, first_non_blank⟩ :: ls)
      else if tok.kind = "comment" then
        cmLinesLoop buf fuel (line ++ [e]) got_indent first_non_blank rest
      else
        let fnb := if first_non_blank.isNone then some tok else first_non_blank
        cmLinesLoop buf fuel (line ++ [e]) got_indent fnb rest
    | .paren left _ _ =>
      let fnb := if first_non_blank.isNone then some left else first_non_blank
      cmLinesLoop buf fuel (line ++ [e]) got_indent fnb rest

def identify_cmake_lines (buf : List Char) (fuel : Nat) (es : List GElem) :
    Except Err (List CLine) :=
  cmLinesLoop buf fuel [] none none es

/-- One group of `get_grouped_args`: optional key token and its value
tokens. -/
structure ArgGroup where
  key : Option Token
  args : List Token
deriving Repr

/-- Source `get_grouped_args`: a dictionary in insertion order from
group-key text to groups; a bare all-uppercase unquoted token starts a
new group keyed by its text, everything else joins the current group;
an implicit unnamed group (key text empty) comes first.  Any nested
`Parenthesized` among the arguments violates the source assertion. -/
def isUpperKey (buf : List Char) (t : Token) : Bool :=
  let tx := t.text buf
  !(stripL tx == []) && (tx.map Char.toUpper == tx) && !(tx.take 1 == ['"'])

def gga_loop (buf : List Char) (groups : List (List Char × List ArgGroup))
    (curKey : List Char) : List CElem →
    Except Err (List (List Char × List ArgGroup))
  | [] => .ok groups
  | .paren _ _ _ :: _ => .error .assertionError
  | .tok a :: rest =>
    if isUpperKey buf a then
      let tx := a.text buf
      let groups' :=
        match groups.find? (fun p => p.1 == tx) with
        | some _ =>
          groups.map (fun p => if p.1 == tx then (p.1, p.2 ++ [⟨some a, []⟩]) else p)
        | none => groups ++ [(tx, [⟨some a, []⟩])]
      gga_loop buf groups' tx rest
    else
      let groups' :=
        groups.map (fun p =>
          if p.1 == curKey then
            (p.1, p.2.dropLast ++
              (match p.2.getLast? with
               | some g => [⟨g.key, g.args ++ [a]⟩]
               | none => []))
          else p)
      gga_loop buf groups' curKey rest

def get_grouped_args (buf : List Char) (inner : List CElem) :
    Except Err (List (List Char × List ArgGroup)) :=
  gga_loop buf [([], [⟨none, []⟩])] [] inner

/-- First `(key, value)` pair in source order across all groups
(`next((k, v) for k in args for g in args[k] for v in g.args)`). -/
def firstGroupedArg (groups : List (List Char × List ArgGroup)) :
    Option (List Char × Token) :=
  groups.firstM (fun p =>
    p.2.firstM (fun g =>
      match g.args.head? with
      | some v => some (p.1, v)
      | none => none))

/-- Source `cmakemerger.py` `parse_line_as_definition`. -/
def parse_line_as_definition (buf : List Char) (line : CLine) :
    Except Err (Option (List Char × List Char × List Char)) :=
  match line.first_non_blank with
  | none => .ok none
  | some tok =>
    if tok.kind = "unquoted" then
      match line.tokens.findIdx? (fun e =>
          match e with
          | .tok t => t == tok
          | _ => false) with
      | none => .error .stopIteration
      | some i =>
        if h : i + 1 < line.tokens.length then
          match line.tokens.get ⟨i + 1, h⟩ with
          | .paren _ inner _ => do
            let args ← get_grouped_args buf inner
            match firstGroupedArg args with
            | some (k, v) => .ok (some (tok.text buf, k, v.text buf))
            | none => .ok none
          | _ => .ok none
        else .ok none
    else .ok none

def cmakeParens : List (List Char × List Char) :=
  [(['('], [')']), (['['], [']'])]

/-- Source `cmakemerger.py` `identify_definitions`. -/
def identify_definitions (text : List Char) :
    Except Err (List (List Char × List Char)) := do
  let lexer_output ← iter_cmake_tokens text
  let matched_parens ← iter_match_parens text cmakeParens lexer_output
  let lines ← identify_cmake_lines text (lexer_output.length + 1) matched_parens
  lines.mapM (fun line => do
    let st ← line.startPos
    let en ← line.endPos
    let line_text := sliceList text st.index en.index
    if st.column ≠ 0 then .error .assertionError
    else do
      let defn ← parse_line_as_definition text line
      match defn with
      | none => .ok (([] : List Char), line_text)
      | some (_, _, vtext) => .ok (vtext, line_text))

/-! ## Python lexer (`pythonparser.py` `python_lexer`)

Alternation order: `name`, `newline`, `indent`, `number`, `comment`,
`backslash`, `semicolon`, `op`, `string`.  Word characters are modelled
for ASCII (`[a-zA-Z0-9_]`); since digits are word characters, the
`number` alternative is unreachable.  The four string alternatives
(letter-prefixed triple-double-quoted, triple-single-quoted, plain
double-quoted, plain single-quoted) are greedy scanners; as for the
CMake patterns, regex backtracking cannot change the greedy result. -/

def isWordChar (c : Char) : Bool := c.isAlphanum || c == '_'

/-- Content scan of a triple-quoted string, after the opening triple:
backslash escapes any character including newline; a quote run of
length one or two (followed by a non-quote) is content; the first run
of three quotes closes. -/
def pyTripleTail (q : Char) : List Char → Option Nat
  | [] => none
  | '\\' :: rest =>
    match rest with
    | [] => none
    | _ :: rest2 => (pyTripleTail q rest2).map (· + 2)
  | c :: rest =>
    if c == q then
      match rest with
      | [] => none
      | d :: rest2 =>
        if d == q then
          match rest2 with
          | [] => none
          | e :: rest3 =>
            if e == q then some 3
            else (pyTripleTail q rest3).map (· + 3)
        else (pyTripleTail q rest2).map (· + 2)
    else (pyTripleTail q rest).map (· + 1)

/-- Content scan of a single-delimiter string, after the opening quote:
backslash escapes any character including newline; any other character
(newlines included) is content; the first unescaped quote closes. -/
def pySimpleTail (q : Char) : List Char → Option Nat
  | [] => none
  | '\\' :: rest =>
    match rest with
    | [] => none
    | _ :: rest2 => (pySimpleTail q rest2).map (· + 2)
  | c :: rest =>
    if c == q then some 1
    else (pySimpleTail q rest).map (· + 1)

/-- The `string` alternative: the four sub-alternatives in source
order. -/
def pyStringScan (s : List Char) : Option Nat :=
  let letters := (s.takeWhile (fun c => c.isAlpha)).length
  let tripleDouble :=
    match s.drop letters with
    | '"' :: '"' :: '"' :: rest =>
      (pyTripleTail '"' rest).map (letters + 3 + ·)
    | _ => none
  match tripleDouble with
  | some n => some n
  | none =>
  match s with
  | '\'' :: '\'' :: '\'' :: rest => (pyTripleTail '\'' rest).map (3 + ·)
  | '"' :: rest => (pySimpleTail '"' rest).map (1 + ·)
  | '\'' :: rest => (pySimpleTail '\'' rest).map (1 + ·)
  | _ => none

/-- The `op` alternative, in source order:
two-or-three-character operators first, then a bracket/operator
character class. -/
def pyOpScan (s : List Char) : Option Nat :=
  match s with
  | '-' :: '=' :: _ => some 2
  | '/' :: '/' :: '=' :: _ => some 3
  | '/' :: '/' :: _ => some 2
  | ':' :: '=' :: _ => some 2
  | '!' :: '=' :: _ => some 2
  | '<' :: '<' :: _ => some 2
  | '>' :: '>' :: _ => some 2
  | '*' :: '*' :: _ => some 2
  | c :: rest =>
    if c == '=' || c == '+' || c == '*' || c == '/' || c == '%' ||
       c == '|' || c == '<' || c == '>' || c == '^' then
      match rest with
      | '=' :: _ => some 2
      | _ => some 1
    else if c == '-' then
      match rest with
      | '>' :: _ => some 2
      | _ => some 1
    else if c == '[' || c == ']' || c == '(' || c == ')' || c == '{' ||
            c == '}' || c == ',' || c == ':' || c == '@' || c == '.' ||
            c == '&' || c == '~' then
      some 1
    else none
  | [] => none

/-- The full Python alternation in source order. -/
def pythonMatchAt : MatchFn := fun lineStart s =>
  match s with
  | [] => none
  | c :: rest =>
    if isWordChar c then
      some ("name", 1 + (rest.takeWhile isWordChar).length)
    else if c == '\n' then
      some ("newline", 1)
    else if lineStart && (c == ' ' || c == '\t') then
      some ("indent",
        1 + (rest.takeWhile (fun d => d == ' ' || d == '\t')).length)
    else if c == '#' then
      some ("comment", 1 + (rest.takeWhile (fun d => !(d == '\n'))).length)
    else if c == '\\' then
      some ("backslash", 1)
    else if c == ';' then
      some ("semicolon", 1)
    else match pyOpScan (c :: rest) with
    | some n => some ("op", n)
    | none =>
      match pyStringScan (c :: rest) with
      | some n => some ("string", n)
      | none => none

def iter_python_tokens (buf : List Char) : Except Err (List Token) :=
  lexTokens pythonMatchAt buf

def pythonParens : List (List Char × List Char) :=
  [(['{'], ['}']), (['['], [']']), (['('], [')'])]

def iter_match_python_parens (buf : List Char) (ts : List Token) :
    Except Err (List GElem) :=
  iter_match_parens buf pythonParens ts

/-! ## Python line segmenter (`pythonparser.py` `identify_python_lines`)

The merger pipeline feeds the *uncollected* generator output into the
line segmenter, so line elements are `GElem`s: a group behaves as an
object of kind "parenthesized" whose `text` is `None`, which has a
`start` (its opening token) but *no* `end` attribute, and which is not
an instance of the eager `Parenthesized` class (so it never becomes
`first_non_blank`). -/

def GElem.kind : GElem → String
  | .tok t => t.kind
  | .group _ _ => "parenthesized"

def GElem.startPos : GElem → Position
  | .tok t => t.span.start
  | .group left _ => left.span.start

/-- Accessing `.end` on an `IterParenthesized` raises
`AttributeError`. -/
def GElem.endPos : GElem → Except Err Position
  | .tok t => .ok t.span.stop
  | .group _ _ => .error .attributeError

structure PyLine where
  tokens : List GElem
  indent : Option Token
  colon : Option Token
  newline : Option Token
  first_non_blank : Option Token
deriving Repr

def PyLine.startPos (l : PyLine) : Except Err Position :=
  match l.tokens.head? with
  | some e => .ok e.startPos
  | none => .error .assertionError

def PyLine.endPos (l : PyLine) : Except Err Position :=
  match l.tokens.getLast? with
  | some e => e.endPos
  | none => .error .assertionError

/-- The state of the `identify_python_lines` loop: the current line's
elements and the `got_indent` / `got_colon` / `got_backslash` /
`first_non_blank` registers. -/
structure PyLineState where
  line : List GElem
  got_indent : Option Token
  got_colon : Option Token
  got_backslash : Option Token
  first_non_blank : Option Token
deriving Repr

/-- The shared tail of the `identify_python_lines` loop body (reached
by every element except mid-line indents, newlines and comments):
clear the pending colon, raise if a backslash is pending, append the
element, and set backslash/colon state for plain tokens. -/
def pyLinesGeneric (buf : List Char) (st : PyLineState) (g : GElem) :
    Except Err PyLineState :=
  match st.got_backslash with
  | some b => .error (.parsing "expected newline after backslash" b.sidx b.eidx)
  | none =>
    match g with
    | .tok tok =>
      if tok.kind = "backslash" then
        .ok ⟨st.line ++ [g], st.got_indent, none, some tok, st.first_non_blank⟩
      else if tok.text buf = [':'] then
        .ok ⟨st.line ++ [g], st.got_indent, some tok, none, st.first_non_blank⟩
      else
        .ok ⟨st.line ++ [g], st.got_indent, none, none, st.first_non_blank⟩
    | .group _ _ =>
      .ok ⟨st.line ++ [g], st.got_indent, none, none, st.first_non_blank⟩

/-- Source `identify_python_lines` as a fold with explicit state.
A mid-line indent token (only possible after a backslash-continued
newline) is dropped from the token list; a newline with a pending
backslash is appended without terminating the line; comments are
appended without touching colon or backslash state; groups never
become `first_non_blank` (they are not instances of the eager
`Parenthesized` class). -/
def pyLinesLoop (buf : List Char) (st : PyLineState) :
    List GElem → Except Err (List PyLine)
  | [] =>
    match st.got_backslash with
    | some b => .error (.parsing "unexpected EOF after backslash" b.sidx b.eidx)
    | none =>
      if st.line.isEmpty then .ok []
      else .ok [⟨st.line, st.got_indent, st.got_colon, none, st.first_non_blank⟩]
  | g :: rest =>
    match g with
    | .tok tok =>
      if tok.kind = "indent" then
        if !st.line.isEmpty then
          pyLinesLoop buf st rest
        else
          match pyLinesGeneric buf { st with got_indent := some tok } g with
          | .error e => .error e
          | .ok st' => pyLinesLoop buf st' rest
      else if tok.kind = "newline" then
        if st.got_backslash.isNone then
          match pyLinesLoop buf ⟨[], none, none, none, none⟩ rest with
          | .error e => .error e
          | .ok ls =>
            .ok (⟨st.line ++ [g], st.got_indent, st.got_colon, some tok,
                  st.first_non_blank⟩ :: ls)
        else
          pyLinesLoop buf
            ⟨st.line ++ [g], st.got_indent, st.got_colon, none,
             st.first_non_blank⟩ rest
      else if tok.kind = "comment" then
        pyLinesLoop buf { st with line := st.line ++ [g] } rest
      else
        let fnb := if st.first_non_blank.isNone then some tok
                   else st.first_non_blank
        match pyLinesGeneric buf { st with first_non_blank := fnb } g with
        | .error e => .error e
        | .ok st' => pyLinesLoop buf st' rest
    | .group _ _ =>
      match pyLinesGeneric buf st g with
      | .error e => .error e
      | .ok st' => pyLinesLoop buf st' rest

def identify_python_lines (buf : List Char) (es : List GElem) :
    Except Err (List PyLine) :=
  pyLinesLoop buf ⟨[], none, none, none, none⟩ es

/-! ## Python block segmenter (`pythonparser.py` `identify_python_blocks`,
`fixup_end_of_block`) -/

inductive LB where
  | line (l : PyLine)
  | block (indent : List Char) (tokens : List LB)
deriving Repr

/-- Last element of a non-empty list given head and tail. -/
def lastLB : LB → List LB → LB
  | e, [] => e
  | _, e :: rest => lastLB e rest

/-- Source `Block.first_non_blank`: the first significant token of any
child, recursively.  `fuel` bounds the nesting depth (never more than
the number of lines). -/
def LB.fnbF : Nat → LB → Option Token
  | _, .line l => l.first_non_blank
  | 0, .block _ _ => none
  | fuel + 1, .block _ toks => toks.findSome? (LB.fnbF fuel)

/-- `Line.start` / `Block.start` (an empty element violates the source
assertion). -/
def LB.startPosF : Nat → LB → Except Err Position
  | _, .line l => l.startPos
  | 0, .block _ _ => .error .assertionError
  | fuel + 1, .block _ toks =>
    match toks with
    | [] => .error .assertionError
    | e :: _ => LB.startPosF fuel e

/-- `Line.end` / `Block.end`. -/
def LB.endPosF : Nat → LB → Except Err Position
  | _, .line l => l.endPos
  | 0, .block _ _ => .error .assertionError
  | fuel + 1, .block _ toks =>
    match toks with
    | [] => .error .assertionError
    | e :: rest => LB.endPosF fuel (lastLB e rest)

/-- The indent-stack of `identify_python_blocks`: innermost block
first, each entry its indent text and the children accumulated so
far. -/
def BlockStack := List (List Char × List LB)

def stackDepth (stack : BlockStack) : Nat :=
  match stack with
  | [] => 0
  | (ind, _) :: _ => ind.length

/-- The dedent loop: pop blocks strictly deeper than the new indent,
attaching each popped block to the new top (or yielding it at top
level). -/
def popBlocksF (indentLen : Nat) : Nat → BlockStack → List LB →
    BlockStack × List LB
  | _, [], out => ([], out)
  | 0, stack, out => (stack, out)
  | fuel + 1, (ind, toks) :: rest, out =>
    if indentLen < ind.length then
      match rest with
      | (ind2, toks2) :: rest2 =>
        popBlocksF indentLen fuel ((ind2, toks2 ++ [.block ind toks]) :: rest2) out
      | [] => ([], out ++ [.block ind toks])
    else ((ind, toks) :: rest, out)

def popBlocks (indentLen : Nat) (stack : BlockStack) (out : List LB) :
    BlockStack × List LB :=
  popBlocksF indentLen (stack.length + 1) stack out

/-- Append a line to the innermost open block, or yield it. -/
def attachLine (l : PyLine) (stack : BlockStack) (out : List LB) :
    BlockStack × List LB :=
  match stack with
  | [] => ([], out ++ [.line l])
  | (ind, toks) :: rest => ((ind, toks ++ [.line l]) :: rest, out)

/-- Flush all open blocks innermost-first at end of input. -/
def flushBlocksF : Nat → BlockStack → List LB → List LB
  | _, [], out => out
  | 0, _, out => out
  | fuel + 1, (ind, toks) :: rest, out =>
    match rest with
    | (ind2, toks2) :: rest2 =>
      flushBlocksF fuel ((ind2, toks2 ++ [.block ind toks]) :: rest2) out
    | [] => out ++ [.block ind toks]

def flushBlocks (stack : BlockStack) (out : List LB) : List LB :=
  flushBlocksF (stack.length + 1) stack out

/-- The line's literal indent text, or empty when it has no indent
token. -/
def indentTextOf (buf : List Char) (l : PyLine) : List Char :=
  match l.indent with
  | some ind => ind.text buf
  | none => []

/-- Source `identify_python_blocks` as a fold with explicit state. -/
def pyBlocksLoop (buf : List Char) (stack : BlockStack)
    (expect_indent : Option Token) (out : List LB) :
    List PyLine → Except Err (List LB)
  | [] =>
    match expect_indent with
    | some tok =>
      .error (.parsing "expected indent after colon at eof" tok.sidx tok.eidx)
    | none => .ok (flushBlocks stack out)
  | l :: rest =>
    if l.first_non_blank.isSome then
      let current_indent := stackDepth stack
      let indent_text := indentTextOf buf l
      match expect_indent with
      | some tok =>
        if indent_text.length ≤ current_indent then
          .error (.parsing "expected indent" tok.sidx tok.eidx)
        else if l.indent.isNone then .error .assertionError
        else
          let stack1 : BlockStack := (indent_text, []) :: stack
          let (stack2, out2) := attachLine l stack1 out
          pyBlocksLoop buf stack2 l.colon out2 rest
      | none =>
        if indent_text.length > current_indent then
          match l.first_non_blank with
          | some fnb =>
            .error (.parsing "unexpected indent" fnb.sidx fnb.eidx)
          | none => .error .assertionError
        else
          let (stack1, out1) := popBlocks indent_text.length stack out
          if indent_text.length > stackDepth stack1 then
            match l.first_non_blank with
            | some fnb =>
              .error (.parsing "unexpected indent" fnb.sidx fnb.eidx)
            | none => .error .assertionError
          else
            let (stack2, out2) := attachLine l stack1 out1
            pyBlocksLoop buf stack2 l.colon out2 rest
    else
      let (stack2, out2) := attachLine l stack out
      pyBlocksLoop buf stack2 expect_indent out2 rest

def identify_python_blocks (buf : List Char) (lines : List PyLine) :
    Except Err (List LB) :=
  pyBlocksLoop buf [] none [] lines

/-- The trailing-line condition of `fixup_end_of_block.scrape_end`:
a blank/comment-only line whose indent is missing or shallower than
the enclosing block's indent. -/
def scrapeCond (buf : List Char) (indent : List Char) : LB → Bool
  | .line l =>
    l.first_non_blank.isNone &&
      (match l.indent with
       | none => true
       | some ind => (ind.text buf).length < indent.length)
  | .block _ _ => false

/-- Source `scrape_end`: split off the maximal trailing run of
scrapeable lines. -/
def scrapeEnd (buf : List Char) (lines : List LB) (indent : List Char) :
    List LB × List LB :=
  let rev := lines.reverse
  ((rev.dropWhile (scrapeCond buf indent)).reverse,
   (rev.takeWhile (scrapeCond buf indent)).reverse)

/-- The second phase of `fixup_end_of_block.visit`: relocate each
block's scraped trailing lines to just after the block among its
siblings. -/
def fixupScan (buf : List Char) : List LB → List LB
  | [] => []
  | .block ind toks :: rest =>
    let (kept, scraped) := scrapeEnd buf toks ind
    .block ind kept :: (scraped ++ fixupScan buf rest)
  | e :: rest => e :: fixupScan buf rest

/-- Source `fixup_end_of_block.visit`: recurse into blocks first, then
scan this level.  `fuel` bounds the nesting depth. -/
def fixupVisitF (buf : List Char) : Nat → List LB → List LB
  | 0, l => l
  | fuel + 1, l =>
    fixupScan buf (l.map (fun e =>
      match e with
      | .block ind toks => .block ind (fixupVisitF buf fuel toks)
      | e => e))

def fixup_end_of_block (buf : List Char) (fuel : Nat) (l : List LB) : List LB :=
  fixupVisitF buf fuel l

/-! ## Python definition extractor (`pythonmerger.py`
`identify_function_definitions`) -/

def GElem.textOrEmpty (buf : List Char) : GElem → List Char
  | .tok t => t.text buf
  | .group _ _ => []

/-- Source `is_pre`: a decorator line (first significant token `@`) or
a non-indented comment-only line. -/
def is_pre (buf : List Char) : LB → Bool
  | .block _ _ => false
  | .line l =>
    match l.first_non_blank with
    | some t => t.text buf == ['@']
    | none =>
      if l.indent.isSome then false
      else if l.tokens.isEmpty then false
      else (l.tokens.head?.map (fun g => (g.textOrEmpty buf).take 1)
              |>.getD []) == ['#']

/-- Source `is_post`: a block, or a line with no significant token that
is not a non-indented comment. -/
def is_post (buf : List Char) : LB → Bool
  | .block _ _ => true
  | .line l =>
    if l.first_non_blank.isSome then false
    else if l.indent.isSome then true
    else if l.tokens.isEmpty then true
    else
      !((l.tokens.head?.map (fun g => (g.textOrEmpty buf).take 1)
          |>.getD []) == ['#'])

/-- The per-group computation of `identify_function_definitions`:
slice the text between the group's first start and last end, and take
the token after `def` as the name when the group's first line is a
def. -/
def extractEntry (buf : List Char) (depthFuel : Nat) (first_line : LB)
    (g0 : LB) (grest : List LB) : Except Err (List Char × List Char) :=
  match LB.startPosF depthFuel g0,
        LB.endPosF depthFuel (lastLB g0 grest) with
  | .error e, _ => .error e
  | _, .error e => .error e
  | .ok stPos, .ok enPos =>
    let full_text := sliceList buf stPos.index enPos.index
    match LB.fnbF depthFuel first_line with
    | some t =>
      if t.text buf = ['d', 'e', 'f'] then
        match first_line with
        | .block _ _ => .error .assertionError
        | .line fl =>
          match fl.tokens.get? 1 with
          | none => .error .indexError
          | some (.group _ _) => .error .assertionError
          | some (.tok name) =>
            if name.text buf = [] then .error .assertionError
            else .ok (name.text buf, full_text)
      else .ok ([], full_text)
    | none => .ok ([], full_text)

def extractLoopF (buf : List Char) (depthFuel : Nat) :
    Nat → List LB → Except Err (List (List Char × List Char))
  | 0, _ => .error .assertionError
  | _ + 1, [] => .ok []
  | fuel + 1, blocks =>
    let pres := blocks.takeWhile (is_pre buf)
    match blocks.drop pres.length with
    | [] => .error .indexError
    | first_line :: rest2 =>
      let posts := rest2.takeWhile (is_post buf)
      let rest3 := rest2.drop posts.length
      match pres ++ first_line :: posts with
      | [] => .error .indexError
      | g0 :: grest =>
        match extractEntry buf depthFuel first_line g0 grest with
        | .error e => .error e
        | .ok en => do
          let tail ← extractLoopF buf depthFuel fuel rest3
          .ok (en :: tail)

/-- The grouping loop with adequate fuel: each iteration consumes at
least one element, and the nesting depth is below `depthFuel` whenever
it is at least the number of elements plus one. -/
def extractLoop (buf : List Char) (depthFuel : Nat) (blocks : List LB) :
    Except Err (List (List Char × List Char)) :=
  extractLoopF buf depthFuel (blocks.length + 1) blocks

/-- Source `identify_function_definitions`.  The fuel passed to the
nested-structure helpers is the token count plus one, which bounds
every nesting depth in the parse. -/
def identify_function_definitions (text : List Char) :
    Except Err (List (List Char × List Char)) := do
  let lexer_output ← iter_python_tokens text
  let matched_parens ← iter_match_python_parens text lexer_output
  let lines ← identify_python_lines text matched_parens
  let blocks ← identify_python_blocks text lines
  let fuel := lexer_output.length + lines.length + 2
  let blocks := fixup_end_of_block text fuel blocks
  extractLoop text fuel blocks

/-! ## `difflib.SequenceMatcher` (CPython), as used by the mergers

Both mergers construct matchers without an `isjunk` predicate, so the
junk set `bjunk` is always empty; `autojunk` (popular-element purging
of `b2j` for sequences of 200 or more elements) is disabled only for
the ancestor-to-current matcher.  Dictionaries are modelled as
insertion-ordered association lists. -/

namespace Difflib

/-- Sequence elements are extracted definition names. -/
abbrev Elt := List Char

/-- `b2j` construction: element to list of its indices in `b`, in
insertion order. -/
def addB2j (m : List (Elt × List Nat)) (e : Elt) (j : Nat) :
    List (Elt × List Nat) :=
  if m.any (fun p => p.1 == e) then
    m.map (fun p => if p.1 == e then (p.1, p.2 ++ [j]) else p)
  else m ++ [(e, [j])]

def buildB2j (b : List Elt) : List (Elt × List Nat) :=
  (b.enum).foldl (fun m p => addB2j m p.2 p.1) []

/-- The `autojunk` purge: for `len(b) >= 200`, delete elements with
more than `len(b) // 100 + 1` occurrences. -/
def purgePopular (autojunk : Bool) (n : Nat) (m : List (Elt × List Nat)) :
    List (Elt × List Nat) :=
  if autojunk && n ≥ 200 then
    let ntest := n / 100 + 1
    m.filter (fun p => !(p.2.length > ntest))
  else m

def b2jGet (m : List (Elt × List Nat)) (e : Elt) : List Nat :=
  match m.find? (fun p => p.1 == e) with
  | some p => p.2
  | none => []

/-- `j2len.get(k, 0)`; Python's `j2len.get(j-1, 0)` with `j == 0`
looks up the key `-1`, which is never present. -/
def j2lenGet (m : List (Nat × Nat)) (j : Nat) : Nat :=
  if j = 0 then 0
  else
    match m.find? (fun p => p.1 == j - 1) with
    | some p => p.2
    | none => 0

def j2lenSet (m : List (Nat × Nat)) (k v : Nat) : List (Nat × Nat) :=
  if m.any (fun p => p.1 == k) then
    m.map (fun p => if p.1 == k then (k, v) else p)
  else m ++ [(k, v)]

/-- The inner loop of `find_longest_match` over `b2j[a[i]]` (skipping
`j < blo`, breaking at `j >= bhi`), threading `newj2len` and the best
match. -/
def flmInner (j2len : List (Nat × Nat)) (i blo bhi : Nat) :
    List Nat → List (Nat × Nat) → Nat × Nat × Nat →
    List (Nat × Nat) × (Nat × Nat × Nat)
  | [], newj2len, best => (newj2len, best)
  | j :: js, newj2len, best =>
    if j < blo then flmInner j2len i blo bhi js newj2len best
    else if j ≥ bhi then (newj2len, best)
    else
      let k := j2lenGet j2len j + 1
      let newj2len' := j2lenSet newj2len j k
      let best' :=
        -- Python computes i-k+1 / j-k+1 with ints; k is at most i+1 and
        -- j+1, so the reassociated forms below agree.
        if k > best.2.2 then (i + 1 - k, j + 1 - k, k) else best
      flmInner j2len i blo bhi js newj2len' best'

/-- The outer loop of `find_longest_match` over `i in range(alo, ahi)`. -/
def flmOuter (a : List Elt) (b2j : List (Elt × List Nat)) (blo bhi : Nat) :
    List Nat → List (Nat × Nat) → Nat × Nat × Nat → Nat × Nat × Nat
  | [], _, best => best
  | i :: is2, j2len, best =>
    let (newj2len, best') :=
      flmInner j2len i blo bhi (b2jGet b2j (a.getD i [])) [] best
    flmOuter a b2j blo bhi is2 newj2len best'

/-- One of the four extension loops of `find_longest_match`: extend
the best match leftwards while the adjacent elements are equal and the
junk status of `b[bestj-1]` matches `junkFlag` (the junk set is empty
in this repository, so the `junkFlag = true` loops never fire). -/
def extendLeftF (a b : List Elt) (bjunk : List Elt) (junkFlag : Bool)
    (alo blo : Nat) : Nat → Nat × Nat × Nat → Nat × Nat × Nat
  | 0, best => best
  | fuel + 1, (besti, bestj, bestsize) =>
    if besti > alo ∧ bestj > blo ∧
       bjunk.contains (b.getD (bestj - 1) []) = junkFlag ∧
       a.getD (besti - 1) [] = b.getD (bestj - 1) [] then
      extendLeftF a b bjunk junkFlag alo blo fuel
        (besti - 1, bestj - 1, bestsize + 1)
    else (besti, bestj, bestsize)

def extendLeft (a b : List Elt) (bjunk : List Elt) (junkFlag : Bool)
    (alo blo : Nat) (best : Nat × Nat × Nat) : Nat × Nat × Nat :=
  extendLeftF a b bjunk junkFlag alo blo (best.1 + 1) best

def extendRightF (a b : List Elt) (bjunk : List Elt) (junkFlag : Bool)
    (ahi bhi : Nat) : Nat → Nat × Nat × Nat → Nat × Nat × Nat
  | 0, best => best
  | fuel + 1, (besti, bestj, bestsize) =>
    if besti + bestsize < ahi ∧ bestj + bestsize < bhi ∧
       bjunk.contains (b.getD (bestj + bestsize) []) = junkFlag ∧
       a.getD (besti + bestsize) [] = b.getD (bestj + bestsize) [] then
      extendRightF a b bjunk junkFlag ahi bhi fuel (besti, bestj, bestsize + 1)
    else (besti, bestj, bestsize)

def extendRight (a b : List Elt) (bjunk : List Elt) (junkFlag : Bool)
    (ahi bhi : Nat) (best : Nat × Nat × Nat) : Nat × Nat × Nat :=
  extendRightF a b bjunk junkFlag ahi bhi (ahi + 1 - (best.1 + best.2.2)) best

/-- CPython `SequenceMatcher.find_longest_match`: dynamic programming
over `b2j`, then non-junk extensions, then junk extensions (vacuous
here: `bjunk` is empty). -/
def find_longest_match (a b : List Elt) (b2j : List (Elt × List Nat))
    (alo ahi blo bhi : Nat) : Nat × Nat × Nat :=
  let bjunk : List Elt := []
  let best := flmOuter a b2j blo bhi (List.range' alo (ahi - alo)) []
    (alo, blo, 0)
  let best := extendLeft a b bjunk false alo blo best
  let best := extendRight a b bjunk false ahi bhi best
  let best := extendLeft a b bjunk true alo blo best
  let best := extendRight a b bjunk true ahi bhi best
  best

/-- The queue loop of `get_matching_blocks` (`queue.pop()` is LIFO:
children are pushed left-then-right at the head, so the right window,
pushed last, is popped first; processing order does not affect the
resulting block set, which is sorted afterwards).  `fuel` only forces
termination. -/
def matchingBlocksLoop (a b : List Elt) (b2j : List (Elt × List Nat)) :
    Nat → List (Nat × Nat × Nat × Nat) → List (Nat × Nat × Nat) →
    List (Nat × Nat × Nat)
  | 0, _, acc => acc
  | _ + 1, [], acc => acc
  | fuel + 1, (alo, ahi, blo, bhi) :: queue, acc =>
    let (i, j, k) := find_longest_match a b b2j alo ahi blo bhi
    if k ≠ 0 then
      let q1 := if alo < i ∧ blo < j then [(alo, i, blo, j)] else []
      let q2 := if i + k < ahi ∧ j + k < bhi then [(i + k, ahi, j + k, bhi)] else []
      matchingBlocksLoop a b b2j fuel (q2 ++ q1 ++ queue) (acc ++ [(i, j, k)])
    else
      matchingBlocksLoop a b b2j fuel queue acc

/-- Ascending lexicographic order on match triples (Python `.sort()`). -/
def tripleLE (x y : Nat × Nat × Nat) : Bool :=
  x.1 < y.1 ∨ (x.1 = y.1 ∧ (x.2.1 < y.2.1 ∨ (x.2.1 = y.2.1 ∧ x.2.2 ≤ y.2.2)))

def insertTriple (x : Nat × Nat × Nat) : List (Nat × Nat × Nat) →
    List (Nat × Nat × Nat)
  | [] => [x]
  | y :: rest => if tripleLE x y then x :: y :: rest else y :: insertTriple x rest

def sortTriples : List (Nat × Nat × Nat) → List (Nat × Nat × Nat)
  | [] => []
  | x :: rest => insertTriple x (sortTriples rest)

/-- The adjacent-merge loop of `get_matching_blocks`. -/
def mergeAdjacent : Nat → Nat → Nat → List (Nat × Nat × Nat) →
    List (Nat × Nat × Nat)
  | i1, j1, k1, [] => if k1 ≠ 0 then [(i1, j1, k1)] else []
  | i1, j1, k1, (i2, j2, k2) :: rest =>
    if i1 + k1 = i2 ∧ j1 + k1 = j2 then mergeAdjacent i1 j1 (k1 + k2) rest
    else if k1 ≠ 0 then (i1, j1, k1) :: mergeAdjacent i2 j2 k2 rest
    else mergeAdjacent i2 j2 k2 rest

def get_matching_blocks (a b : List Elt) (b2j : List (Elt × List Nat)) :
    List (Nat × Nat × Nat) :=
  let la := a.length
  let lb := b.length
  let blocks := matchingBlocksLoop a b b2j (2 * (la + lb) + 4)
    [(0, la, 0, lb)] []
  mergeAdjacent 0 0 0 (sortTriples blocks) ++ [(la, lb, 0)]

/-- CPython `SequenceMatcher.get_opcodes`. -/
def opcodesLoop : Nat → Nat → List (Nat × Nat × Nat) →
    List (String × Nat × Nat × Nat × Nat)
  | _, _, [] => []
  | i, j, (ai, bj, size) :: rest =>
    let tag : String :=
      if i < ai ∧ j < bj then "replace"
      else if i < ai then "delete"
      else if j < bj then "insert"
      else ""
    let pre := if tag ≠ "" then [(tag, i, ai, j, bj)] else []
    let i2 := ai + size
    let j2 := bj + size
    let eq := if size ≠ 0 then [("equal", ai, i2, bj, j2)] else []
    pre ++ eq ++ opcodesLoop i2 j2 rest

def get_opcodes (a b : List Elt) (autojunk : Bool) :
    List (String × Nat × Nat × Nat × Nat) :=
  let b2j := purgePopular autojunk b.length (buildB2j b)
  opcodesLoop 0 0 (get_matching_blocks a b b2j)

end Difflib

/-! ## The three-way merge engines (`cmakemerger.py` / `pythonmerger.py`
`smart_merge`) -/

/-- Python list indexing (`IndexError` out of range). -/
def pyGet (l : List α) (i : Nat) : Except Err α :=
  match l.get? i with
  | some x => .ok x
  | none => .error .indexError

/-- Python list item assignment (`IndexError` out of range). -/
def pySet (l : List α) (i : Nat) (x : α) : Except Err (List α) :=
  if i < l.length then .ok (l.set i x) else .error .indexError

/-- `zip(*pairs)` unpacked into two tuples; on an empty list the
unpacking raises `ValueError` ("not enough values to unpack"). -/
def zipStar (defs : List (Difflib.Elt × Difflib.Elt)) :
    Except Err (List Difflib.Elt × List Difflib.Elt) :=
  match defs with
  | [] => .error .valueError
  | _ => .ok (defs.map Prod.fst, defs.map Prod.snd)

/-- Apply one matcher's opcodes: `equal` records matches, anything else
marks covered ancestor slots deleted and records the side's insertions
at slot `i1` (Python raises `IndexError` when `i1` is past the end of
the insertion array). -/
def applyOpcodes (names texts : List Difflib.Elt) :
    List (String × Nat × Nat × Nat × Nat) →
    List Int → List Bool → List (List (Difflib.Elt × Difflib.Elt)) →
    Except Err (List Int × List Bool × List (List (Difflib.Elt × Difflib.Elt)))
  | [], matchA, deleteA, insertA => .ok (matchA, deleteA, insertA)
  | (tag, i1, i2, j1, j2) :: ops, matchA, deleteA, insertA =>
    if tag = "equal" then do
      let matchA2 ← (List.range (j2 - j1)).foldlM
        (fun (m : List Int) k => pySet m (i1 + k) (Int.ofNat (j1 + k))) matchA
      applyOpcodes names texts ops matchA2 deleteA insertA
    else do
      let deleteA2 ← (List.range' i1 (i2 - i1)).foldlM
        (fun (d : List Bool) i => pySet d i true) deleteA
      let insertA2 ← (List.range' j1 (j2 - j1)).foldlM
        (fun (ins : List (List (Difflib.Elt × Difflib.Elt))) j => do
          let cur ← pyGet ins i1
          let nm ← pyGet names j
          let tx ← pyGet texts j
          pySet ins i1 (cur ++ [(nm, tx)])) insertA
      applyOpcodes names texts ops matchA deleteA2 insertA2

/-- One slot of the final walk shared by both mergers. -/
structure Slot where
  name : Difflib.Elt
  text : Difflib.Elt
  delete : Bool
  current_ix : Int
  other_ix : Int
  current_ins : List (Difflib.Elt × Difflib.Elt)
  other_ins : List (Difflib.Elt × Difflib.Elt)

/-- Python `zip` over the seven slot components (stops at the shortest
input, which silently ignores trailing insertion slots in the Python
merger). -/
def zipSlots : List Difflib.Elt → List Difflib.Elt → List Bool →
    List Int → List Int → List (List (Difflib.Elt × Difflib.Elt)) →
    List (List (Difflib.Elt × Difflib.Elt)) → List Slot
  | n :: ns, t :: ts, d :: ds, ci :: cis, oi :: ois, cin :: cins, oin :: oins =>
    ⟨n, t, d, ci, oi, cin, oin⟩ :: zipSlots ns ts ds cis ois cins oins
  | _, _, _, _, _, _, _ => []

/-- The final walk over ancestor slots. -/
def slotLoop (current_texts other_texts : List Difflib.Elt) :
    List Slot → List Difflib.Elt → List Difflib.Elt → List Difflib.Elt →
    Except Err (List Difflib.Elt × List Difflib.Elt × List Difflib.Elt)
  | [], anc_out, cur_out, oth_out => .ok (anc_out, cur_out, oth_out)
  | s :: slots, anc_out, cur_out, oth_out => do
    let conflict :=
      s.current_ins.any (fun ci => s.other_ins.any (fun oi => ci.1 == oi.1))
    let (anc1, cur1, oth1) :=
      if conflict then
        (anc_out, cur_out ++ s.current_ins.map Prod.snd,
         oth_out ++ s.other_ins.map Prod.snd)
      else
        let both := (s.current_ins ++ s.other_ins).map Prod.snd
        (anc_out ++ both, cur_out ++ both, oth_out ++ both)
    let anc2 := if !(s.name ≠ [] ∧ s.delete) then anc1 ++ [s.text] else anc1
    let cur2 ←
      if s.current_ix ≠ -1 then do
        let t ← pyGet current_texts s.current_ix.toNat
        pure (cur1 ++ [t])
      else pure cur1
    let oth2 ←
      if s.other_ix ≠ -1 then do
        let t ← pyGet other_texts s.other_ix.toNat
        pure (oth1 ++ [t])
      else pure oth1
    slotLoop current_texts other_texts slots anc2 cur2 oth2

/-- Source `cmakemerger.py` `smart_merge`: note the virtual trailing
ancestor slot (the extra empty name/text/flags in the final `zip`) and
that only the ancestor-to-current matcher passes `autojunk=False`. -/
def cm_smart_merge (ancestor current other : List Char) :
    Except Err (List Char × List Char × List Char) := do
  let adefs ← identify_definitions ancestor
  let (ancestor_names, ancestor_texts) ← zipStar adefs
  let n := ancestor_names.length
  let ancestor_delete := List.replicate n false
  let current_match := List.replicate n (-1 : Int)
  let other_match := List.replicate n (-1 : Int)
  let current_insert : List (List (Difflib.Elt × Difflib.Elt)) :=
    List.replicate (n + 1) []
  let other_insert : List (List (Difflib.Elt × Difflib.Elt)) :=
    List.replicate (n + 1) []
  let cdefs ← identify_definitions current
  let (current_names, current_texts) ← zipStar cdefs
  let odefs ← identify_definitions other
  let (other_names, other_texts) ← zipStar odefs
  let cur_ops := Difflib.get_opcodes ancestor_names current_names false
  let (current_match, ancestor_delete, current_insert) ←
    applyOpcodes current_names current_texts cur_ops
      current_match ancestor_delete current_insert
  let oth_ops := Difflib.get_opcodes ancestor_names other_names true
  let (other_match, ancestor_delete, other_insert) ←
    applyOpcodes other_names other_texts oth_ops
      other_match ancestor_delete other_insert
  let slots := zipSlots (ancestor_names ++ [[]]) (ancestor_texts ++ [[]])
    (ancestor_delete ++ [false]) (current_match ++ [-1]) (other_match ++ [-1])
    current_insert other_insert
  let (anc_out, cur_out, oth_out) ←
    slotLoop current_texts other_texts slots [] [] []
  .ok (anc_out.flatten, cur_out.flatten, oth_out.flatten)

/-- Source `pythonmerger.py` `smart_merge`: no virtual trailing slot —
the insertion arrays have only `len(ancestor_names)` entries, so an
insertion past the last ancestor definition raises `IndexError`; the
ancestor-to-other matcher again uses the default `autojunk=True`. -/
def py_smart_merge (ancestor current other : List Char) :
    Except Err (List Char × List Char × List Char) := do
  let adefs ← identify_function_definitions ancestor
  let (ancestor_names, ancestor_texts) ← zipStar adefs
  let n := ancestor_names.length
  let ancestor_delete := List.replicate n false
  let current_match := List.replicate n (-1 : Int)
  let other_match := List.replicate n (-1 : Int)
  let current_insert : List (List (Difflib.Elt × Difflib.Elt)) :=
    List.replicate n []
  let other_insert : List (List (Difflib.Elt × Difflib.Elt)) :=
    List.replicate n []
  let cdefs ← identify_function_definitions current
  let (current_names, current_texts) ← zipStar cdefs
  let odefs ← identify_function_definitions other
  let (other_names, other_texts) ← zipStar odefs
  let cur_ops := Difflib.get_opcodes ancestor_names current_names false
  let (current_match, ancestor_delete, current_insert) ←
    applyOpcodes current_names current_texts cur_ops
      current_match ancestor_delete current_insert
  let oth_ops := Difflib.get_opcodes ancestor_names other_names true
  let (other_match, ancestor_delete, other_insert) ←
    applyOpcodes other_names other_texts oth_ops
      other_match ancestor_delete other_insert
  let slots := zipSlots ancestor_names ancestor_texts ancestor_delete
    current_match other_match current_insert other_insert
  let (anc_out, cur_out, oth_out) ←
    slotLoop current_texts other_texts slots [] [] []
  .ok (anc_out.flatten, cur_out.flatten, oth_out.flatten)

/-! ## `pythonparser.py` `flatten`

The source dispatches on `isinstance` over `Token`, `Parenthesized`,
`Line` and `Block`; anything else (notably an `IterParenthesized`
group inside a merger-pipeline `Line`) matches no branch and is
silently skipped. -/

def flattenCF : Nat → CElem → List Token
  | _, .tok t => [t]
  | 0, .paren left _ right => [left, right]
  | fuel + 1, .paren left inner right =>
    left :: (inner.map (flattenCF fuel)).flatten ++ [right]

/-- `flatten` restricted to the elements of a merger-pipeline `Line`:
plain tokens yield themselves; an `IterParenthesized` group is not an
instance of any of the four dispatched classes and is skipped. -/
def flattenGE : List GElem → List Token
  | [] => []
  | .tok t :: rest => t :: flattenGE rest
  | .group _ _ :: rest => flattenGE rest

def flattenPyLine (l : PyLine) : List Token :=
  flattenGE l.tokens

def concatTexts (buf : List Char) (ts : List Token) : List Char :=
  (ts.map (fun t => t.text buf)).flatten

/-- The full Python front pipeline up to logical lines. -/
def pyPipelineLines (text : List Char) : Except Err (List PyLine) := do
  let ts ← iter_python_tokens text
  let es ← iter_match_python_parens text ts
  identify_python_lines text es

/-- The full Python front pipeline up to the fixed-up top-level
Line/Block sequence (as consumed by `identify_function_definitions`). -/
def pyPipelineBlocks (text : List Char) : Except Err (List LB) := do
  let ts ← iter_python_tokens text
  let es ← iter_match_python_parens text ts
  let ls ← identify_python_lines text es
  let bs ← identify_python_blocks text ls
  .ok (fixup_end_of_block text (ts.length + ls.length + 2) bs)

/-- The full CMake front pipeline up to lines. -/
def cmPipelineLines (text : List Char) : Except Err (List CLine) := do
  let ts ← iter_cmake_tokens text
  let es ← iter_match_parens text cmakeParens ts
  identify_cmake_lines text (ts.length + 1) es

/-! ## Specification-side characterizations

These definitions restate claim conditions in direct form, to be
compared with the translated source functions. -/

/-- Stack-based bracket check (following the claim/spec wording for
C5): scan the token stream keeping the stack of expected closers;
report the first anomaly — an unpaired closer with an empty stack, or
a closer that differs from the expected one — as the corresponding
error value.  A balanced stream, or one whose only defect is an
unmatched opener at end of input, reports nothing. -/
def parenScanErr (buf : List Char) (parens : List (List Char × List Char)) :
    List Token → List (List Char) → Option Err
  | [], _ => none
  | t :: rest, stack =>
    let tx := t.text buf
    match lookupParen parens tx with
    | some closer => parenScanErr buf parens rest (closer :: stack)
    | none =>
      if isCloser parens tx then
        match stack with
        | [] => some (.parsing "unexpected parenthesis" t.sidx t.eidx)
        | c :: stack2 =>
          if tx == c then parenScanErr buf parens rest stack2
          else some (.parsing (mismatchMsg c) t.sidx t.eidx)
      else parenScanErr buf parens rest stack

mutual

/-- The leaf tokens of one generator element, in order (the group's
opening token followed by everything its sub-generator yielded). -/
def gFlat : GElem → List Token
  | .tok t => [t]
  | .group left ys => left :: gFlatList ys

def gFlatList : List GElem → List Token
  | [] => []
  | e :: rest => gFlat e ++ gFlatList rest

end

mutual

/-- Source `pythonparser.py` `flatten` on collected structures: a
token yields itself; a `Parenthesized` yields its opening token, its
flattened interior, and its closing token. -/
def flattenC : CElem → List Token
  | .tok t => [t]
  | .paren left inner right => left :: flattenCList inner ++ [right]

def flattenCList : List CElem → List Token
  | [] => []
  | e :: rest => flattenC e ++ flattenCList rest

end

namespace Difflib

/-- Specification-side predicate (claim C4): the aligned slots of a
matching-block triple hold pairwise equal elements. -/
def matchTriple (a b : List Elt) (t : Nat × Nat × Nat) : Prop :=
  ∀ m, m < t.2.2 → a.getD (t.1 + m) [] = b.getD (t.2.1 + m) []

/-- Every index stored under a key of the position map points at an
occurrence of that key in `b`. -/
def b2jSound (b : List Elt) (m : List (Elt × List Nat)) : Prop :=
  ∀ p ∈ m, ∀ j ∈ p.2, b.getD j [] = p.1

end Difflib

/-- Specification-side tiling predicate (claim C1): the spans cover
`[s, e)` contiguously and in order. -/
def spanTiles : List Span → Nat → Nat → Prop
  | [], s, e => s = e
  | sp :: rest, s, e => sp.start.index = s ∧ s ≤ sp.stop.index ∧
      spanTiles rest sp.stop.index e

/-- The text the extractor slices for one line: from the first
element's start to the last element's end. -/
def cmLineText (buf : List Char) (l : CLine) : List Char :=
  match l.tokens.head?, l.tokens.getLast? with
  | some h, some e => sliceList buf h.startPos.index e.endPos.index
  | _, _ => []

/-! # Theorems settling the claims -/

/-- Claim C1 is false as stated: the input "x " (a trailing blank after
the last token) parses without error in the flat CMake dialect, yet the
single extracted Definition text "x" does not reproduce the input — the
trailing space is lexed as a skipped blank gap covered by no token. -/
theorem claim_C1_counterexample :
    identify_definitions ("x ".data) = .ok [([], "x".data)] ∧
    (([(([] : List Char), "x".data)].map Prod.snd).flatten : List Char) ≠
      "x ".data := by
  exact ⟨by decide, by decide⟩

/-- Claim C2's failing input: merging three empty revisions raises
`ValueError` (`zip(*[])` unpacking) in both dialects instead of
returning the empty no-op triple. -/
theorem claim_C2 :
    cm_smart_merge "".data "".data "".data = .error .valueError ∧
    py_smart_merge "".data "".data "".data = .error .valueError := by
  exact ⟨by decide, by decide⟩

/-- Claim C3's failing input: in the Python dialect an append-at-end in
only `current` raises `IndexError` (the insertion arrays have no
virtual trailing slot, unlike the CMake merger), instead of producing
the union; the repository's own test `pythonmerge_basic_end` exercises
exactly this case. -/
theorem claim_C3 :
    py_smart_merge ("def f1():\n\tpass\n\n".data)
      ("def f1():\n\tpass\n\ndef f2():\n\tpass\n\n".data)
      ("def f1():\n\tpass\n\n".data) = .error .indexError := by
  decide

/-- Claim C4 is false as stated: two opaque (empty-named) definitions
are matched to each other by the alignment.  With ancestor "x\n" and
current "y\n" both name sequences are `[""]`, and the
ancestor-to-current matcher (exactly as invoked by `smart_merge`, with
`autojunk=False`) produces an `equal` opcode pairing the two opaque
slots. -/
theorem claim_C4_counterexample :
    identify_definitions ("x\n".data) = .ok [([], "x\n".data)] ∧
    identify_definitions ("y\n".data) = .ok [([], "y\n".data)] ∧
    Difflib.get_opcodes [[]] [[]] false = [("equal", 0, 1, 0, 1)] := by
  exact ⟨by decide, by decide, by decide⟩

/-- Claim C5 is false as stated: the input "f(x" has an unmatched "("
with no closer before end of input, yet bracket matching raises no
error at all — the truncated group is silently closed at its last
token — and a Definition *is* produced for the file. -/
theorem claim_C5_counterexample :
    identify_definitions ("f(x".data) = .ok [([], "f(x".data)] := by
  decide

/-- Claim C7 is false as stated: a comment token immediately after a
backslash does not raise (comments bypass the backslash check), and the
newline after the comment is still treated as continued — the input
lexes to backslash/comment/newline and yields a single logical line
with no error. -/
theorem claim_C7_counterexample :
    (pyPipelineLines ("\\#c\n".data)).map
      (fun ls => ls.map (fun l =>
        (l.tokens.map GElem.kind, l.first_non_blank.map Token.kind))) =
    .ok [(["backslash", "comment", "newline"], some "backslash")] := by
  decide

/-- Claim C8 is false as stated: flattening the parsed Line sequence of
"x y" and concatenating token text yields "xy", not the original
source — whitespace skipped between tokens is covered by no token. -/
theorem claim_C8_counterexample :
    (pyPipelineLines ("x y".data)).map
      (fun ls => (ls.map (fun l =>
        concatTexts ("x y".data) (flattenPyLine l))).flatten) =
    .ok ("xy".data) ∧ "xy".data ≠ "x y".data := by
  exact ⟨by decide, by decide⟩

/-- Claim C10 is false as stated: on the error-free input "\ry\n" the
carriage return is a skipped blank gap, so the first line yielded by
`identify_cmake_lines` starts at column 1; the extractor's assertion
then fails in `identify_definitions`. -/
theorem claim_C10_counterexample :
    (cmPipelineLines ("\r".data ++ "y\n".data)).map
      (fun ls => ls.map (fun l => (l.startPos).map Position.column)) =
    .ok [.ok 1] ∧
    identify_definitions ("\r".data ++ "y\n".data) = .error .assertionError := by
  exact ⟨by decide, by decide⟩


/-! ## Supporting lemmas for the block-segmenter claim -/

theorem popBlocksF_depth_le (n : Nat) :
    ∀ fuel stack out, stack.length < fuel →
      stackDepth (popBlocksF n fuel stack out).1 ≤ n := by
  intro fuel
  induction fuel with
  | zero => intro stack out h; omega
  | succ fuel ih =>
    intro stack out h
    match stack with
    | [] => simp [popBlocksF, stackDepth]
    | (ind, toks) :: rest =>
      simp only [popBlocksF]
      by_cases hlt : n < ind.length
      · simp only [if_pos hlt]
        match rest with
        | (ind2, toks2) :: rest2 =>
          apply ih
          simp at h ⊢
          omega
        | [] => simp [stackDepth]
      · simp only [if_neg hlt, stackDepth]
        omega

theorem popBlocks_depth_le (n : Nat) (stack : BlockStack) (out : List LB) :
    stackDepth (popBlocks n stack out).1 ≤ n := by
  apply popBlocksF_depth_le
  omega

theorem popBlocks_of_depth_lt (n : Nat) (stack : BlockStack) (out : List LB)
    (h : stackDepth stack < n) : popBlocks n stack out = (stack, out) := by
  match stack with
  | [] => simp [popBlocks, popBlocksF]
  | (ind, toks) :: rest =>
    simp only [stackDepth] at h
    simp [popBlocks, popBlocksF, Nat.not_lt.mpr (Nat.le_of_lt h)]

/-- Claim C6 (confirmed): at a line with a non-blank first token while
an indent is expected, an indent length strictly exceeding the current
top-of-stack depth (0 for an empty stack) pushes a new Block keyed by
the literal indent text (the line becoming its first child), and
otherwise a ParsingError "expected indent" is raised; when no indent is
expected, after popping strictly-shallower blocks the indent length
must equal the resulting level exactly or "unexpected indent" is
raised, and on an exact match processing continues with the line
attached and the expectation reset from the line's colon; an
outstanding expected indent at end of input raises an error. -/
theorem claim_C6 (buf : List Char) (stack : BlockStack) (out : List LB)
    (tok fnb : Token) (l : PyLine) (rest : List PyLine)
    (hfnb : l.first_non_blank = some fnb) :
    ((indentTextOf buf l).length > stackDepth stack →
      pyBlocksLoop buf stack (some tok) out (l :: rest) =
        pyBlocksLoop buf ((indentTextOf buf l, [LB.line l]) :: stack)
          l.colon out rest) ∧
    ((indentTextOf buf l).length ≤ stackDepth stack →
      pyBlocksLoop buf stack (some tok) out (l :: rest) =
        .error (.parsing "expected indent" tok.sidx tok.eidx)) ∧
    ((indentTextOf buf l).length ≠
        stackDepth (popBlocks (indentTextOf buf l).length stack out).1 →
      pyBlocksLoop buf stack none out (l :: rest) =
        .error (.parsing "unexpected indent" fnb.sidx fnb.eidx)) ∧
    ((indentTextOf buf l).length =
        stackDepth (popBlocks (indentTextOf buf l).length stack out).1 →
      pyBlocksLoop buf stack none out (l :: rest) =
        (let (stack1, out1) := popBlocks (indentTextOf buf l).length stack out
         let (stack2, out2) := attachLine l stack1 out1
         pyBlocksLoop buf stack2 l.colon out2 rest)) ∧
    (pyBlocksLoop buf stack (some tok) out [] =
      .error (.parsing "expected indent after colon at eof" tok.sidx tok.eidx)) := by
  have hs : l.first_non_blank.isSome = true := by rw [hfnb]; rfl
  refine ⟨?_, ?_, ?_, ?_, ?_⟩
  · intro hgt
    have hind : l.indent.isNone = false := by
      cases hi : l.indent with
      | none => exfalso; simp [indentTextOf, hi] at hgt
      | some _ => rfl
    have h1 : ¬ ((indentTextOf buf l).length ≤ stackDepth stack) := by omega
    simp [pyBlocksLoop, hs, h1, hind, attachLine]
  · intro hle
    simp [pyBlocksLoop, hs, hle]
  · intro hne
    by_cases hpre : stackDepth stack < (indentTextOf buf l).length
    · simp [pyBlocksLoop, hs, hpre, hfnb]
    · have hdl := popBlocks_depth_le (indentTextOf buf l).length stack out
      rcases hpb : popBlocks (indentTextOf buf l).length stack out with ⟨stack1, out1⟩
      rw [hpb] at hdl hne
      have hgt2 : stackDepth stack1 < (indentTextOf buf l).length := by
        simp at hdl hne ⊢
        omega
      simp [pyBlocksLoop, hs, hpre, hfnb, hpb, hgt2]
  · intro heq
    have hpre : ¬ stackDepth stack < (indentTextOf buf l).length := by
      intro hgt
      rw [popBlocks_of_depth_lt _ _ _ hgt] at heq
      simp at heq
      omega
    rcases hpb : popBlocks (indentTextOf buf l).length stack out with ⟨stack1, out1⟩
    rw [hpb] at heq
    have hng : ¬ stackDepth stack1 < (indentTextOf buf l).length := by
      simp at heq ⊢
      omega
    rcases ha : attachLine l stack1 out1 with ⟨stack2, out2⟩
    simp [pyBlocksLoop, hs, hpre, hpb, hng, ha]
  · simp [pyBlocksLoop]

/-- Witness for the block-segmenter claim: a top-level line "x" (no
indent) arriving while an indent is expected after "if y:" raises
"expected indent". -/
theorem claim_C6_witness :
    pyBlocksLoop ("x".data) [] (some ⟨"op", ⟨⟨1, 1, 1⟩, ⟨2, 1, 2⟩⟩⟩) []
      [⟨[.tok ⟨"name", ⟨⟨0, 1, 0⟩, ⟨1, 1, 1⟩⟩⟩], none, none, none,
        some ⟨"name", ⟨⟨0, 1, 0⟩, ⟨1, 1, 1⟩⟩⟩⟩] =
      .error (.parsing "expected indent" 1 2) := by
  have h := claim_C6 ("x".data) [] []
    ⟨"op", ⟨⟨1, 1, 1⟩, ⟨2, 1, 2⟩⟩⟩ ⟨"name", ⟨⟨0, 1, 0⟩, ⟨1, 1, 1⟩⟩⟩
    ⟨[.tok ⟨"name", ⟨⟨0, 1, 0⟩, ⟨1, 1, 1⟩⟩⟩], none, none, none,
      some ⟨"name", ⟨⟨0, 1, 0⟩, ⟨1, 1, 1⟩⟩⟩⟩ [] rfl
  exact h.2.1 (by decide)

/-- Claim C7 (amended behavior of the backslash state, confirmed for
the amended statement): with a backslash pending, a newline token is
appended without terminating the line (and clears the pending
backslash); a comment token is appended without error and leaves the
backslash pending; every other token kind, and every parenthesized
group, raises "expected newline after backslash"; a pending backslash
at end of input raises "unexpected EOF after backslash".  (An indent
token cannot directly follow a backslash in lexer output, and is
skipped silently by the segmenter when the current line is non-empty.) -/
theorem claim_C7 (buf : List Char) (st : PyLineState) (b : Token)
    (hb : st.got_backslash = some b) :
    (∀ nl rest, nl.kind = "newline" →
      pyLinesLoop buf st (.tok nl :: rest) =
        pyLinesLoop buf ⟨st.line ++ [.tok nl], st.got_indent, st.got_colon,
          none, st.first_non_blank⟩ rest) ∧
    (∀ c rest, c.kind = "comment" →
      pyLinesLoop buf st (.tok c :: rest) =
        pyLinesLoop buf { st with line := st.line ++ [.tok c] } rest) ∧
    (∀ t rest, t.kind ≠ "indent" → t.kind ≠ "newline" → t.kind ≠ "comment" →
      pyLinesLoop buf st (.tok t :: rest) =
        .error (.parsing "expected newline after backslash" b.sidx b.eidx)) ∧
    (∀ left ys rest,
      pyLinesLoop buf st (.group left ys :: rest) =
        .error (.parsing "expected newline after backslash" b.sidx b.eidx)) ∧
    (pyLinesLoop buf st [] =
      .error (.parsing "unexpected EOF after backslash" b.sidx b.eidx)) := by
  refine ⟨?_, ?_, ?_, ?_, ?_⟩
  · intro nl rest hk
    simp [pyLinesLoop, hk, hb]
  · intro c rest hk
    simp [pyLinesLoop, hk]
  · intro t rest h1 h2 h3
    simp [pyLinesLoop, pyLinesGeneric, h1, h2, h3, hb]
  · intro left ys rest
    simp [pyLinesLoop, pyLinesGeneric, hb]
  · simp [pyLinesLoop, hb]

/-- Witness for the backslash-state claim: a name token directly after
a backslash raises "expected newline after backslash". -/
theorem claim_C7_witness :
    pyLinesLoop ("\\x".data)
      ⟨[.tok ⟨"backslash", ⟨⟨0, 1, 0⟩, ⟨1, 1, 1⟩⟩⟩], none, none,
       some ⟨"backslash", ⟨⟨0, 1, 0⟩, ⟨1, 1, 1⟩⟩⟩,
       some ⟨"backslash", ⟨⟨0, 1, 0⟩, ⟨1, 1, 1⟩⟩⟩⟩
      [.tok ⟨"name", ⟨⟨1, 1, 1⟩, ⟨2, 1, 2⟩⟩⟩] =
      .error (.parsing "expected newline after backslash" 0 1) := by
  have h := claim_C7 ("\\x".data)
    ⟨[.tok ⟨"backslash", ⟨⟨0, 1, 0⟩, ⟨1, 1, 1⟩⟩⟩], none, none,
     some ⟨"backslash", ⟨⟨0, 1, 0⟩, ⟨1, 1, 1⟩⟩⟩,
     some ⟨"backslash", ⟨⟨0, 1, 0⟩, ⟨1, 1, 1⟩⟩⟩⟩
    ⟨"backslash", ⟨⟨0, 1, 0⟩, ⟨1, 1, 1⟩⟩⟩ rfl
  exact h.2.2.1 ⟨"name", ⟨⟨1, 1, 1⟩, ⟨2, 1, 2⟩⟩⟩ []
    (by decide) (by decide) (by decide)

/-! ## Supporting lemmas for the trailing-pre-run claim -/

theorem pre_not_post (buf : List Char) (b : LB) :
    is_pre buf b = true → is_post buf b = false := by
  cases b with
  | block ind toks => simp [is_pre]
  | line l =>
    cases hf : l.first_non_blank with
    | some t => simp [is_pre, is_post, hf]
    | none =>
      cases hi : l.indent with
      | some ind => simp [is_pre, hf, hi]
      | none =>
        cases ht : l.tokens with
        | nil => simp [is_pre, hf, ht]
        | cons g gs =>
          intro h
          simp only [is_pre, hf, hi, ht] at h
          simp only [is_post, hf, hi, ht]
          simp at h ⊢
          simp [h]

theorem drop_takeWhile_length (p : α → Bool) :
    ∀ l : List α, l.drop (l.takeWhile p).length = l.dropWhile p := by
  intro l
  induction l with
  | nil => simp
  | cons x xs ih =>
    cases h : p x with
    | true => simp [List.takeWhile_cons, List.dropWhile_cons, h, ih]
    | false => simp [List.takeWhile_cons, List.dropWhile_cons, h]

theorem head_dropWhile_false (p : α → Bool) :
    ∀ (l : List α) (x : α) (xs : List α), l.dropWhile p = x :: xs → p x = false := by
  intro l
  induction l with
  | nil => intro x xs h; simp at h
  | cons y ys ih =>
    intro x xs h
    cases hy : p y with
    | true => rw [List.dropWhile_cons, if_pos (by simp [hy])] at h; exact ih x xs h
    | false =>
      rw [List.dropWhile_cons, if_neg (by simp [hy])] at h
      cases h
      exact hy

/-- With the last element a pre line, the extraction loop always ends
in an error (ordinarily `IndexError`, from reading past the end after
consuming the trailing pre run). -/
theorem extractLoopF_error_of_last_pre (buf : List Char) (dfuel : Nat) :
    ∀ fuel blocks lb, blocks.getLast? = some lb → is_pre buf lb = true →
      ∃ e, extractLoopF buf dfuel fuel blocks = .error e := by
  intro fuel
  induction fuel with
  | zero => intro blocks lb _ _; exact ⟨.assertionError, rfl⟩
  | succ fuel ih =>
    intro blocks lb hlast hpre
    match blocks with
    | [] => simp at hlast
    | b :: bs =>
      have hdrop : (b :: bs).drop ((b :: bs).takeWhile (is_pre buf)).length =
          (b :: bs).dropWhile (is_pre buf) := drop_takeWhile_length _ _
      cases hd : (b :: bs).dropWhile (is_pre buf) with
      | nil =>
        refine ⟨.indexError, ?_⟩
        simp only [extractLoopF]
        rw [hdrop, hd]
      | cons first_line rest2 =>
        have hfl : is_pre buf first_line = false :=
          head_dropWhile_false _ _ _ _ hd
        have hblocks : b :: bs =
            (b :: bs).takeWhile (is_pre buf) ++ first_line :: rest2 := by
          conv_lhs => rw [← List.takeWhile_append_dropWhile
            (p := is_pre buf) (l := b :: bs)]
          rw [hd]
        have hdrop2 : rest2.drop (rest2.takeWhile (is_post buf)).length =
            rest2.dropWhile (is_post buf) := drop_takeWhile_length _ _
        have hrest2 : rest2 = rest2.takeWhile (is_post buf) ++
            rest2.dropWhile (is_post buf) :=
          (List.takeWhile_append_dropWhile _ rest2).symm
        have hlast2 : (first_line :: rest2).getLast? = some lb := by
          rw [hblocks] at hlast
          rwa [List.getLast?_append_of_ne_nil _ (by simp)] at hlast
        cases hr3 : rest2.dropWhile (is_post buf) with
        | nil =>
          exfalso
          rw [hr3, List.append_nil] at hrest2
          cases hp2 : rest2 with
          | nil =>
            rw [hp2] at hlast2
            simp at hlast2
            rw [hlast2] at hfl
            rw [hpre] at hfl
            exact Bool.noConfusion hfl
          | cons r rs =>
            rw [hp2] at hlast2
            rw [show first_line :: r :: rs = [first_line] ++ r :: rs from rfl,
              List.getLast?_append_of_ne_nil _ (by simp)] at hlast2
            have hmem0 : lb ∈ r :: rs := by
              obtain ⟨hh, heq⟩ := List.mem_getLast?_eq_getLast
                (l := r :: rs) (x := lb) (by rw [Option.mem_def]; exact hlast2)
              rw [heq]
              exact List.getLast_mem hh
            have hmem : lb ∈ rest2.takeWhile (is_post buf) := by
              rw [← hrest2, hp2]
              exact hmem0
            have hpost : is_post buf lb = true := List.mem_takeWhile_imp hmem
            rw [pre_not_post buf lb hpre] at hpost
            exact Bool.noConfusion hpost
        | cons r rs =>
          have hlast3 : (rest2.dropWhile (is_post buf)).getLast? = some lb := by
            conv at hlast2 => rw [hrest2]
            rw [show first_line :: (rest2.takeWhile (is_post buf) ++
                rest2.dropWhile (is_post buf)) =
              (first_line :: rest2.takeWhile (is_post buf)) ++
                rest2.dropWhile (is_post buf) from by simp] at hlast2
            rw [hr3] at hlast2 ⊢
            rwa [List.getLast?_append_of_ne_nil _ (by simp)] at hlast2
          obtain ⟨e, he⟩ := ih (rest2.dropWhile (is_post buf)) lb hlast3 hpre
          have hgg : ∃ g0 grest,
              (b :: bs).takeWhile (is_pre buf) ++
                first_line :: rest2.takeWhile (is_post buf) = g0 :: grest := by
            cases (b :: bs).takeWhile (is_pre buf) with
            | nil => exact ⟨first_line, _, rfl⟩
            | cons p ps => exact ⟨p, _, rfl⟩
          obtain ⟨g0, grest, hgeq⟩ := hgg
          cases hee : extractEntry buf dfuel first_line g0 grest with
          | error e2 =>
            refine ⟨e2, ?_⟩
            simp only [extractLoopF, hdrop, hd, hdrop2, hgeq, hee]
          | ok en =>
            refine ⟨e, ?_⟩
            simp only [extractLoopF, hdrop, hd, hdrop2, hgeq, hee, he]
            rfl

/-- Claim C9 counterexample: the input "def(x)#c" (with newlines after
the parenthesis group and the comment) ends with a maximal run of pre
lines (the non-indented comment line), yet `identify_function_definitions`
raises `AssertionError` (the token after `def` is a parenthesized group,
not a name token), not the `IndexError` the claim promises for every
such input. -/
theorem claim_C9_counterexample :
    (match pyPipelineBlocks (String.toList ("def(x)" ++ "\n" ++ "#c" ++ "\n")) with
      | .ok blocks => blocks.getLast?.elim false
          (fun lb => is_pre (String.toList ("def(x)" ++ "\n" ++ "#c" ++ "\n")) lb)
      | .error _ => false) = true
    ∧ identify_function_definitions
        (String.toList ("def(x)" ++ "\n" ++ "#c" ++ "\n")) =
      .error .assertionError
    ∧ identify_function_definitions
        (String.toList ("def(x)" ++ "\n" ++ "#c" ++ "\n")) ≠
      .error .indexError := by
  refine ⟨rfl, rfl, ?_⟩
  decide

/-- Claim C9 (amended): whenever the front pipeline succeeds and the
resulting fixed-up top-level Line/Block sequence ends with a pre line
(decorator or non-indented comment), `identify_function_definitions`
raises some error instead of returning a Definition sequence.  (The
error is ordinarily `IndexError`, but can be a different exception —
see the counterexample — so the claim's universal `IndexError` is
amended to an unconditional failure.) -/
theorem claim_C9 (text : List Char) (blocks : List LB) (lb : LB)
    (hpb : pyPipelineBlocks text = .ok blocks)
    (hlast : blocks.getLast? = some lb)
    (hpre : is_pre text lb = true) :
    ∃ e, identify_function_definitions text = .error e := by
  unfold pyPipelineBlocks at hpb
  unfold identify_function_definitions
  cases hts : iter_python_tokens text with
  | error e => exact ⟨e, rfl⟩
  | ok ts =>
    rw [hts] at hpb
    replace hpb : (do
        let es ← iter_match_python_parens text ts
        let ls ← identify_python_lines text es
        let bs ← identify_python_blocks text ls
        Except.ok (fixup_end_of_block text (ts.length + ls.length + 2) bs)) =
      Except.ok blocks := hpb
    show ∃ e, (do
        let es ← iter_match_python_parens text ts
        let ls ← identify_python_lines text es
        let bs ← identify_python_blocks text ls
        extractLoop text (ts.length + ls.length + 2)
          (fixup_end_of_block text (ts.length + ls.length + 2) bs)) = .error e
    cases hes : iter_match_python_parens text ts with
    | error e => exact ⟨e, rfl⟩
    | ok es =>
      rw [hes] at hpb
      replace hpb : (do
          let ls ← identify_python_lines text es
          let bs ← identify_python_blocks text ls
          Except.ok (fixup_end_of_block text (ts.length + ls.length + 2) bs)) =
        Except.ok blocks := hpb
      show ∃ e, (do
          let ls ← identify_python_lines text es
          let bs ← identify_python_blocks text ls
          extractLoop text (ts.length + ls.length + 2)
            (fixup_end_of_block text (ts.length + ls.length + 2) bs)) = .error e
      cases hls : identify_python_lines text es with
      | error e => exact ⟨e, rfl⟩
      | ok ls =>
        rw [hls] at hpb
        replace hpb : (do
            let bs ← identify_python_blocks text ls
            Except.ok (fixup_end_of_block text (ts.length + ls.length + 2) bs)) =
          Except.ok blocks := hpb
        show ∃ e, (do
            let bs ← identify_python_blocks text ls
            extractLoop text (ts.length + ls.length + 2)
              (fixup_end_of_block text (ts.length + ls.length + 2) bs)) = .error e
        cases hbs : identify_python_blocks text ls with
        | error e => exact ⟨e, rfl⟩
        | ok bs =>
          rw [hbs] at hpb
          replace hpb : fixup_end_of_block text (ts.length + ls.length + 2) bs =
            blocks := Except.ok.inj hpb
          show ∃ e, extractLoop text (ts.length + ls.length + 2)
            (fixup_end_of_block text (ts.length + ls.length + 2) bs) = .error e
          rw [hpb]
          exact extractLoopF_error_of_last_pre text _ _ blocks lb hlast hpre

/-- Witness for the trailing-pre claim: the file consisting solely of
a non-indented comment line makes the extractor fail. -/
theorem claim_C9_witness :
    ∃ e, identify_function_definitions (String.toList ("# comment" ++ "\n")) =
      .error e := by
  refine claim_C9 (String.toList ("# comment" ++ "\n"))
    [LB.line ⟨[GElem.tok ⟨"comment", ⟨⟨0, 1, 0⟩, ⟨9, 1, 9⟩⟩⟩,
               GElem.tok ⟨"newline", ⟨⟨9, 1, 9⟩, ⟨10, 2, 0⟩⟩⟩],
      none, none,
      some ⟨"newline", ⟨⟨9, 1, 9⟩, ⟨10, 2, 0⟩⟩⟩, none⟩]
    (LB.line ⟨[GElem.tok ⟨"comment", ⟨⟨0, 1, 0⟩, ⟨9, 1, 9⟩⟩⟩,
               GElem.tok ⟨"newline", ⟨⟨9, 1, 9⟩, ⟨10, 2, 0⟩⟩⟩],
      none, none,
      some ⟨"newline", ⟨⟨9, 1, 9⟩, ⟨10, 2, 0⟩⟩⟩, none⟩)
    rfl rfl rfl

/-! ## Supporting lemmas for the bracket-matching claim -/

theorem lookupParen_isCloser (parens : List (List Char × List Char))
    (a c : List Char) (h : lookupParen parens a = some c) :
    isCloser parens c = true := by
  unfold lookupParen at h
  cases hf : parens.find? (fun p => p.1 == a) with
  | none => rw [hf] at h; exact absurd h (by simp)
  | some p =>
    rw [hf] at h
    have hc : p.2 = c := by injection h
    have hmem : p ∈ parens := List.mem_of_find?_eq_some hf
    subst hc
    simp only [isCloser, List.any_eq_true]
    exact ⟨p, hmem, by simp⟩

theorem isCloser_lookup_none (parens : List (List Char × List Char))
    (H1 : ∀ p ∈ parens, lookupParen parens p.2 = none)
    (tx : List Char) (h : isCloser parens tx = true) :
    lookupParen parens tx = none := by
  simp only [isCloser, List.any_eq_true] at h
  obtain ⟨p, hmem, hbeq⟩ := h
  have he : p.2 = tx := by simpa using hbeq
  rw [← he]
  exact H1 p hmem

/-- Correspondence between the recursive generator and the single-pass
stack scan: whenever the table's closers are not also openers, the
generator errors with exactly the error the scan reports, and on
success consumes through the expected closer leaving the scan state to
continue on the rest. -/
theorem mpWorkF_parenScan (buf : List Char)
    (parens : List (List Char × List Char))
    (H1 : ∀ p ∈ parens, lookupParen parens p.2 = none) :
    ∀ n, ∀ ts : List Token, ts.length ≤ n → ∀ fuel, ts.length < fuel →
      ∀ (untl : Option (List Char)) (S : List (List Char)),
      (untl = none → S = []) →
      (∀ u, untl = some u → isCloser parens u = true) →
      (∀ e, mpWorkF buf parens fuel ts untl = .error e →
        parenScanErr buf parens ts (untl.elim S (fun u => u :: S)) = some e) ∧
      (∀ es rest, mpWorkF buf parens fuel ts untl = .ok (es, rest) →
        rest.length ≤ ts.length ∧ (untl = none → rest = []) ∧
        parenScanErr buf parens ts (untl.elim S (fun u => u :: S)) =
          parenScanErr buf parens rest S) := by
  intro n
  induction n with
  | zero =>
    intro ts hlen fuel hfuel untl S hnone huntl
    match ts, hlen with
    | [], _ =>
      match fuel, hfuel with
      | f + 1, _ =>
        constructor
        · intro e he
          exact absurd he (by simp [mpWorkF])
        · intro es rest h
          simp only [mpWorkF] at h
          simp at h
          obtain ⟨h1, h2⟩ := h
          subst h2
          exact ⟨by simp, fun _ => rfl, by simp [parenScanErr]⟩
  | succ n ih =>
    intro ts hlen fuel hfuel untl S hnone huntl
    match ts with
    | [] =>
      match fuel, hfuel with
      | f + 1, _ =>
        constructor
        · intro e he
          exact absurd he (by simp [mpWorkF])
        · intro es rest h
          simp only [mpWorkF] at h
          simp at h
          obtain ⟨h1, h2⟩ := h
          subst h2
          exact ⟨by simp, fun _ => rfl, by simp [parenScanErr]⟩
    | t :: rest =>
      match fuel, hfuel with
      | f + 1, hfuel =>
        have hlen2 : rest.length ≤ n := by
          simp at hlen; omega
        have hflen : rest.length < f := by
          simp at hfuel; omega
        by_cases hstop : some (Token.text buf t) = untl
        · have hcl : isCloser parens (Token.text buf t) = true :=
            huntl _ hstop.symm
          have hlk : lookupParen parens (Token.text buf t) = none :=
            isCloser_lookup_none parens H1 _ hcl
          constructor
          · intro e he
            simp only [mpWorkF, if_pos hstop] at he
            exact absurd he (by simp)
          · intro es rest0 h
            simp only [mpWorkF, if_pos hstop] at h
            simp at h
            obtain ⟨h1, h2⟩ := h
            subst h2
            refine ⟨by simp, ?_, ?_⟩
            · intro hu
              rw [hu] at hstop
              exact absurd hstop (by simp)
            · match untl, hstop with
              | some u, hstop =>
                have hu : Token.text buf t = u := by injection hstop
                rw [hu] at hlk hcl
                simp [parenScanErr, hu, hlk, hcl]
        · constructor
          · intro e he
            simp only [mpWorkF, if_neg hstop] at he
            cases hlk : lookupParen parens (Token.text buf t) with
            | some closer =>
              simp only [hlk] at he
              have IHin := ih rest hlen2 f hflen (some closer)
                (untl.elim S (fun u => u :: S))
                (fun hx => Option.noConfusion hx)
                (fun u hu => by
                  injection hu with hu2
                  subst hu2
                  exact lookupParen_isCloser parens _ _ hlk)
              cases hin : mpWorkF buf parens f rest (some closer) with
              | error e2 =>
                simp only [hin] at he
                simp at he
                subst he
                have h2 := IHin.1 e2 hin
                simp only [Option.elim_some] at h2
                simp [parenScanErr, hlk]
                exact h2
              | ok p =>
                obtain ⟨ys, rest2⟩ := p
                simp only [hin] at he
                obtain ⟨h2len, -, heq2⟩ := IHin.2 ys rest2 hin
                simp only [Option.elim_some] at heq2
                have IHcont := ih rest2 (by omega) f (by omega) untl S hnone huntl
                cases hin2 : mpWorkF buf parens f rest2 untl with
                | error e3 =>
                  simp only [hin2] at he
                  simp at he
                  subst he
                  have h3 := IHcont.1 e3 hin2
                  simp [parenScanErr, hlk]
                  rw [heq2]
                  exact h3
                | ok p2 =>
                  obtain ⟨es3, rest3⟩ := p2
                  simp only [hin2] at he
                  simp at he
            | none =>
              simp only [hlk] at he
              cases hcl : isCloser parens (Token.text buf t) with
              | true =>
                simp only [hcl, if_true] at he
                match untl, hstop, huntl, he with
                | some u, hstop, huntl, he =>
                  simp at he
                  subst he
                  have htx : (Token.text buf t == u) = false := by
                    simp only [beq_eq_false_iff_ne]
                    intro hx
                    exact hstop (by rw [hx])
                  simp [parenScanErr, hlk, hcl, htx]
                | none, hstop, huntl, he =>
                  simp at he
                  subst he
                  rw [hnone rfl]
                  simp [parenScanErr, hlk, hcl]
              | false =>
                simp only [hcl, Bool.false_eq_true, if_false] at he
                have IHr := ih rest hlen2 f hflen untl S hnone huntl
                cases hin : mpWorkF buf parens f rest untl with
                | error e2 =>
                  simp only [hin] at he
                  simp at he
                  subst he
                  have h2 := IHr.1 e2 hin
                  simp [parenScanErr, hlk, hcl]
                  exact h2
                | ok p =>
                  obtain ⟨es2, rest2⟩ := p
                  simp only [hin] at he
                  simp at he
          · intro es rest0 h
            simp only [mpWorkF, if_neg hstop] at h
            cases hlk : lookupParen parens (Token.text buf t) with
            | some closer =>
              simp only [hlk] at h
              have IHin := ih rest hlen2 f hflen (some closer)
                (untl.elim S (fun u => u :: S))
                (fun hx => Option.noConfusion hx)
                (fun u hu => by
                  injection hu with hu2
                  subst hu2
                  exact lookupParen_isCloser parens _ _ hlk)
              cases hin : mpWorkF buf parens f rest (some closer) with
              | error e2 =>
                simp only [hin] at h
                simp at h
              | ok p =>
                obtain ⟨ys, rest2⟩ := p
                simp only [hin] at h
                obtain ⟨h2len, -, heq2⟩ := IHin.2 ys rest2 hin
                simp only [Option.elim_some] at heq2
                have IHcont := ih rest2 (by omega) f (by omega) untl S hnone huntl
                cases hin2 : mpWorkF buf parens f rest2 untl with
                | error e3 =>
                  simp only [hin2] at h
                  simp at h
                | ok p2 =>
                  obtain ⟨es3, rest3⟩ := p2
                  simp only [hin2] at h
                  simp at h
                  obtain ⟨h1, h2⟩ := h
                  subst h2
                  obtain ⟨h3len, h3none, heq3⟩ := IHcont.2 es3 rest3 hin2
                  refine ⟨by simp; omega, h3none, ?_⟩
                  simp [parenScanErr, hlk]
                  rw [heq2, heq3]
            | none =>
              simp only [hlk] at h
              cases hcl : isCloser parens (Token.text buf t) with
              | true =>
                simp only [hcl, if_true] at h
                match untl, h with
                | some u, h => simp at h
                | none, h => simp at h
              | false =>
                simp only [hcl, Bool.false_eq_true, if_false] at h
                have IHr := ih rest hlen2 f hflen untl S hnone huntl
                cases hin : mpWorkF buf parens f rest untl with
                | error e2 =>
                  simp only [hin] at h
                  simp at h
                | ok p =>
                  obtain ⟨es2, rest2⟩ := p
                  simp only [hin] at h
                  simp at h
                  obtain ⟨h1, h2⟩ := h
                  subst h2
                  obtain ⟨h2len, h2none, heq2⟩ := IHr.2 es2 rest2 hin
                  refine ⟨by simp; omega, h2none, ?_⟩
                  simp [parenScanErr, hlk, hcl]
                  exact heq2

/-- Claim C5 (amended): the bracket matcher raises exactly the errors
of the single-pass stack scan — a mismatched closing delimiter raises
the ParsingError naming the required closer, and an unpaired closing
delimiter raises "unexpected parenthesis", in each case with no output;
in every other case, including an unmatched open delimiter left at end
of input, no error is raised and output *is* produced (the truncated
group is silently closed — see the counterexample).  The hypothesis
says the table's closers are not themselves openers, which holds for
both dialect tables. -/
theorem claim_C5 (buf : List Char) (parens : List (List Char × List Char))
    (ts : List Token)
    (H1 : ∀ p ∈ parens, lookupParen parens p.2 = none) :
    (∀ e, parenScanErr buf parens ts [] = some e ↔
        iter_match_parens buf parens ts = .error e) ∧
    (parenScanErr buf parens ts [] = none ↔
        ∃ es, iter_match_parens buf parens ts = .ok es) := by
  have h := mpWorkF_parenScan buf parens H1 ts.length ts le_rfl
    (ts.length + 1) (by omega) none [] (fun _ => rfl)
    (fun u hu => Option.noConfusion hu)
  simp only [Option.elim_none] at h
  constructor
  · intro e
    constructor
    · intro hse
      unfold iter_match_parens mpWork
      cases hmw : mpWorkF buf parens (ts.length + 1) ts none with
      | error e2 =>
        have h2 := h.1 e2 hmw
        rw [hse] at h2
        have : e = e2 := by injection h2
        rw [this]
      | ok p =>
        obtain ⟨es, rest⟩ := p
        obtain ⟨-, hre, heq⟩ := h.2 es rest hmw
        rw [hre trivial] at heq
        rw [hse] at heq
        exact absurd heq (by simp [parenScanErr])
    · intro hie
      unfold iter_match_parens mpWork at hie
      cases hmw : mpWorkF buf parens (ts.length + 1) ts none with
      | error e2 =>
        rw [hmw] at hie
        have : e2 = e := by injection hie
        subst this
        exact h.1 e2 hmw
      | ok p =>
        obtain ⟨es, rest⟩ := p
        rw [hmw] at hie
        exact absurd hie (by simp)
  · constructor
    · intro hnone
      cases hmw : mpWorkF buf parens (ts.length + 1) ts none with
      | error e2 =>
        have h2 := h.1 e2 hmw
        rw [hnone] at h2
        exact absurd h2 (by simp)
      | ok p =>
        obtain ⟨es, rest⟩ := p
        refine ⟨es, ?_⟩
        unfold iter_match_parens mpWork
        rw [hmw]
    · intro hok
      obtain ⟨es, hie⟩ := hok
      unfold iter_match_parens mpWork at hie
      cases hmw : mpWorkF buf parens (ts.length + 1) ts none with
      | error e2 =>
        rw [hmw] at hie
        exact absurd hie (by simp)
      | ok p =>
        obtain ⟨es2, rest⟩ := p
        obtain ⟨-, hre, heq⟩ := h.2 es2 rest hmw
        rw [hre trivial] at heq
        rw [heq]
        simp [parenScanErr]

/-- Witness for the bracket-matching claim: on the token stream of
"([)" with the Python table, the scan reports — and the matcher
raises — the mismatch error naming the required closer "]" at the
offending ")". -/
theorem claim_C5_witness :
    iter_match_parens ("([)".data) pythonParens
      [⟨"op", ⟨⟨0, 1, 0⟩, ⟨1, 1, 1⟩⟩⟩, ⟨"op", ⟨⟨1, 1, 1⟩, ⟨2, 1, 2⟩⟩⟩,
       ⟨"op", ⟨⟨2, 1, 2⟩, ⟨3, 1, 3⟩⟩⟩] =
      .error (.parsing (mismatchMsg ([']'])) 2 3) := by
  exact ((claim_C5 ("([)".data) pythonParens
    [⟨"op", ⟨⟨0, 1, 0⟩, ⟨1, 1, 1⟩⟩⟩, ⟨"op", ⟨⟨1, 1, 1⟩, ⟨2, 1, 2⟩⟩⟩,
     ⟨"op", ⟨⟨2, 1, 2⟩, ⟨3, 1, 3⟩⟩⟩] (by decide)).1 _).mp (by decide)

/-! ## Supporting lemmas for the flattening claim -/

theorem except_bind_ok {ε α β : Type} (a : α) (f : α → Except ε β) :
    (Except.ok a : Except ε α) >>= f = f a := rfl

theorem except_bind_error {ε α β : Type} (e : ε) (f : α → Except ε β) :
    (Except.error e : Except ε α) >>= f = Except.error e := rfl

theorem flattenCList_append (a b : List CElem) :
    flattenCList (a ++ b) = flattenCList a ++ flattenCList b := by
  induction a with
  | nil => simp [flattenCList]
  | cons x xs ihx => simp [flattenCList, ihx]

/-- Flattening the generator output gives back exactly the consumed
prefix of the token stream. -/
theorem mpWorkF_gFlat (buf : List Char)
    (parens : List (List Char × List Char)) :
    ∀ n, ∀ ts : List Token, ts.length ≤ n → ∀ fuel, ts.length < fuel →
      ∀ (untl : Option (List Char)) (es : List GElem) (rest : List Token),
      mpWorkF buf parens fuel ts untl = .ok (es, rest) →
      gFlatList es ++ rest = ts ∧ (untl = none → rest = []) := by
  intro n
  induction n with
  | zero =>
    intro ts hlen fuel hfuel untl es rest h
    match ts, hlen with
    | [], _ =>
      match fuel, hfuel with
      | f + 1, _ =>
        simp only [mpWorkF] at h
        simp at h
        obtain ⟨h1, h2⟩ := h
        subst h1
        subst h2
        exact ⟨by simp [gFlatList], fun _ => rfl⟩
  | succ n ih =>
    intro ts hlen fuel hfuel untl es rest h
    match ts with
    | [] =>
      match fuel, hfuel with
      | f + 1, _ =>
        simp only [mpWorkF] at h
        simp at h
        obtain ⟨h1, h2⟩ := h
        subst h1
        subst h2
        exact ⟨by simp [gFlatList], fun _ => rfl⟩
    | t :: rest1 =>
      match fuel, hfuel with
      | f + 1, hfuel =>
        have hlen2 : rest1.length ≤ n := by simp at hlen; omega
        have hflen : rest1.length < f := by simp at hfuel; omega
        by_cases hstop : some (Token.text buf t) = untl
        · simp only [mpWorkF, if_pos hstop] at h
          simp at h
          obtain ⟨h1, h2⟩ := h
          subst h1
          subst h2
          refine ⟨by simp [gFlatList, gFlat], ?_⟩
          intro hu
          rw [hu] at hstop
          exact absurd hstop (by simp)
        · simp only [mpWorkF, if_neg hstop] at h
          cases hlk : lookupParen parens (Token.text buf t) with
          | some closer =>
            simp only [hlk] at h
            cases hin : mpWorkF buf parens f rest1 (some closer) with
            | error e2 =>
              simp only [hin] at h
              simp at h
            | ok p =>
              obtain ⟨ys, rest2⟩ := p
              simp only [hin] at h
              obtain ⟨heq2, -⟩ := ih rest1 hlen2 f hflen (some closer) ys rest2 hin
              have h2len : rest2.length ≤ rest1.length := by
                rw [← heq2]; simp
              cases hin2 : mpWorkF buf parens f rest2 untl with
              | error e3 =>
                simp only [hin2] at h
                simp at h
              | ok p2 =>
                obtain ⟨es3, rest3⟩ := p2
                simp only [hin2] at h
                simp at h
                obtain ⟨h1, h2⟩ := h
                subst h1
                subst h2
                obtain ⟨heq3, h3none⟩ :=
                  ih rest2 (by omega) f (by omega) untl es3 rest3 hin2
                refine ⟨?_, h3none⟩
                simp only [gFlatList, gFlat, List.cons_append, List.append_assoc]
                rw [heq3, heq2]
          | none =>
            simp only [hlk] at h
            cases hcl : isCloser parens (Token.text buf t) with
            | true =>
              simp only [hcl, if_true] at h
              match untl, h with
              | some u, h => simp at h
              | none, h => simp at h
            | false =>
              simp only [hcl, Bool.false_eq_true, if_false] at h
              cases hin : mpWorkF buf parens f rest1 untl with
              | error e2 =>
                simp only [hin] at h
                simp at h
              | ok p =>
                obtain ⟨es2, rest2⟩ := p
                simp only [hin] at h
                simp at h
                obtain ⟨h1, h2⟩ := h
                subst h1
                subst h2
                obtain ⟨heq2, h2none⟩ := ih rest1 hlen2 f hflen untl es2 rest2 hin
                refine ⟨?_, h2none⟩
                simp only [gFlatList, gFlat, List.cons_append, List.nil_append,
                  List.append_assoc, List.singleton_append]
                rw [heq2]

/-- Collecting a generator group into an eager `Parenthesized` keeps
its leaf tokens unchanged. -/
theorem collectGF_flat : ∀ fuel (g : GElem) (c : CElem),
    collectGF fuel g = .ok c → flattenC c = gFlat g := by
  intro fuel
  induction fuel with
  | zero =>
    intro g c h
    cases g with
    | tok t =>
      simp only [collectGF] at h
      simp at h
      subst h
      simp [flattenC, gFlat]
    | group l ys => exact absurd h (by simp [collectGF])
  | succ fuel ih =>
    have hlist : ∀ (ys : List GElem) (cs : List CElem),
        ys.mapM (collectGF fuel) = .ok cs →
        flattenCList cs = gFlatList ys := by
      intro ys
      induction ys with
      | nil =>
        intro cs h
        have h2 : ([] : List CElem) = cs := Except.ok.inj h
        subst h2
        simp [flattenCList, gFlatList]
      | cons y ys2 ihy =>
        intro cs h
        rw [List.mapM_cons] at h
        cases hy : collectGF fuel y with
        | error e =>
          rw [hy, except_bind_error] at h
          exact absurd h (by simp)
        | ok c0 =>
          rw [hy, except_bind_ok] at h
          cases hm : ys2.mapM (collectGF fuel) with
          | error e =>
            rw [hm, except_bind_error] at h
            exact absurd h (by simp)
          | ok cs2 =>
            rw [hm, except_bind_ok] at h
            have h2 : c0 :: cs2 = cs := Except.ok.inj h
            subst h2
            simp only [flattenCList, gFlatList]
            rw [ih y c0 hy, ihy cs2 hm]
    intro g c h
    cases g with
    | tok t =>
      simp only [collectGF] at h
      simp at h
      subst h
      simp [flattenC, gFlat]
    | group left ys =>
      cases ys with
      | nil => exact absurd h (by simp [collectGF])
      | cons y0 ys0 =>
        simp only [collectGF] at h
        cases hm : (y0 :: ys0).mapM (collectGF fuel) with
        | error e =>
          rw [hm, except_bind_error] at h
          exact absurd h (by simp)
        | ok cs =>
          rw [hm, except_bind_ok] at h
          cases hl : cs.getLast? with
          | none => simp only [hl] at h; simp at h
          | some clast =>
            cases clast with
            | paren a b c2 => simp only [hl] at h; simp at h
            | tok rt =>
              simp only [hl] at h
              simp at h
              subst h
              obtain ⟨hne, hgl⟩ := List.mem_getLast?_eq_getLast
                (by rw [Option.mem_def]; exact hl)
              have hcs : cs.dropLast ++ [CElem.tok rt] = cs := by
                rw [hgl]
                exact List.dropLast_append_getLast hne
              have hfl : flattenCList cs =
                  flattenCList cs.dropLast ++ [rt] := by
                conv_lhs => rw [← hcs]
                rw [flattenCList_append]
                simp [flattenCList, flattenC]
              simp only [flattenC, gFlat]
              rw [← hlist (y0 :: ys0) cs hm, hfl]
              simp

/-- Claim C8 (amended): flattening a successfully parsed structure
reproduces exactly the sequence of lexed tokens it was built from —
the generator output flattens back to the whole token stream, and
collecting a group into an eager `Parenthesized` preserves its leaf
tokens — so concatenating the flattened texts reproduces the lexed
portion of the source.  It does not reproduce the original source text
exactly: blanks skipped between tokens are covered by no token (see
the counterexample). -/
theorem claim_C8 (buf : List Char) (parens : List (List Char × List Char))
    (ts : List Token) (es : List GElem)
    (h : iter_match_parens buf parens ts = .ok es) :
    gFlatList es = ts ∧
    concatTexts buf (gFlatList es) = concatTexts buf ts ∧
    ∀ fuel g c, collectGF fuel g = .ok c → flattenC c = gFlat g := by
  unfold iter_match_parens mpWork at h
  cases hmw : mpWorkF buf parens (ts.length + 1) ts none with
  | error e => rw [hmw] at h; exact absurd h (by simp)
  | ok p =>
    obtain ⟨es2, rest⟩ := p
    rw [hmw] at h
    simp at h
    subst h
    obtain ⟨heq, hrest⟩ := mpWorkF_gFlat buf parens ts.length ts le_rfl
      (ts.length + 1) (by omega) none es2 rest hmw
    rw [hrest rfl, List.append_nil] at heq
    exact ⟨heq, by rw [heq], collectGF_flat⟩

/-- Witness for the flattening claim: the Python-table parse of the
three tokens of "(x)" flattens back to those tokens, and the collected
group's flattening equals the generator group's. -/
theorem claim_C8_witness :
    gFlatList [GElem.group ⟨"op", ⟨⟨0, 1, 0⟩, ⟨1, 1, 1⟩⟩⟩
        [GElem.tok ⟨"name", ⟨⟨1, 1, 1⟩, ⟨2, 1, 2⟩⟩⟩,
         GElem.tok ⟨"op", ⟨⟨2, 1, 2⟩, ⟨3, 1, 3⟩⟩⟩]] =
      [⟨"op", ⟨⟨0, 1, 0⟩, ⟨1, 1, 1⟩⟩⟩, ⟨"name", ⟨⟨1, 1, 1⟩, ⟨2, 1, 2⟩⟩⟩,
       ⟨"op", ⟨⟨2, 1, 2⟩, ⟨3, 1, 3⟩⟩⟩] ∧
    flattenC (CElem.paren ⟨"op", ⟨⟨0, 1, 0⟩, ⟨1, 1, 1⟩⟩⟩
        [CElem.tok ⟨"name", ⟨⟨1, 1, 1⟩, ⟨2, 1, 2⟩⟩⟩]
        ⟨"op", ⟨⟨2, 1, 2⟩, ⟨3, 1, 3⟩⟩⟩) =
      gFlat (GElem.group ⟨"op", ⟨⟨0, 1, 0⟩, ⟨1, 1, 1⟩⟩⟩
        [GElem.tok ⟨"name", ⟨⟨1, 1, 1⟩, ⟨2, 1, 2⟩⟩⟩,
         GElem.tok ⟨"op", ⟨⟨2, 1, 2⟩, ⟨3, 1, 3⟩⟩⟩]) := by
  have h := claim_C8 ("(x)".data) pythonParens
    [⟨"op", ⟨⟨0, 1, 0⟩, ⟨1, 1, 1⟩⟩⟩, ⟨"name", ⟨⟨1, 1, 1⟩, ⟨2, 1, 2⟩⟩⟩,
     ⟨"op", ⟨⟨2, 1, 2⟩, ⟨3, 1, 3⟩⟩⟩]
    [GElem.group ⟨"op", ⟨⟨0, 1, 0⟩, ⟨1, 1, 1⟩⟩⟩
      [GElem.tok ⟨"name", ⟨⟨1, 1, 1⟩, ⟨2, 1, 2⟩⟩⟩,
       GElem.tok ⟨"op", ⟨⟨2, 1, 2⟩, ⟨3, 1, 3⟩⟩⟩]] rfl
  exact ⟨h.1, h.2.2 2 _ _ rfl⟩

/-! ## Supporting lemmas for the diff-alignment claim -/

namespace Difflib

theorem mem_insertTriple (x y : Nat × Nat × Nat) :
    ∀ l, x ∈ insertTriple y l → x = y ∨ x ∈ l := by
  intro l
  induction l with
  | nil => intro h; simp [insertTriple] at h; exact Or.inl h
  | cons z zs ihz =>
    intro h
    simp only [insertTriple] at h
    by_cases hle : tripleLE y z
    · rw [if_pos hle] at h
      rcases List.mem_cons.mp h with h2 | h2
      · exact Or.inl h2
      · exact Or.inr h2
    · rw [if_neg hle] at h
      rcases List.mem_cons.mp h with h2 | h2
      · exact Or.inr (by simp [h2])
      · rcases ihz h2 with h3 | h3
        · exact Or.inl h3
        · exact Or.inr (by simp [h3])

theorem mem_sortTriples (x : Nat × Nat × Nat) :
    ∀ l, x ∈ sortTriples l → x ∈ l := by
  intro l
  induction l with
  | nil => intro h; simp [sortTriples] at h
  | cons z zs ihz =>
    intro h
    simp only [sortTriples] at h
    rcases mem_insertTriple x z (sortTriples zs) h with h2 | h2
    · simp [h2]
    · exact List.mem_cons_of_mem z (ihz h2)

theorem j2lenSet_mem (m : List (Nat × Nat)) (k v : Nat) (p : Nat × Nat) :
    p ∈ j2lenSet m k v → p ∈ m ∨ p = (k, v) := by
  intro h
  unfold j2lenSet at h
  by_cases he : m.any (fun q => q.1 == k)
  · rw [if_pos he] at h
    obtain ⟨q, hq, hqe⟩ := List.mem_map.mp h
    by_cases hk : q.1 = k
    · right
      rw [← hqe]
      simp [hk]
    · left
      rw [← hqe]
      simp [hk]
      exact hq
  · rw [if_neg he] at h
    rcases List.mem_append.mp h with h2 | h2
    · exact Or.inl h2
    · right
      simpa using h2

theorem j2lenGet_cases (m : List (Nat × Nat)) (j : Nat) :
    j2lenGet m j = 0 ∨ (1 ≤ j ∧ (j - 1, j2lenGet m j) ∈ m) := by
  unfold j2lenGet
  by_cases hj : j = 0
  · rw [if_pos hj]; exact Or.inl rfl
  · rw [if_neg hj]
    cases hf : m.find? (fun p => p.1 == j - 1) with
    | none => exact Or.inl rfl
    | some p =>
      right
      refine ⟨by omega, ?_⟩
      have hmem := List.mem_of_find?_eq_some hf
      have hkey := List.find?_some hf
      simp at hkey
      rw [← hkey]
      exact hmem

theorem mem_enumFrom_getD (b : List Elt) :
    ∀ k (p : Nat × Elt), p ∈ b.enumFrom k →
      k ≤ p.1 ∧ b.getD (p.1 - k) [] = p.2 := by
  induction b with
  | nil => intro k p h; simp [List.enumFrom] at h
  | cons x xs ihx =>
    intro k p h
    rw [List.enumFrom] at h
    rcases List.mem_cons.mp h with h2 | h2
    · subst h2
      exact ⟨le_rfl, by simp⟩
    · obtain ⟨hle, hget⟩ := ihx (k + 1) p h2
      refine ⟨by omega, ?_⟩
      have : p.1 - k = (p.1 - (k + 1)) + 1 := by omega
      rw [this]
      simpa using hget

theorem addB2j_sound (b : List Elt) (m : List (Elt × List Nat))
    (e : Elt) (j : Nat) (hm : b2jSound b m) (hj : b.getD j [] = e) :
    b2jSound b (addB2j m e j) := by
  intro p hp j2 hj2
  unfold addB2j at hp
  by_cases he : m.any (fun q => q.1 == e)
  · rw [if_pos he] at hp
    obtain ⟨q, hq, hqe⟩ := List.mem_map.mp hp
    by_cases hk : q.1 = e
    · rw [if_pos (by simp [hk])] at hqe
      have hp1 : p.1 = q.1 := by rw [← hqe]
      have hp2 : p.2 = q.2 ++ [j] := by rw [← hqe]
      rw [hp2] at hj2
      rw [hp1]
      rcases List.mem_append.mp hj2 with h3 | h3
      · exact hm q hq j2 h3
      · simp at h3
        rw [h3, hk]
        exact hj
    · rw [if_neg (by simp [hk])] at hqe
      rw [← hqe] at hj2 ⊢
      exact hm q hq j2 hj2
  · rw [if_neg he] at hp
    rcases List.mem_append.mp hp with h2 | h2
    · exact hm p h2 j2 hj2
    · simp at h2
      subst h2
      simp at hj2
      rw [hj2]
      exact hj

theorem foldl_addB2j_sound (b : List Elt) :
    ∀ (l : List (Nat × Elt)) (m : List (Elt × List Nat)),
      b2jSound b m → (∀ p ∈ l, b.getD p.1 [] = p.2) →
      b2jSound b (l.foldl (fun m2 p => addB2j m2 p.2 p.1) m) := by
  intro l
  induction l with
  | nil => intro m hm _; simpa using hm
  | cons q l2 ihl =>
    intro m hm hl
    rw [List.foldl_cons]
    exact ihl _ (addB2j_sound b m q.2 q.1 hm (hl q (by simp)))
      (fun p hp => hl p (by simp [hp]))

theorem buildB2j_sound (b : List Elt) : b2jSound b (buildB2j b) := by
  unfold buildB2j
  refine foldl_addB2j_sound b b.enum [] (by intro p hp; simp at hp) ?_
  intro p hp
  have := mem_enumFrom_getD b 0 p hp
  simpa using this.2

theorem purgePopular_sound (b : List Elt) (aj : Bool) (n : Nat)
    (m : List (Elt × List Nat)) (hm : b2jSound b m) :
    b2jSound b (purgePopular aj n m) := by
  intro p hp
  unfold purgePopular at hp
  by_cases hc : aj && decide (n ≥ 200)
  · rw [if_pos (by simpa using hc)] at hp
    exact hm p (List.mem_of_mem_filter hp)
  · rw [if_neg (by simpa using hc)] at hp
    exact hm p hp

theorem b2jGet_sound (b : List Elt) (m : List (Elt × List Nat))
    (hm : b2jSound b m) (e : Elt) (j : Nat) (hj : j ∈ b2jGet m e) :
    b.getD j [] = e := by
  unfold b2jGet at hj
  cases hf : m.find? (fun p => p.1 == e) with
  | none => rw [hf] at hj; simp at hj
  | some p =>
    rw [hf] at hj
    have hmem := List.mem_of_find?_eq_some hf
    have hkey := List.find?_some hf
    simp at hkey
    rw [← hkey]
    exact hm p hmem j hj

end Difflib

namespace Difflib

/-- The inner DP loop keeps the row invariant (every stored length is
a common-suffix length ending at the current row) and only ever
replaces the best triple by a genuine common substring. -/
theorem flmInner_sound (a b : List Elt) (i blo bhi : Nat)
    (j2len : List (Nat × Nat))
    (hprev : ∀ p ∈ j2len, p.2 ≤ p.1 + 1 ∧ p.2 ≤ i ∧
      ∀ d, d < p.2 → a.getD (i - (d + 1)) [] = b.getD (p.1 - d) []) :
    ∀ (js : List Nat) (newm : List (Nat × Nat)) (best : Nat × Nat × Nat),
    (∀ j2 ∈ js, b.getD j2 [] = a.getD i []) →
    (∀ p ∈ newm, p.2 ≤ p.1 + 1 ∧ p.2 ≤ i + 1 ∧
      ∀ d, d < p.2 → a.getD (i - d) [] = b.getD (p.1 - d) []) →
    matchTriple a b best →
    (∀ p ∈ (flmInner j2len i blo bhi js newm best).1,
      p.2 ≤ p.1 + 1 ∧ p.2 ≤ i + 1 ∧
      ∀ d, d < p.2 → a.getD (i - d) [] = b.getD (p.1 - d) []) ∧
    matchTriple a b (flmInner j2len i blo bhi js newm best).2 := by
  intro js
  induction js with
  | nil =>
    intro newm best _ hnew hbest
    exact ⟨hnew, hbest⟩
  | cons j js2 ihj =>
    intro newm best hrow hnew hbest
    simp only [flmInner]
    by_cases h1 : j < blo
    · rw [if_pos h1]
      exact ihj newm best (fun j2 hj2 => hrow j2 (by simp [hj2])) hnew hbest
    · rw [if_neg h1]
      by_cases h2 : j ≥ bhi
      · rw [if_pos h2]
        exact ⟨hnew, hbest⟩
      · rw [if_neg h2]
        have hjrow : b.getD j [] = a.getD i [] := hrow j (by simp)
        have hkb : j2lenGet j2len j + 1 ≤ j + 1 ∧
            j2lenGet j2len j + 1 ≤ i + 1 := by
          rcases j2lenGet_cases j2len j with hz | ⟨hj1, hmem⟩
          · rw [hz]; omega
          · obtain ⟨hb1, hb2, -⟩ := hprev _ hmem
            have hb1' : j2lenGet j2len j ≤ (j - 1) + 1 := hb1
            have hb2' : j2lenGet j2len j ≤ i := hb2
            omega
        have hPd : ∀ d, d < j2lenGet j2len j + 1 →
            a.getD (i - d) [] = b.getD (j - d) [] := by
          intro d hd
          rcases j2lenGet_cases j2len j with hz | ⟨hj1, hmem⟩
          · rw [hz] at hd
            have hd0 : d = 0 := by omega
            subst hd0
            simpa using hjrow.symm
          · obtain ⟨hb1, hb2, hsuf⟩ := hprev _ hmem
            have hsuf' : ∀ d2, d2 < j2lenGet j2len j →
                a.getD (i - (d2 + 1)) [] = b.getD (j - 1 - d2) [] := hsuf
            rcases Nat.eq_zero_or_pos d with hd0 | hdp
            · subst hd0
              simpa using hjrow.symm
            · have hd1 : d - 1 < j2lenGet j2len j := by omega
              have h3 := hsuf' (d - 1) hd1
              have hi2 : i - ((d - 1) + 1) = i - d := by omega
              have hj2 : j - 1 - (d - 1) = j - d := by omega
              rw [hi2, hj2] at h3
              exact h3
        have hnew' : ∀ p ∈ j2lenSet newm j (j2lenGet j2len j + 1),
            p.2 ≤ p.1 + 1 ∧ p.2 ≤ i + 1 ∧
            ∀ d, d < p.2 → a.getD (i - d) [] = b.getD (p.1 - d) [] := by
          intro p hp
          rcases j2lenSet_mem newm j (j2lenGet j2len j + 1) p hp with hold | hnewp
          · exact hnew p hold
          · subst hnewp
            exact ⟨hkb.1, hkb.2, hPd⟩
        have hbest' : matchTriple a b
            (if j2lenGet j2len j + 1 > best.2.2 then
              (i + 1 - (j2lenGet j2len j + 1), j + 1 - (j2lenGet j2len j + 1),
               j2lenGet j2len j + 1)
             else best) := by
          by_cases hgt : j2lenGet j2len j + 1 > best.2.2
          · rw [if_pos hgt]
            intro m hm
            have hm2 : m < j2lenGet j2len j + 1 := hm
            have hd := hPd (j2lenGet j2len j - m) (by omega)
            have hk1 : j2lenGet j2len j + 1 ≤ j + 1 := hkb.1
            have hk2 : j2lenGet j2len j + 1 ≤ i + 1 := hkb.2
            have hia : i + 1 - (j2lenGet j2len j + 1) + m =
                i - (j2lenGet j2len j - m) := by omega
            have hjb : j + 1 - (j2lenGet j2len j + 1) + m =
                j - (j2lenGet j2len j - m) := by omega
            show a.getD (i + 1 - (j2lenGet j2len j + 1) + m) [] =
              b.getD (j + 1 - (j2lenGet j2len j + 1) + m) []
            rw [hia, hjb]
            exact hd
          · rw [if_neg hgt]
            exact hbest
        exact ihj (j2lenSet newm j (j2lenGet j2len j + 1)) _
          (fun j2 hj2 => hrow j2 (by simp [hj2])) hnew' hbest'

/-- The outer DP loop over consecutive rows returns a best triple that
is a genuine common substring. -/
theorem flmOuter_sound (a b : List Elt) (b2j : List (Elt × List Nat))
    (hb2j : b2jSound b b2j) (blo bhi : Nat) :
    ∀ n i (j2len : List (Nat × Nat)) (best : Nat × Nat × Nat),
    (∀ p ∈ j2len, p.2 ≤ p.1 + 1 ∧ p.2 ≤ i ∧
      ∀ d, d < p.2 → a.getD (i - (d + 1)) [] = b.getD (p.1 - d) []) →
    matchTriple a b best →
    matchTriple a b (flmOuter a b2j blo bhi (List.range' i n) j2len best) := by
  intro n
  induction n with
  | zero =>
    intro i j2len best _ hbest
    exact hbest
  | succ n ihn =>
    intro i j2len best hprev hbest
    have hrange : List.range' i (n + 1) = i :: List.range' (i + 1) n := rfl
    rw [hrange]
    simp only [flmOuter]
    have hrow : ∀ j2 ∈ b2jGet b2j (a.getD i []), b.getD j2 [] = a.getD i [] :=
      fun j2 hj2 => b2jGet_sound b b2j hb2j _ j2 hj2
    have hin := flmInner_sound a b i blo bhi j2len hprev
      (b2jGet b2j (a.getD i [])) [] best hrow
      (by intro p hp; simp at hp) hbest
    rcases hfi : flmInner j2len i blo bhi (b2jGet b2j (a.getD i [])) [] best
      with ⟨newm, best2⟩
    rw [hfi] at hin
    exact ihn (i + 1) newm best2
      (by
        intro p hp
        obtain ⟨hb1, hb2, hsuf⟩ := hin.1 p hp
        refine ⟨hb1, by omega, ?_⟩
        intro d hd
        have hidx : i + 1 - (d + 1) = i - d := by omega
        rw [hidx]
        exact hsuf d hd)
      hin.2

/-- Leftward extension preserves the common-substring property. -/
theorem extendLeftF_sound (a b : List Elt) (bjunk : List Elt) (jf : Bool)
    (alo blo : Nat) : ∀ fuel (best : Nat × Nat × Nat), matchTriple a b best →
    matchTriple a b (extendLeftF a b bjunk jf alo blo fuel best) := by
  intro fuel
  induction fuel with
  | zero => intro best hbest; exact hbest
  | succ fuel ihf =>
    intro best hbest
    rcases best with ⟨bi, bj, bs⟩
    simp only [extendLeftF]
    by_cases hc : bi > alo ∧ bj > blo ∧
        (bjunk.contains (b.getD (bj - 1) []) = jf) ∧
        a.getD (bi - 1) [] = b.getD (bj - 1) []
    · rw [if_pos hc]
      refine ihf _ ?_
      intro m hm
      obtain ⟨hbi, hbj, -, heq⟩ := hc
      have hm2 : m < bs + 1 := hm
      rcases Nat.eq_zero_or_pos m with h0 | hp
      · subst h0
        simpa using heq
      · have hm3 : m - 1 < bs := by omega
        have h3 : a.getD (bi + (m - 1)) [] = b.getD (bj + (m - 1)) [] :=
          hbest (m - 1) hm3
        have hia : bi - 1 + m = bi + (m - 1) := by omega
        have hjb : bj - 1 + m = bj + (m - 1) := by omega
        show a.getD (bi - 1 + m) [] = b.getD (bj - 1 + m) []
        rw [hia, hjb]
        exact h3
    · rw [if_neg hc]
      exact hbest

/-- Rightward extension preserves the common-substring property. -/
theorem extendRightF_sound (a b : List Elt) (bjunk : List Elt) (jf : Bool)
    (ahi bhi : Nat) : ∀ fuel (best : Nat × Nat × Nat), matchTriple a b best →
    matchTriple a b (extendRightF a b bjunk jf ahi bhi fuel best) := by
  intro fuel
  induction fuel with
  | zero => intro best hbest; exact hbest
  | succ fuel ihf =>
    intro best hbest
    rcases best with ⟨bi, bj, bs⟩
    simp only [extendRightF]
    by_cases hc : bi + bs < ahi ∧ bj + bs < bhi ∧
        (bjunk.contains (b.getD (bj + bs) []) = jf) ∧
        a.getD (bi + bs) [] = b.getD (bj + bs) []
    · rw [if_pos hc]
      refine ihf _ ?_
      intro m hm
      obtain ⟨-, -, -, heq⟩ := hc
      have hm2 : m < bs + 1 := hm
      show a.getD (bi + m) [] = b.getD (bj + m) []
      rcases Nat.lt_or_ge m bs with hlt | hge
      · exact hbest m hlt
      · have hmeq : m = bs := by omega
        subst hmeq
        exact heq
    · rw [if_neg hc]
      exact hbest

/-- `find_longest_match` returns a genuine common substring. -/
theorem find_longest_match_sound (a b : List Elt)
    (b2j : List (Elt × List Nat)) (hb2j : b2jSound b b2j)
    (alo ahi blo bhi : Nat) :
    matchTriple a b (find_longest_match a b b2j alo ahi blo bhi) := by
  have h0 : matchTriple a b (alo, blo, 0) := by
    intro m hm
    exact absurd hm (Nat.not_lt_zero m)
  have h1 := flmOuter_sound a b b2j hb2j blo bhi (ahi - alo) alo []
    (alo, blo, 0) (by intro p hp; simp at hp) h0
  unfold find_longest_match extendLeft extendRight
  exact extendRightF_sound a b [] true ahi bhi _ _
    (extendLeftF_sound a b [] true alo blo _ _
      (extendRightF_sound a b [] false ahi bhi _ _
        (extendLeftF_sound a b [] false alo blo _ _ h1)))

end Difflib

namespace Difflib

set_option maxHeartbeats 1000000 in
/-- Every block emitted by the queue loop is a genuine common
substring. -/
theorem matchingBlocksLoop_sound (a b : List Elt)
    (b2j : List (Elt × List Nat)) (hb2j : b2jSound b b2j) :
    ∀ fuel (queue : List (Nat × Nat × Nat × Nat))
      (acc : List (Nat × Nat × Nat)),
    (∀ t ∈ acc, matchTriple a b t) →
    ∀ t ∈ matchingBlocksLoop a b b2j fuel queue acc, matchTriple a b t := by
  intro fuel
  induction fuel with
  | zero => intro queue acc hacc t ht; exact hacc t ht
  | succ fuel ihf =>
    intro queue acc hacc t ht
    match queue with
    | [] => exact hacc t ht
    | (alo, ahi, blo, bhi) :: queue2 =>
      rcases hfl : find_longest_match a b b2j alo ahi blo bhi with ⟨i, j, k⟩
      simp only [matchingBlocksLoop, hfl] at ht
      have hk := find_longest_match_sound a b b2j hb2j alo ahi blo bhi
      rw [hfl] at hk
      by_cases hk0 : k ≠ 0
      · rw [if_pos hk0] at ht
        refine ihf _ _ ?_ t ht
        intro t2 ht2
        rcases List.mem_append.mp ht2 with h2 | h2
        · exact hacc t2 h2
        · simp at h2
          subst h2
          exact hk
      · rw [if_neg hk0] at ht
        exact ihf _ _ hacc t ht

/-- Two adjacent common substrings concatenate to a common substring. -/
theorem matchTriple_add (a b : List Elt) (i j k1 k2 : Nat)
    (h1 : matchTriple a b (i, j, k1))
    (h2 : matchTriple a b (i + k1, j + k1, k2)) :
    matchTriple a b (i, j, k1 + k2) := by
  intro m hm
  have hm2 : m < k1 + k2 := hm
  show a.getD (i + m) [] = b.getD (j + m) []
  by_cases hlt : m < k1
  · exact h1 m hlt
  · have hmk : m - k1 < k2 := by omega
    have h3 : a.getD (i + k1 + (m - k1)) [] = b.getD (j + k1 + (m - k1)) [] :=
      h2 (m - k1) hmk
    have hia : i + k1 + (m - k1) = i + m := by omega
    have hjb : j + k1 + (m - k1) = j + m := by omega
    rw [hia, hjb] at h3
    exact h3

/-- The adjacent-merge loop preserves the common-substring property. -/
theorem mergeAdjacent_sound (a b : List Elt) :
    ∀ (l : List (Nat × Nat × Nat)) (i1 j1 k1 : Nat),
    matchTriple a b (i1, j1, k1) →
    (∀ t ∈ l, matchTriple a b t) →
    ∀ t ∈ mergeAdjacent i1 j1 k1 l, matchTriple a b t := by
  intro l
  induction l with
  | nil =>
    intro i1 j1 k1 h1 _ t ht
    simp only [mergeAdjacent] at ht
    by_cases hk : k1 ≠ 0
    · rw [if_pos hk] at ht
      simp at ht
      subst ht
      exact h1
    · rw [if_neg hk] at ht
      simp at ht
  | cons q l2 ihl =>
    intro i1 j1 k1 h1 hl t ht
    rcases q with ⟨i2, j2, k2⟩
    simp only [mergeAdjacent] at ht
    by_cases hadj : i1 + k1 = i2 ∧ j1 + k1 = j2
    · rw [if_pos hadj] at ht
      refine ihl i1 j1 (k1 + k2) ?_ (fun t2 ht2 => hl t2 (by simp [ht2])) t ht
      obtain ⟨ha1, ha2⟩ := hadj
      have h2 := hl (i2, j2, k2) (by simp)
      rw [← ha1, ← ha2] at h2
      exact matchTriple_add a b i1 j1 k1 k2 h1 h2
    · rw [if_neg hadj] at ht
      by_cases hk : k1 ≠ 0
      · rw [if_pos hk] at ht
        rcases List.mem_cons.mp ht with h2 | h2
        · subst h2
          exact h1
        · exact ihl i2 j2 k2 (hl (i2, j2, k2) (by simp))
            (fun t2 ht2 => hl t2 (by simp [ht2])) t h2
      · rw [if_neg hk] at ht
        exact ihl i2 j2 k2 (hl (i2, j2, k2) (by simp))
          (fun t2 ht2 => hl t2 (by simp [ht2])) t ht

/-- Every matching block is a genuine common substring. -/
theorem get_matching_blocks_sound (a b : List Elt)
    (b2j : List (Elt × List Nat)) (hb2j : b2jSound b b2j) :
    ∀ t ∈ get_matching_blocks a b b2j, matchTriple a b t := by
  intro t ht
  unfold get_matching_blocks at ht
  rcases List.mem_append.mp ht with h2 | h2
  · refine mergeAdjacent_sound a b _ 0 0 0 ?_ ?_ t h2
    · intro m hm
      exact absurd hm (Nat.not_lt_zero m)
    · intro t2 ht2
      exact matchingBlocksLoop_sound a b b2j hb2j _ _ [] (by simp) t2
        (mem_sortTriples t2 _ ht2)
  · simp at h2
    subst h2
    intro m hm
    exact absurd hm (Nat.not_lt_zero m)

/-- Every `equal` opcode emitted by the opcode loop covers two
aligned ranges of equal elements. -/
theorem opcodesLoop_equal (a b : List Elt) :
    ∀ (l : List (Nat × Nat × Nat)) (i j i1 i2 j1 j2 : Nat),
    (∀ t ∈ l, matchTriple a b t) →
    ("equal", i1, i2, j1, j2) ∈ opcodesLoop i j l →
    j2 - j1 = i2 - i1 ∧
    ∀ m, m < i2 - i1 → a.getD (i1 + m) [] = b.getD (j1 + m) [] := by
  intro l
  induction l with
  | nil => intro i j i1 i2 j1 j2 _ h; simp [opcodesLoop] at h
  | cons q l2 ihl =>
    intro i j i1 i2 j1 j2 hl h
    rcases q with ⟨ai, bj, size⟩
    simp only [opcodesLoop] at h
    have htagne : (if i < ai ∧ j < bj then "replace"
        else if i < ai then "delete"
        else if j < bj then "insert" else "") ≠ "equal" := by
      by_cases hc1 : i < ai ∧ j < bj
      · simp only [if_pos hc1]
        decide
      · by_cases hc2 : i < ai
        · simp only [if_neg hc1, if_pos hc2]
          decide
        · by_cases hc3 : j < bj
          · simp only [if_neg hc1, if_neg hc2, if_pos hc3]
            decide
          · simp only [if_neg hc1, if_neg hc2, if_neg hc3]
            decide
    rcases List.mem_append.mp h with hpe | hrec
    · rcases List.mem_append.mp hpe with hpre | heq
      · exfalso
        by_cases hne : (if i < ai ∧ j < bj then "replace"
            else if i < ai then "delete"
            else if j < bj then "insert" else "") ≠ ""
        · rw [if_pos hne] at hpre
          simp at hpre
          exact htagne hpre.1.symm
        · rw [if_neg hne] at hpre
          simp at hpre
      · by_cases hsz : size ≠ 0
        · rw [if_pos hsz] at heq
          simp at heq
          obtain ⟨he1, he2, he3, he4⟩ := heq
          subst he1
          subst he2
          subst he3
          subst he4
          refine ⟨by omega, ?_⟩
          intro m hm
          have hm2 : m < size := by omega
          exact hl (i1, j1, size) (by simp) m hm2
        · rw [if_neg hsz] at heq
          simp at heq
    · exact ihl (ai + size) (bj + size) i1 i2 j1 j2
        (fun t2 ht2 => hl t2 (by simp [ht2])) hrec

end Difflib

/-- Claim C4 (amended): every `equal` opcode of the
diff alignment used by `smart_merge` pairs ranges whose names are
pairwise equal — a slot of `a` is aligned `equal` with a slot of `b`
only when the two names coincide.  In particular an opaque
(empty-named) slot is never aligned with a named slot; but two opaque
slots *can* be aligned with each other (the original claim's "never
matched" is false — see the counterexample). -/
theorem claim_C4 (a b : List Difflib.Elt) (autojunk : Bool)
    (i1 i2 j1 j2 : Nat)
    (h : ("equal", i1, i2, j1, j2) ∈ Difflib.get_opcodes a b autojunk) :
    j2 - j1 = i2 - i1 ∧
    ∀ m, m < i2 - i1 → a.getD (i1 + m) [] = b.getD (j1 + m) [] := by
  unfold Difflib.get_opcodes at h
  exact Difflib.opcodesLoop_equal a b _ 0 0 i1 i2 j1 j2
    (Difflib.get_matching_blocks_sound a b _
      (Difflib.purgePopular_sound b autojunk b.length _
        (Difflib.buildB2j_sound b)))
    h

/-- Witness for the alignment claim: aligning ["x", "y"] with ["y"]
yields the equal opcode (1,2,0,1), whose single aligned pair holds
equal names. -/
theorem claim_C4_witness :
    (1 : Nat) - 0 = 2 - 1 ∧
    ∀ m, m < 2 - 1 →
      [['x'], ['y']].getD (1 + m) [] = [['y']].getD (0 + m) [] := by
  exact claim_C4 [['x'], ['y']] [['y']] false 1 2 0 1 (by decide)

/-! ## Supporting lemmas for the column-zero claim: character-level
facts about the CMake lexer -/

theorem head?_drop_eq (l : List Char) (n : Nat) :
    (l.drop n).head? = l.get? n := by
  rw [List.get?_eq_getElem?, List.head?_eq_getElem?, List.getElem?_drop]
  simp

theorem stripL_nil_space (l : List Char) (h : stripL l = []) :
    ∀ c ∈ l, isPySpace c = true := by
  intro c hc
  unfold stripL lstripL rstripL at h
  rw [List.reverse_eq_nil_iff] at h
  have h3 : ∀ c2 ∈ (l.dropWhile (fun c => isPySpace c)).reverse,
      isPySpace c2 = true := List.dropWhile_eq_nil_iff.mp h
  cases hsplit : l.dropWhile (fun c => isPySpace c) with
  | nil =>
    rw [← List.takeWhile_append_dropWhile (fun c => isPySpace c) l] at hc
    rw [hsplit] at hc
    rw [List.append_nil] at hc
    exact List.mem_takeWhile_imp hc
  | cons d ds =>
    exfalso
    have hd : isPySpace d = false :=
      head_dropWhile_false (fun c => isPySpace c) l d ds hsplit
    have hd2 : isPySpace d = true := by
      refine h3 d ?_
      rw [hsplit]
      simp
    rw [hd] at hd2
    exact Bool.noConfusion hd2

theorem cmakeMatchAt_nil (ls : Bool) : cmakeMatchAt ls [] = none := rfl

/-- Inversion: a `newline` match consumed exactly the newline
character. -/
theorem cmakeMatchAt_newline (ls : Bool) (s : List Char) (len : Nat)
    (h : cmakeMatchAt ls s = some ("newline", len)) :
    len = 1 ∧ s.head? = some '\n' := by
  unfold cmakeMatchAt at h
  split at h
  · simp at h
  · split at h
    · simp at h
    · rename_i c rest
      split at h
      · simp at h
      · split at h
        · simp at h
        · split at h
          · simp at h
          · split at h
            · simp at h
            · split at h
              · rename_i hc
                simp at h
                simp at hc
                refine ⟨by omega, by simp [hc]⟩
              · split at h
                · simp at h
                · simp at h

/-- At a physical line start, a suffix headed by a blank character
other than a carriage return is matched by some alternative (space and
tab by `indent`, newline by `newline`, the remaining vertical blanks
by `unquoted`). -/
theorem cmakeMatchAt_space_some (s : List Char) (c : Char)
    (hc : isPySpace c = true) (hr : ¬ c = '\r') (hh : s.head? = some c) :
    ¬ cmakeMatchAt true s = none := by
  intro h
  unfold cmakeMatchAt at h
  split at h
  · simp at h
  · split at h
    · simp at hh
    · rename_i c2 rest2
      simp at hh
      subst hh
      split at h
      · simp at h
      · split at h
        · simp at h
        · split at h
          · simp at h
          · split at h
            · simp at h
            · split at h
              · simp at h
              · split at h
                · simp at h
                · rename_i hu2 hcm hq2 hcf hsp hnl hin
                  simp only [isPySpace, Bool.or_eq_true, beq_iff_eq] at hc
                  rcases hc with
                    ((((((((((hc | hc) | hc) | hc) | hc) | hc) | hc) | hc)
                      | hc) | hc) | hc)
                  · subst hc; exact hin (by decide)
                  · subst hc; exact hin (by decide)
                  · subst hc; exact hnl (by decide)
                  · exact hr hc
                  · subst hc; exact hcf (by decide)
                  · subst hc; exact hcf (by decide)
                  · subst hc; exact hcf (by decide)
                  · subst hc; exact hcf (by decide)
                  · subst hc; exact hcf (by decide)
                  · subst hc; exact hcf (by decide)
                  · subst hc; exact hcf (by decide)

/-- The collected form of a generator element starts at the element's
first leaf token. -/
theorem collectGF_startPos (fuel : Nat) (g : GElem) (c : CElem)
    (h : collectGF fuel g = .ok c) :
    ∃ t rest, gFlat g = t :: rest ∧ c.startPos = t.span.start := by
  cases g with
  | tok t =>
    cases fuel with
    | zero =>
      simp only [collectGF] at h
      simp at h
      subst h
      exact ⟨t, [], by simp [gFlat], rfl⟩
    | succ fuel =>
      simp only [collectGF] at h
      simp at h
      subst h
      exact ⟨t, [], by simp [gFlat], rfl⟩
  | group left ys =>
    cases fuel with
    | zero => exact absurd h (by simp [collectGF])
    | succ fuel =>
      cases ys with
      | nil => exact absurd h (by simp [collectGF])
      | cons y0 ys0 =>
        simp only [collectGF] at h
        cases hm : (y0 :: ys0).mapM (collectGF fuel) with
        | error e =>
          rw [hm, except_bind_error] at h
          exact absurd h (by simp)
        | ok cs =>
          rw [hm, except_bind_ok] at h
          cases hl : cs.getLast? with
          | none => simp only [hl] at h; simp at h
          | some clast =>
            cases clast with
            | paren a2 b2 c2 => simp only [hl] at h; simp at h
            | tok rt =>
              simp only [hl] at h
              simp at h
              subst h
              exact ⟨left, gFlatList (y0 :: ys0), by simp [gFlat], rfl⟩

/-- An `ok` run of the unwrapper on a leading gap means the gap was
blank. -/
theorem unwrapped_cons_none (buf : List Char) (sp : Span)
    (rest : List OptTok) (ts : List Token)
    (h : unwrappedNonBlank buf (⟨none, sp⟩ :: rest) = .ok ts) :
    OptTok.blank buf ⟨none, sp⟩ = true ∧
    unwrappedNonBlank buf rest = .ok ts := by
  simp only [unwrappedNonBlank] at h
  by_cases hb : OptTok.blank buf ⟨none, sp⟩
  · rw [if_pos hb] at h
    exact ⟨hb, h⟩
  · rw [if_neg hb] at h
    exact absurd h (by simp)

theorem unwrapped_cons_some (buf : List Char) (k : String) (sp : Span)
    (rest : List OptTok) (ts : List Token)
    (h : unwrappedNonBlank buf (⟨some k, sp⟩ :: rest) = .ok ts) :
    ∃ ts2, unwrappedNonBlank buf rest = .ok ts2 ∧ ts = ⟨k, sp⟩ :: ts2 := by
  simp only [unwrappedNonBlank] at h
  cases hr : unwrappedNonBlank buf rest with
  | error e =>
    rw [hr, except_bind_error] at h
    exact absurd h (by simp)
  | ok ts2 =>
    rw [hr, except_bind_ok] at h
    have h2 : (⟨k, sp⟩ : Token) :: ts2 = ts := Except.ok.inj h
    exact ⟨ts2, rfl, h2.symm⟩

/-- The `finditer` scan finds the leftmost match at or after `p`. -/
theorem nextMatchFromF_spec (m : MatchFn) (buf : List Char) :
    ∀ fuel p q k len, nextMatchFromF m buf fuel p = some (q, k, len) →
    p ≤ q ∧ m (isLineStart buf q) (buf.drop q) = some (k, len) ∧
    ∀ r, p ≤ r → r < q → m (isLineStart buf r) (buf.drop r) = none := by
  intro fuel
  induction fuel with
  | zero => intro p q k len h; exact absurd h (by simp [nextMatchFromF])
  | succ fuel ihf =>
    intro p q k len h
    simp only [nextMatchFromF] at h
    cases hm : m (isLineStart buf p) (buf.drop p) with
    | some r =>
      obtain ⟨k2, len2⟩ := r
      rw [hm] at h
      simp at h
      obtain ⟨h1, h2, h3⟩ := h
      subst h1
      subst h2
      subst h3
      exact ⟨le_rfl, hm, fun r hr1 hr2 => absurd (lt_of_le_of_lt hr1 hr2)
        (lt_irrefl p)⟩
    | none =>
      rw [hm] at h
      by_cases hp : p < buf.length
      · rw [if_pos hp] at h
        obtain ⟨h1, h2, h3⟩ := ihf (p + 1) q k len h
        refine ⟨by omega, h2, ?_⟩
        intro r hr1 hr2
        rcases Nat.eq_or_lt_of_le hr1 with he | hlt
        · rw [← he]
          exact hm
        · exact h3 r hlt hr2
      · rw [if_neg hp] at h
        exact absurd h (by simp)

theorem Position.advanced_index (p : Position) (buf : List Char) (i j : Nat) :
    (p.advanced buf i j).index = p.index + (j - i) := by
  by_cases hn : (sliceList buf i j).count '\n' = 0
  · simp [Position.advanced, hn]
  · simp [Position.advanced, hn]

theorem mem_of_head? {α : Type} (l : List α) (a : α) (h : l.head? = some a) :
    a ∈ l := by
  cases l with
  | nil => simp at h
  | cons x xs =>
    simp at h
    simp [h]

theorem sliceList_head? (buf : List Char) (i j : Nat) (hij : i < j) :
    (sliceList buf i j).head? = buf.get? i := by
  have hd := head?_drop_eq buf i
  cases hdd : buf.drop i with
  | nil =>
    rw [hdd] at hd
    simp at hd
    simp [sliceList, hdd, hd]
  | cons c r =>
    rw [hdd] at hd
    simp at hd
    obtain ⟨m, hm⟩ : ∃ m, j - i = m + 1 := ⟨j - i - 1, by omega⟩
    simp [sliceList, hdd, hm, hd]

theorem advanced_newline_col (p : Position) (buf : List Char) (q : Nat)
    (h : buf.get? q = some '\n') :
    (p.advanced buf q (q + 1)).column = 0 := by
  have hd := head?_drop_eq buf q
  rw [h] at hd
  cases hdd : buf.drop q with
  | nil => rw [hdd] at hd; simp at hd
  | cons c r =>
    rw [hdd] at hd
    simp at hd
    subst hd
    have hs : sliceList buf q (q + 1) = ['\n'] := by
      simp [sliceList, hdd]
    unfold Position.advanced
    rw [hs]
    simp

/-- The lexer invariant behind the column-zero claim: on a buffer with
no carriage returns, the first token (under a line-start position of
column zero) and every token following a `newline` token start at
column zero. -/
theorem cmLex_inv (buf : List Char) (hnr : ∀ c ∈ buf, ¬ c = '\r') :
    ∀ fuel (pos : Position) (ts : List Token),
    unwrappedNonBlank buf (lexOptLoop cmakeMatchAt buf fuel pos) = .ok ts →
    (∀ t ∈ ts.head?, isLineStart buf pos.index = true → pos.column = 0 →
      t.span.start.column = 0) ∧
    List.Chain' (fun t t2 => t.kind = "newline" →
      t2.span.start.column = 0) ts := by
  intro fuel
  induction fuel with
  | zero =>
    intro pos ts h
    have h2 : ([] : List Token) = ts := Except.ok.inj h
    rw [← h2]
    exact ⟨by simp, by simp⟩
  | succ fuel ihf =>
    intro pos ts h
    simp only [lexOptLoop] at h
    cases hnm : nextMatchFrom cmakeMatchAt buf pos.index with
    | none =>
      rw [hnm] at h
      replace h : unwrappedNonBlank buf
          (if pos.index < buf.length then
            [⟨none, ⟨pos, pos.advanced buf pos.index buf.length⟩⟩]
          else []) = .ok ts := h
      by_cases hlt : pos.index < buf.length
      · rw [if_pos hlt] at h
        obtain ⟨hb, h2⟩ := unwrapped_cons_none buf _ _ _ h
        have h3 : ([] : List Token) = ts := Except.ok.inj h2
        rw [← h3]
        exact ⟨by simp, by simp⟩
      · rw [if_neg hlt] at h
        have h3 : ([] : List Token) = ts := Except.ok.inj h
        rw [← h3]
        exact ⟨by simp, by simp⟩
    | some x =>
      obtain ⟨q, k, len⟩ := x
      rw [hnm] at h
      replace h : unwrappedNonBlank buf
          ((if pos.index < q then
              [⟨none, ⟨pos,
                if pos.index < q then pos.advanced buf pos.index q else pos⟩⟩]
            else []) ++
            ⟨some k,
              ⟨(if pos.index < q then pos.advanced buf pos.index q else pos),
               (if pos.index < q then pos.advanced buf pos.index q
                else pos).advanced buf q (q + len)⟩⟩ ::
            lexOptLoop cmakeMatchAt buf fuel
              ((if pos.index < q then pos.advanced buf pos.index q
                else pos).advanced buf q (q + len))) = .ok ts := h
      unfold nextMatchFrom at hnm
      obtain ⟨hple, hmq, hnone⟩ := nextMatchFromF_spec cmakeMatchAt buf _ _ _ _ _ hnm
      have hqlt : q < buf.length := by
        by_contra hge
        rw [List.drop_eq_nil_of_le (by omega)] at hmq
        rw [cmakeMatchAt_nil] at hmq
        exact Option.noConfusion hmq
      by_cases hq : pos.index < q
      · simp only [if_pos hq] at h
        rw [List.singleton_append] at h
        obtain ⟨hb, h2⟩ := unwrapped_cons_none buf _ _ _ h
        obtain ⟨ts2, hrec, hts⟩ := unwrapped_cons_some buf _ _ _ _ h2
        obtain ⟨hHead2, hChain2⟩ := ihf _ _ hrec
        have hpq : (pos.advanced buf pos.index q).index = q := by
          rw [Position.advanced_index]
          omega
        -- the blank gap sits at [pos.index, q)
        have hgapblank : stripL (sliceList buf pos.index q) = [] := by
          have := hb
          unfold OptTok.blank OptTok.text at this
          simp at this
          convert this using 3
          exact hpq.symm
        obtain ⟨c0, hc0⟩ : ∃ c0, buf.get? pos.index = some c0 := by
          cases hg : buf.get? pos.index with
          | none =>
            exfalso
            rw [List.get?_eq_getElem?] at hg
            simp at hg
            omega
          | some c0 => exact ⟨c0, rfl⟩
        have hc0mem : c0 ∈ buf := List.get?_mem hc0
        have hc0space : isPySpace c0 = true := by
          refine stripL_nil_space _ hgapblank c0 ?_
          refine mem_of_head? _ _ ?_
          rw [sliceList_head? buf pos.index q hq]
          exact hc0
        have hnompos : cmakeMatchAt (isLineStart buf pos.index)
            (buf.drop pos.index) = none := hnone pos.index le_rfl hq
        subst hts
        constructor
        · intro t ht hls hcol
          exfalso
          rw [hls] at hnompos
          exact cmakeMatchAt_space_some (buf.drop pos.index) c0 hc0space
            (hnr c0 hc0mem) (by rw [head?_drop_eq]; exact hc0) hnompos
        · refine List.chain'_cons'.mpr ⟨?_, hChain2⟩
          intro t2 ht2 hkind
          simp at hkind
          subst hkind
          obtain ⟨hlen1, hhead⟩ := cmakeMatchAt_newline _ _ _ hmq
          rw [head?_drop_eq] at hhead
          subst hlen1
          refine hHead2 t2 ht2 ?_ ?_
          · have hpose : ((pos.advanced buf pos.index q).advanced buf q
                (q + 1)).index = q + 1 := by
              rw [Position.advanced_index, hpq]
              omega
            have hge : buf[q]? = some '\n' := by
              rw [← List.get?_eq_getElem?]
              exact hhead
            rw [hpose]
            simp [isLineStart, hge]
          · exact advanced_newline_col _ buf q hhead
      · simp only [if_neg hq] at h
        rw [List.nil_append] at h
        obtain ⟨ts2, hrec, hts⟩ := unwrapped_cons_some buf _ _ _ _ h
        obtain ⟨hHead2, hChain2⟩ := ihf _ _ hrec
        have hqeq : q = pos.index := by omega
        subst hts
        constructor
        · intro t ht hls hcol
          simp at ht
          subst ht
          exact hcol
        · refine List.chain'_cons'.mpr ⟨?_, hChain2⟩
          intro t2 ht2 hkind
          simp at hkind
          subst hkind
          obtain ⟨hlen1, hhead⟩ := cmakeMatchAt_newline _ _ _ hmq
          rw [head?_drop_eq] at hhead
          subst hlen1
          refine hHead2 t2 ht2 ?_ ?_
          · have hpose : (pos.advanced buf q (q + 1)).index = q + 1 := by
              rw [Position.advanced_index]
              omega
            have hge : buf[q]? = some '\n' := by
              rw [← List.get?_eq_getElem?]
              exact hhead
            rw [hpose]
            simp [isLineStart, hge]
          · exact advanced_newline_col _ buf q hhead

theorem iter_match_parens_gFlat (buf : List Char)
    (parens : List (List Char × List Char)) (ts : List Token)
    (es : List GElem) (h : iter_match_parens buf parens ts = .ok es) :
    gFlatList es = ts := by
  unfold iter_match_parens mpWork at h
  cases hmw : mpWorkF buf parens (ts.length + 1) ts none with
  | error e => rw [hmw] at h; exact absurd h (by simp)
  | ok p =>
    obtain ⟨es2, rest⟩ := p
    rw [hmw] at h
    simp at h
    subst h
    obtain ⟨heq, hrest⟩ := mpWorkF_gFlat buf parens ts.length ts le_rfl
      (ts.length + 1) (by omega) none es2 rest hmw
    rw [hrest rfl, List.append_nil] at heq
    exact heq

theorem collectGF_tok_inv (fuel : Nat) (g : GElem) (t : Token)
    (h : collectGF fuel g = .ok (.tok t)) : g = .tok t := by
  cases g with
  | tok t2 =>
    cases fuel with
    | zero =>
      simp only [collectGF] at h
      simp at h
      rw [h]
    | succ f =>
      simp only [collectGF] at h
      simp at h
      rw [h]
  | group left ys =>
    exfalso
    cases fuel with
    | zero => simp [collectGF] at h
    | succ f =>
      cases ys with
      | nil => simp [collectGF] at h
      | cons y0 ys0 =>
        simp only [collectGF] at h
        cases hm : (y0 :: ys0).mapM (collectGF f) with
        | error e => rw [hm, except_bind_error] at h; simp at h
        | ok cs =>
          rw [hm, except_bind_ok] at h
          cases hl : cs.getLast? with
          | none => simp only [hl] at h; simp at h
          | some cl =>
            cases cl with
            | tok rt => simp only [hl] at h; simp at h
            | paren a b c => simp only [hl] at h; simp at h

/-- The line segmenter propagates column-zero line starts: with the
token stream satisfying the lexer invariant, every yielded line's
first element starts at column zero. -/
theorem cmLinesLoop_colZero (buf : List Char) (fuel : Nat) :
    ∀ (es : List GElem) (line : List CElem)
      (gi fnb : Option Token) (lines : List CLine),
    cmLinesLoop buf fuel line gi fnb es = .ok lines →
    List.Chain' (fun t t2 => t.kind = "newline" → t2.span.start.column = 0)
      (gFlatList es) →
    (match line.head? with
     | some e0 => e0.startPos.column = 0
     | none => ∀ t ∈ (gFlatList es).head?, t.span.start.column = 0) →
    ∀ l ∈ lines, ∀ p, CLine.startPos l = .ok p → p.column = 0 := by
  intro es
  induction es with
  | nil =>
    intro line gi fnb lines h hchain hhead l hl p hp
    simp only [cmLinesLoop] at h
    by_cases hline : line.isEmpty
    · rw [if_pos hline] at h
      have h2 : ([] : List CLine) = lines := Except.ok.inj h
      rw [← h2] at hl
      simp at hl
    · rw [if_neg hline] at h
      have h2 : [(⟨line, gi, none, fnb⟩ : CLine)] = lines := Except.ok.inj h
      rw [← h2] at hl
      simp at hl
      subst hl
      unfold CLine.startPos at hp
      cases hh : line.head? with
      | none =>
        exfalso
        rw [List.head?_eq_none_iff] at hh
        rw [hh] at hline
        exact hline rfl
      | some e0 =>
        rw [hh] at hp
        replace hp : Except.ok e0.startPos = Except.ok p := hp
        have h3 : e0.startPos = p := Except.ok.inj hp
        rw [← h3]
        rw [hh] at hhead
        exact hhead
  | cons g rest ihg =>
    intro line gi fnb lines h hchain hhead l hl p hp
    simp only [cmLinesLoop] at h
    cases hcg : collectGF fuel g with
    | error e => rw [hcg, except_bind_error] at h; exact absurd h (by simp)
    | ok e =>
      rw [hcg, except_bind_ok] at h
      obtain ⟨t0, trest, hgf, hsp⟩ := collectGF_startPos fuel g e hcg
      have hgl : gFlatList (g :: rest) = (t0 :: trest) ++ gFlatList rest := by
        simp only [gFlatList]
        rw [hgf]
      rw [hgl] at hchain hhead
      rw [List.chain'_append] at hchain
      obtain ⟨hchain1, hchain2, hbound⟩ := hchain
      have hheadline : ∀ e2 ∈ (line ++ [e]).head?, e2.startPos.column = 0 := by
        intro e2 he2
        cases hl0 : line with
        | nil =>
          rw [hl0] at he2
          simp at he2
          subst he2
          rw [hl0] at hhead
          replace hhead : ∀ t ∈ ((t0 :: trest) ++ gFlatList rest).head?,
              t.span.start.column = 0 := hhead
          rw [hsp]
          exact hhead t0 (by simp)
        | cons c0 cs =>
          rw [hl0] at he2
          simp at he2
          subst he2
          rw [hl0] at hhead
          replace hhead : c0.startPos.column = 0 := hhead
          exact hhead
      cases e with
      | tok tok =>
        have hg : g = .tok tok := collectGF_tok_inv fuel g tok hcg
        have ht0 : t0 = tok ∧ trest = [] := by
          rw [hg] at hgf
          replace hgf : [tok] = t0 :: trest := hgf
          have h4 := hgf.symm
          simp at h4
          exact h4
        replace h : (if tok.kind = "indent" then
            (if !line.isEmpty || gi.isSome || fnb.isSome then
              (.error .assertionError : Except Err (List CLine))
             else cmLinesLoop buf fuel (line ++ [CElem.tok tok]) (some tok)
               fnb rest)
          else if tok.kind = "newline" then do
            let ls ← cmLinesLoop buf fuel [] none none rest
            (.ok (⟨line ++ [CElem.tok tok], gi, some tok, fnb⟩ :: ls) :
              Except Err (List CLine))
          else if tok.kind = "comment" then
            cmLinesLoop buf fuel (line ++ [CElem.tok tok]) gi fnb rest
          else
            cmLinesLoop buf fuel (line ++ [CElem.tok tok]) gi
              (if fnb.isNone then some tok else fnb) rest) = .ok lines := h
        by_cases hknd1 : tok.kind = "indent"
        · rw [if_pos hknd1] at h
          by_cases hst : !line.isEmpty || gi.isSome || fnb.isSome
          · rw [if_pos hst] at h
            exact absurd h (by simp)
          · rw [if_neg hst] at h
            refine ihg (line ++ [CElem.tok tok]) (some tok) fnb lines h hchain2
              ?_ l hl p hp
            cases hlh : (line ++ [CElem.tok tok]).head? with
            | none => simp at hlh
            | some e2 => exact hheadline e2 (by rw [hlh]; rfl)
        · rw [if_neg hknd1] at h
          by_cases hknd2 : tok.kind = "newline"
          · rw [if_pos hknd2] at h
            cases hrec : cmLinesLoop buf fuel [] none none rest with
            | error e2 =>
              rw [hrec, except_bind_error] at h
              exact absurd h (by simp)
            | ok ls =>
              rw [hrec, except_bind_ok] at h
              have h2 : (⟨line ++ [CElem.tok tok], gi, some tok, fnb⟩ :
                  CLine) :: ls = lines := Except.ok.inj h
              rw [← h2] at hl
              rcases List.mem_cons.mp hl with hl2 | hl2
              · subst hl2
                unfold CLine.startPos at hp
                cases hlh : (line ++ [CElem.tok tok]).head? with
                | none => simp at hlh
                | some e2 =>
                  rw [hlh] at hp
                  replace hp : Except.ok e2.startPos = Except.ok p := hp
                  have h3 : e2.startPos = p := Except.ok.inj hp
                  rw [← h3]
                  exact hheadline e2 (by rw [hlh]; rfl)
              · refine ihg [] none none ls hrec hchain2 ?_ l hl2 p hp
                show ∀ t ∈ (gFlatList rest).head?, t.span.start.column = 0
                intro t ht
                refine hbound tok ?_ t ht hknd2
                rw [ht0.2, ht0.1]
                simp
          · rw [if_neg hknd2] at h
            by_cases hknd3 : tok.kind = "comment"
            · rw [if_pos hknd3] at h
              refine ihg (line ++ [CElem.tok tok]) gi fnb lines h hchain2
                ?_ l hl p hp
              cases hlh : (line ++ [CElem.tok tok]).head? with
              | none => simp at hlh
              | some e2 => exact hheadline e2 (by rw [hlh]; rfl)
            · rw [if_neg hknd3] at h
              refine ihg (line ++ [CElem.tok tok]) gi
                (if fnb.isNone then some tok else fnb) lines h hchain2
                ?_ l hl p hp
              cases hlh : (line ++ [CElem.tok tok]).head? with
              | none => simp at hlh
              | some e2 => exact hheadline e2 (by rw [hlh]; rfl)
      | paren left inner right =>
        replace h : cmLinesLoop buf fuel (line ++ [CElem.paren left inner right])
            gi (if fnb.isNone then some left else fnb) rest = .ok lines := h
        refine ihg (line ++ [CElem.paren left inner right]) gi
          (if fnb.isNone then some left else fnb) lines h hchain2
          ?_ l hl p hp
        cases hlh : (line ++ [CElem.paren left inner right]).head? with
        | none => simp at hlh
        | some e2 => exact hheadline e2 (by rw [hlh]; rfl)

/-- Claim C10 (amended): on a buffer containing no carriage return,
every Line yielded by `identify_cmake_lines` on a successfully lexed
and paren-matched buffer starts at column 0 (the invariant the
downstream extractor asserts before slicing line text).  A carriage
return at a line start is lexed as a skipped blank gap and shifts the
following line's first token to column 1 — see the counterexample. -/
theorem claim_C10 (buf : List Char) (hnr : ∀ c ∈ buf, ¬ c = '\r')
    (ts : List Token) (es : List GElem) (fuel : Nat) (lines : List CLine)
    (hts : iter_cmake_tokens buf = .ok ts)
    (hes : iter_match_parens buf cmakeParens ts = .ok es)
    (hlines : identify_cmake_lines buf fuel es = .ok lines) :
    ∀ l ∈ lines, ∀ p, CLine.startPos l = .ok p → p.column = 0 := by
  have hflat : gFlatList es = ts :=
    iter_match_parens_gFlat buf cmakeParens ts es hes
  unfold iter_cmake_tokens lexTokens iterOptTokens at hts
  obtain ⟨hHead, hChain⟩ := cmLex_inv buf hnr (buf.length + 1) startPosition
    ts hts
  unfold identify_cmake_lines at hlines
  refine cmLinesLoop_colZero buf fuel es [] none none lines hlines ?_ ?_
  · rw [hflat]
    exact hChain
  · show ∀ t ∈ (gFlatList es).head?, t.span.start.column = 0
    rw [hflat]
    intro t ht
    exact hHead t ht (by simp [isLineStart, startPosition]) rfl

/-- Witness for the column-zero claim: the input "a" then "b"
(newline-terminated, no carriage returns) lexes and segments without
error, and its first line starts at column 0. -/
theorem claim_C10_witness :
    (∀ c ∈ ("a\nb\n".toList), ¬ c = '\r') ∧
    (⟨0, 1, 0⟩ : Position).column = 0 := by
  refine ⟨by decide, ?_⟩
  exact claim_C10 ("a\nb\n".toList) (by decide)
    [⟨"unquoted", ⟨⟨0, 1, 0⟩, ⟨1, 1, 1⟩⟩⟩,
     ⟨"newline", ⟨⟨1, 1, 1⟩, ⟨2, 2, 0⟩⟩⟩,
     ⟨"unquoted", ⟨⟨2, 2, 0⟩, ⟨3, 2, 1⟩⟩⟩,
     ⟨"newline", ⟨⟨3, 2, 1⟩, ⟨4, 3, 0⟩⟩⟩]
    [GElem.tok ⟨"unquoted", ⟨⟨0, 1, 0⟩, ⟨1, 1, 1⟩⟩⟩,
     GElem.tok ⟨"newline", ⟨⟨1, 1, 1⟩, ⟨2, 2, 0⟩⟩⟩,
     GElem.tok ⟨"unquoted", ⟨⟨2, 2, 0⟩, ⟨3, 2, 1⟩⟩⟩,
     GElem.tok ⟨"newline", ⟨⟨3, 2, 1⟩, ⟨4, 3, 0⟩⟩⟩]
    5 _ rfl rfl rfl
    (⟨[CElem.tok ⟨"unquoted", ⟨⟨0, 1, 0⟩, ⟨1, 1, 1⟩⟩⟩,
       CElem.tok ⟨"newline", ⟨⟨1, 1, 1⟩, ⟨2, 2, 0⟩⟩⟩],
      none, some ⟨"newline", ⟨⟨1, 1, 1⟩, ⟨2, 2, 0⟩⟩⟩,
      some ⟨"unquoted", ⟨⟨0, 1, 0⟩, ⟨1, 1, 1⟩⟩⟩⟩ : CLine)
    (by simp) ⟨0, 1, 0⟩ rfl

/-! ## Supporting lemmas for the round-trip claim: match lengths -/

theorem takeWhile_length_lt {α : Type} (p : α → Bool) :
    ∀ (l : List α) (a : α), a ∈ l → p a = false →
    (l.takeWhile p).length < l.length := by
  intro l
  induction l with
  | nil => intro a ha; simp at ha
  | cons x xs ihx =>
    intro a ha hpa
    rcases List.mem_cons.mp ha with h2 | h2
    · subst h2
      rw [List.takeWhile_cons, if_neg (by simp [hpa])]
      simp
    · cases hx : p x with
      | false =>
        rw [List.takeWhile_cons, if_neg (by simp [hx])]
        simp
      | true =>
        rw [List.takeWhile_cons, if_pos (by simp [hx])]
        simp only [List.length_cons]
        exact Nat.succ_lt_succ (ihx a h2 hpa)

theorem takeWhile_length_le {α : Type} (p : α → Bool) (l : List α) :
    (l.takeWhile p).length ≤ l.length := by
  induction l with
  | nil => simp
  | cons x xs ihx =>
    rw [List.takeWhile_cons]
    by_cases hx : p x = true
    · rw [if_pos (by simp [hx])]
      simp only [List.length_cons]
      omega
    · rw [if_neg (by simp [hx])]
      simp

theorem cmQuotedTail_bound : ∀ (m : Nat) (s : List Char), s.length ≤ m →
    ∀ n, cmQuotedTail s = some n → 1 ≤ n ∧ n ≤ s.length := by
  intro m
  induction m with
  | zero =>
    intro s hs n h
    rw [cmQuotedTail.eq_def] at h
    split at h
    · simp at h
    · simp at hs
  | succ m ihm =>
    intro s hs n h
    rw [cmQuotedTail.eq_def] at h
    split at h
    · simp at h
    · rename_i c rest
      split at h
      · simp at h
        subst h
        simp only [List.length_cons]
        omega
      · split at h
        · split at h
          · simp at h
          · rename_i d rest2
            split at h
            · simp at h
            · cases hq : cmQuotedTail rest2 with
              | none => rw [hq] at h; simp at h
              | some n2 =>
                rw [hq] at h
                simp at h
                obtain ⟨h1, h2⟩ := ihm rest2 (by simp at hs; omega) n2 hq
                simp only [List.length_cons]
                omega
        · cases hq : cmQuotedTail rest with
          | none => rw [hq] at h; simp at h
          | some n2 =>
            rw [hq] at h
            simp at h
            obtain ⟨h1, h2⟩ := ihm rest (by simp at hs; omega) n2 hq
            simp only [List.length_cons]
            omega

theorem cmUnqContF_bound : ∀ (fuel : Nat) (s : List Char),
    cmUnqContF fuel s ≤ s.length := by
  intro fuel
  induction fuel with
  | zero => intro s; simp [cmUnqContF]
  | succ fuel ihf =>
    intro s
    match s with
    | [] => simp [cmUnqContF]
    | c :: rest =>
      simp only [cmUnqContF]
      by_cases hc : cmContChar c = true
      · rw [if_pos hc]
        have := ihf rest
        simp only [List.length_cons]
        omega
      · rw [if_neg hc]
        by_cases hd : (c == '$') = true
        · rw [if_pos hd]
          match rest with
          | [] =>
            show 1 + cmUnqContF fuel [] ≤ (c :: ([] : List Char)).length
            have := ihf ([] : List Char)
            simp only [List.length_cons]
            omega
          | e :: rest2 =>
            show (if (e == '(') = true then
                if rest2.contains ')' = true then
                  2 + ((rest2.takeWhile (fun d => !(d == ')'))).length + 1) +
                    cmUnqContF fuel (rest2.drop
                      ((rest2.takeWhile (fun d => !(d == ')'))).length + 1))
                else 1 + cmUnqContF fuel (e :: rest2)
              else 1 + cmUnqContF fuel (e :: rest2)) ≤ (c :: e :: rest2).length
            by_cases he : (e == '(') = true
            · rw [if_pos he]
              by_cases hp : rest2.contains ')' = true
              · rw [if_pos hp]
                have h1 : (rest2.takeWhile (fun d => !(d == ')'))).length <
                    rest2.length := by
                  refine takeWhile_length_lt _ rest2 ')' ?_ (by simp)
                  simpa using hp
                have h2 := ihf (rest2.drop
                  ((rest2.takeWhile (fun d => !(d == ')'))).length + 1))
                simp only [List.length_drop] at h2
                simp only [List.length_cons]
                omega
              · rw [if_neg hp]
                have := ihf (e :: rest2)
                simp only [List.length_cons] at this ⊢
                omega
            · rw [if_neg he]
              have := ihf (e :: rest2)
              simp only [List.length_cons] at this ⊢
              omega
        · rw [if_neg hd]
          simp

theorem cmUnimplScan_bound (s : List Char) (n : Nat)
    (h : cmUnimplScan s = some n) : 1 ≤ n ∧ n ≤ s.length := by
  rw [cmUnimplScan.eq_def] at h
  simp only [] at h
  split at h
  · rename_i c rest
    split at h
    · split at h
      · rename_i n2 heq
        simp at h
        subst h
        split at heq
        · rename_i c2 rest2
          split at heq
          · split at heq
            · rename_i hget
              simp at heq
              have hr : (rest2.takeWhile (fun d => d == '=')).length <
                  rest2.length := by
                by_contra hge
                rw [List.get?_eq_none.mpr (by omega)] at hget
                exact Option.noConfusion hget
              simp only [List.length_cons]
              omega
            · simp at heq
          · simp at heq
        · simp at heq
      · simp at h
    · split at h
      · split at h
        · rename_i hget
          simp at h
          have hr : (rest.takeWhile (fun d => d == '=')).length <
              rest.length := by
            by_contra hge
            rw [List.get?_eq_none.mpr (by omega)] at hget
            exact Option.noConfusion hget
          simp only [List.length_cons]
          omega
        · simp at h
      · simp at h
  · simp at h

/-- Every alternative of the CMake lexer consumes at least one and at
most the remaining characters. -/
theorem cmakeMatchAt_len (ls : Bool) (s : List Char) (k : String) (len : Nat)
    (h : cmakeMatchAt ls s = some (k, len)) :
    1 ≤ len ∧ len ≤ s.length := by
  unfold cmakeMatchAt at h
  split at h
  · rename_i n hu
    simp at h
    obtain ⟨h1, h2⟩ := h
    subst h2
    exact cmUnimplScan_bound s n hu
  · split at h
    · simp at h
    · rename_i c rest hu0
      split at h
      · simp at h
        obtain ⟨h1, h2⟩ := h
        subst h2
        have := takeWhile_length_le (fun d => !(d == '\n')) rest
        simp only [List.length_cons]
        omega
      · split at h
        · rename_i n hq
          simp at h
          obtain ⟨h1, h2⟩ := h
          subst h2
          unfold cmQuotedScan at hq
          simp only [] at hq
          split at hq
          · cases hqt : cmQuotedTail rest with
            | none => rw [hqt] at hq; simp at hq
            | some n2 =>
              rw [hqt] at hq
              simp at hq
              obtain ⟨hb1, hb2⟩ := cmQuotedTail_bound rest.length rest
                le_rfl n2 hqt
              simp only [List.length_cons]
              omega
          · simp at hq
        · split at h
          · simp at h
            obtain ⟨h1, h2⟩ := h
            subst h2
            have := cmUnqContF_bound (rest.length + 1) rest
            simp only [List.length_cons]
            unfold cmUnqCont
            omega
          · split at h
            · simp at h
              obtain ⟨h1, h2⟩ := h
              subst h2
              simp
            · split at h
              · simp at h
                obtain ⟨h1, h2⟩ := h
                subst h2
                simp
              · split at h
                · simp at h
                  obtain ⟨h1, h2⟩ := h
                  subst h2
                  have := takeWhile_length_le
                    (fun d => d == ' ' || d == '\t') rest
                  simp only [List.length_cons]
                  omega
                · simp at h

/-- With adequate fuel, the emitted `OptTok`s tile the remainder of
the buffer contiguously. -/
theorem lexOptLoop_tiles (buf : List Char) :
    ∀ fuel (pos : Position), pos.index ≤ buf.length →
    buf.length < pos.index + fuel →
    spanTiles ((lexOptLoop cmakeMatchAt buf fuel pos).map OptTok.span)
      pos.index buf.length := by
  intro fuel
  induction fuel with
  | zero =>
    intro pos hle hfu
    have : pos.index = buf.length := by omega
    simp only [lexOptLoop, List.map_nil]
    exact this
  | succ fuel ihf =>
    intro pos hle hfu
    simp only [lexOptLoop]
    cases hnm : nextMatchFrom cmakeMatchAt buf pos.index with
    | none =>
      by_cases hlt : pos.index < buf.length
      · rw [if_pos hlt]
        simp only [List.map_cons, List.map_nil]
        refine ⟨rfl, ?_, ?_⟩
        · rw [Position.advanced_index]
          omega
        · show spanTiles [] (pos.advanced buf pos.index buf.length).index
            buf.length
          rw [Position.advanced_index]
          show pos.index + (buf.length - pos.index) = buf.length
          omega
      · rw [if_neg hlt]
        simp only [List.map_nil]
        show pos.index = buf.length
        omega
    | some x =>
      obtain ⟨q, k, len⟩ := x
      show spanTiles (List.map OptTok.span
          ((if pos.index < q then
              [⟨none, ⟨pos,
                if pos.index < q then pos.advanced buf pos.index q else pos⟩⟩]
            else []) ++
            ⟨some k,
              ⟨(if pos.index < q then pos.advanced buf pos.index q else pos),
               (if pos.index < q then pos.advanced buf pos.index q
                else pos).advanced buf q (q + len)⟩⟩ ::
            lexOptLoop cmakeMatchAt buf fuel
              ((if pos.index < q then pos.advanced buf pos.index q
                else pos).advanced buf q (q + len)))) pos.index buf.length
      unfold nextMatchFrom at hnm
      obtain ⟨hple, hmq, hnone⟩ :=
        nextMatchFromF_spec cmakeMatchAt buf _ _ _ _ _ hnm
      have hqlt : q < buf.length := by
        by_contra hge
        rw [List.drop_eq_nil_of_le (by omega)] at hmq
        rw [cmakeMatchAt_nil] at hmq
        exact Option.noConfusion hmq
      obtain ⟨hlen1, hlen2⟩ := cmakeMatchAt_len _ _ _ _ hmq
      rw [List.length_drop] at hlen2
      by_cases hq : pos.index < q
      · simp only [if_pos hq]
        simp only [List.map_cons, List.map_append, List.map_cons, List.map_nil,
          List.singleton_append]
        have ha1 : (pos.advanced buf pos.index q).index = q := by
          rw [Position.advanced_index]
          omega
        have ha2 : ((pos.advanced buf pos.index q).advanced buf q
            (q + len)).index = q + len := by
          rw [Position.advanced_index, ha1]
          omega
        have hrec : spanTiles (List.map OptTok.span
            (lexOptLoop cmakeMatchAt buf fuel
              ((pos.advanced buf pos.index q).advanced buf q (q + len))))
            (q + len) buf.length := by
          have := ihf ((pos.advanced buf pos.index q).advanced buf q (q + len))
            (by rw [ha2]; omega) (by rw [ha2]; omega)
          rw [ha2] at this
          exact this
        exact ⟨rfl, by rw [ha1]; omega,
          by rw [ha1], by rw [ha1, ha2]; omega, by rw [ha2]; exact hrec⟩
      · simp only [if_neg hq]
        simp only [List.map_cons, List.nil_append, List.map_nil]
        have hqe : q = pos.index := by omega
        have ha2 : (pos.advanced buf q (q + len)).index = q + len := by
          rw [Position.advanced_index]
          omega
        have hrec : spanTiles (List.map OptTok.span
            (lexOptLoop cmakeMatchAt buf fuel (pos.advanced buf q (q + len))))
            (q + len) buf.length := by
          have := ihf (pos.advanced buf q (q + len))
            (by rw [ha2]; omega) (by rw [ha2]; omega)
          rw [ha2] at this
          exact this
        refine ⟨rfl, ?_, ?_⟩
        · show pos.index ≤ (pos.advanced buf q (q + len)).index
          rw [ha2]
          omega
        · show spanTiles _ (pos.advanced buf q (q + len)).index buf.length
          rw [ha2]
          exact hrec

/-- When no gaps were emitted, the unwrapped tokens carry exactly the
spans of the `OptTok` stream. -/
theorem unwrapped_all_some (buf : List Char) :
    ∀ (os : List OptTok) (ts : List Token),
    (∀ o ∈ os, o.kind ≠ none) →
    unwrappedNonBlank buf os = .ok ts →
    ts.map Token.span = os.map OptTok.span := by
  intro os
  induction os with
  | nil =>
    intro ts _ h
    have h2 : ([] : List Token) = ts := Except.ok.inj h
    rw [← h2]
    rfl
  | cons o rest iho =>
    intro ts hall h
    cases hk : o.kind with
    | none => exact absurd hk (hall o (by simp))
    | some k =>
      obtain ⟨kk, sp⟩ := o
      simp at hk
      subst hk
      obtain ⟨ts2, hrec, hts⟩ := unwrapped_cons_some buf _ _ _ _ h
      subst hts
      simp only [List.map_cons]
      rw [iho ts2 (fun o2 ho2 => hall o2 (by simp [ho2])) hrec]

theorem spanTiles_le : ∀ (l : List Span) (s e : Nat),
    spanTiles l s e → s ≤ e := by
  intro l
  induction l with
  | nil => intro s e h; exact le_of_eq h
  | cons sp rest ihl =>
    intro s e h
    obtain ⟨h1, h2, h3⟩ := h
    exact le_trans h2 (ihl _ _ h3)

theorem spanTiles_append : ∀ (a b : List Span) (s m e : Nat),
    spanTiles a s m → spanTiles b m e → spanTiles (a ++ b) s e := by
  intro a
  induction a with
  | nil =>
    intro b s m e h1 h2
    have : s = m := h1
    rw [this]
    simpa using h2
  | cons sp rest iha =>
    intro b s m e h1 h2
    obtain ⟨h3, h4, h5⟩ := h1
    exact ⟨h3, h4, iha b _ m e h5 h2⟩

theorem spanTiles_append_split : ∀ (a b : List Span) (s e : Nat),
    spanTiles (a ++ b) s e → ∃ m, spanTiles a s m ∧ spanTiles b m e := by
  intro a
  induction a with
  | nil =>
    intro b s e h
    exact ⟨s, rfl, by simpa using h⟩
  | cons sp rest iha =>
    intro b s e h
    obtain ⟨h1, h2, h3⟩ := h
    obtain ⟨m, h4, h5⟩ := iha b _ e h3
    exact ⟨m, ⟨h1, h2, h4⟩, h5⟩

theorem spanTiles_last : ∀ (l : List Span) (s e : Nat),
    spanTiles l s e → ∀ sp ∈ l.getLast?, sp.stop.index = e := by
  intro l
  induction l with
  | nil => intro s e _ sp h; simp at h
  | cons x rest ihl =>
    intro s e h sp hsp
    obtain ⟨h1, h2, h3⟩ := h
    cases rest with
    | nil =>
      simp at hsp
      subst hsp
      exact h3
    | cons y ys =>
      rw [List.getLast?_cons_cons] at hsp
      exact ihl _ _ h3 sp hsp

theorem sliceList_append (buf : List Char) (i j k2 : Nat)
    (h1 : i ≤ j) (h2 : j ≤ k2) :
    sliceList buf i j ++ sliceList buf j k2 = sliceList buf i k2 := by
  unfold sliceList
  have h3 : buf.drop j = (buf.drop i).drop (j - i) := by
    rw [List.drop_drop]
    congr 1
    omega
  rw [h3, ← List.take_add]
  congr 1
  omega

theorem flattenC_ne_nil (c : CElem) : flattenC c ≠ [] := by
  cases c with
  | tok t => simp [flattenC]
  | paren left inner right => simp [flattenC]

theorem flattenC_startPos (c : CElem) :
    ∃ t rest, flattenC c = t :: rest ∧ c.startPos = t.span.start := by
  cases c with
  | tok t => exact ⟨t, [], rfl, rfl⟩
  | paren left inner right =>
    exact ⟨left, flattenCList inner ++ [right], rfl, rfl⟩

theorem flattenC_endPos (c : CElem) :
    ∃ t, (flattenC c).getLast? = some t ∧ c.endPos = t.span.stop := by
  cases c with
  | tok t => exact ⟨t, rfl, rfl⟩
  | paren left inner right =>
    refine ⟨right, ?_, rfl⟩
    show (left :: (flattenCList inner ++ [right])).getLast? = some right
    rw [show left :: (flattenCList inner ++ [right]) =
      (left :: flattenCList inner) ++ [right] by simp]
    rw [List.getLast?_append_of_ne_nil _ (by simp)]
    rfl

theorem flattenCList_head (cs : List CElem) (c0 : CElem)
    (h : cs.head? = some c0) :
    ∃ t rest, flattenCList cs = t :: rest ∧ c0.startPos = t.span.start := by
  cases cs with
  | nil => simp at h
  | cons c cs2 =>
    simp only [List.head?_cons, Option.some.injEq] at h
    subst h
    obtain ⟨t, r, hf, hs⟩ := flattenC_startPos c
    refine ⟨t, r ++ flattenCList cs2, ?_, hs⟩
    show flattenC c ++ flattenCList cs2 = t :: (r ++ flattenCList cs2)
    rw [hf]
    rfl

theorem flattenCList_getLast : ∀ (cs : List CElem) (cN : CElem),
    cs.getLast? = some cN →
    ∃ t, (flattenCList cs).getLast? = some t ∧ cN.endPos = t.span.stop := by
  intro cs
  induction cs with
  | nil => intro cN h; simp at h
  | cons c cs2 ihc =>
    intro cN h
    cases cs2 with
    | nil =>
      simp only [List.getLast?_singleton, Option.some.injEq] at h
      subst h
      obtain ⟨t, hl, hs⟩ := flattenC_endPos c
      refine ⟨t, ?_, hs⟩
      show (flattenC c ++ flattenCList []).getLast? = some t
      show (flattenC c ++ []).getLast? = some t
      rw [List.append_nil]
      exact hl
    | cons d ds =>
      rw [List.getLast?_cons_cons] at h
      obtain ⟨t, hl, hs⟩ := ihc cN h
      refine ⟨t, ?_, hs⟩
      show (flattenC c ++ flattenCList (d :: ds)).getLast? = some t
      rw [List.getLast?_append_of_ne_nil]
      · exact hl
      · show flattenC d ++ flattenCList ds ≠ []
        intro hh
        exact flattenC_ne_nil d (List.append_eq_nil.mp hh).1

theorem getLast?_map {α β : Type} (f : α → β) : ∀ (l : List α),
    (l.map f).getLast? = l.getLast?.map f := by
  intro l
  induction l with
  | nil => rfl
  | cons x xs ihx =>
    cases xs with
    | nil => rfl
    | cons y ys =>
      simp only [List.map_cons, List.getLast?_cons_cons]
      simp only [List.map_cons] at ihx
      exact ihx

/-- A nonempty line whose flattened tokens tile `[a, m)` slices to
exactly that interval. -/
theorem cmLineText_of_tiles (buf : List Char) (cs : List CElem)
    (gi nl fnb : Option Token) (a m : Nat) (hne : cs ≠ [])
    (ht : spanTiles ((flattenCList cs).map Token.span) a m) :
    cmLineText buf ⟨cs, gi, nl, fnb⟩ = sliceList buf a m := by
  obtain ⟨c0, hh⟩ : ∃ c0, cs.head? = some c0 := by
    cases cs with
    | nil => exact absurd rfl hne
    | cons c cs2 => exact ⟨c, rfl⟩
  obtain ⟨cN, hl⟩ : ∃ cN, cs.getLast? = some cN := by
    cases cs with
    | nil => exact absurd rfl hne
    | cons c cs2 => exact ⟨(c :: cs2).getLast (by simp), List.getLast?_eq_getLast _ _⟩
  obtain ⟨t0, r0, hf0, hs0⟩ := flattenCList_head cs c0 hh
  obtain ⟨tN, hfN, hsN⟩ := flattenCList_getLast cs cN hl
  have hstart : t0.span.start.index = a := by
    rw [hf0] at ht
    exact ht.1
  have hstop : tN.span.stop.index = m := by
    refine spanTiles_last _ _ _ ht tN.span ?_
    rw [getLast?_map, hfN]
    rfl
  unfold cmLineText
  simp only [hh, hl]
  rw [hs0, hsN, hstart, hstop]

/-- The texts of the segmented lines concatenate to the slice covered
by the remaining generator stream (plus the line being accumulated). -/
theorem cmLinesLoop_concat (buf : List Char) (fuel : Nat) :
    ∀ (es : List GElem) (line : List CElem) (gi fnb : Option Token)
      (lines : List CLine) (a m : Nat),
    cmLinesLoop buf fuel line gi fnb es = .ok lines →
    spanTiles ((flattenCList line).map Token.span) a m →
    spanTiles ((gFlatList es).map Token.span) m buf.length →
    (lines.map (cmLineText buf)).flatten = sliceList buf a buf.length := by
  intro es
  induction es with
  | nil =>
    intro line gi fnb lines a m h htl hte
    have hm : m = buf.length := hte
    subst hm
    by_cases hemp : line.isEmpty
    · have hval : cmLinesLoop buf fuel line gi fnb [] =
          (.ok [] : Except Err (List CLine)) := by
        simp [cmLinesLoop, hemp]
      rw [hval] at h
      replace h := Except.ok.inj h
      subst h
      have hln : line = [] := List.isEmpty_iff.mp hemp
      subst hln
      have ha : a = buf.length := htl
      subst ha
      simp [sliceList]
    · have hval : cmLinesLoop buf fuel line gi fnb [] =
          (.ok [(⟨line, gi, none, fnb⟩ : CLine)] :
            Except Err (List CLine)) := by
        simp [cmLinesLoop, hemp]
      rw [hval] at h
      replace h := Except.ok.inj h
      subst h
      simp only [List.map_cons, List.map_nil, List.flatten_cons,
        List.flatten_nil, List.append_nil]
      exact cmLineText_of_tiles buf line gi none fnb a buf.length
        (by simpa using hemp) htl
  | cons g rest ihe =>
    intro line gi fnb lines a m h htl hte
    replace h : (collectGF fuel g >>= fun e =>
        match e with
        | CElem.tok tok =>
          if tok.kind = "indent" then
            if !line.isEmpty || gi.isSome || fnb.isSome then
              (.error .assertionError : Except Err (List CLine))
            else cmLinesLoop buf fuel (line ++ [e]) (some tok) fnb rest
          else if tok.kind = "newline" then
            cmLinesLoop buf fuel [] none none rest >>= fun ls =>
              .ok (⟨line ++ [e], gi, some tok, fnb⟩ :: ls)
          else if tok.kind = "comment" then
            cmLinesLoop buf fuel (line ++ [e]) gi fnb rest
          else
            let fnb2 := if fnb.isNone then some tok else fnb
            cmLinesLoop buf fuel (line ++ [e]) gi fnb2 rest
        | CElem.paren left inner right =>
          let fnb2 := if fnb.isNone then some left else fnb
          cmLinesLoop buf fuel (line ++ [e]) gi fnb2 rest) = .ok lines := h
    cases hc : collectGF fuel g with
    | error e =>
      rw [hc, except_bind_error] at h
      exact absurd h (by simp)
    | ok e =>
      rw [hc, except_bind_ok] at h
      have hsplit : ∃ mid, spanTiles ((gFlat g).map Token.span) m mid ∧
          spanTiles ((gFlatList rest).map Token.span) mid buf.length := by
        have hge : gFlatList (g :: rest) = gFlat g ++ gFlatList rest := rfl
        rw [hge, List.map_append] at hte
        exact spanTiles_append_split _ _ _ _ hte
      obtain ⟨mid, hg, hrest⟩ := hsplit
      have hgf : flattenC e = gFlat g := collectGF_flat fuel g e hc
      have hnew : spanTiles ((flattenCList (line ++ [e])).map Token.span)
          a mid := by
        rw [flattenCList_append, List.map_append]
        refine spanTiles_append _ _ _ _ _ htl ?_
        show spanTiles ((flattenC e ++ flattenCList []).map Token.span) m mid
        rw [show flattenC e ++ flattenCList [] = flattenC e from
          List.append_nil _, hgf]
        exact hg
      cases e with
      | tok tok =>
        replace h : (if tok.kind = "indent" then
            if !line.isEmpty || gi.isSome || fnb.isSome then
              (.error .assertionError : Except Err (List CLine))
            else cmLinesLoop buf fuel (line ++ [CElem.tok tok]) (some tok)
              fnb rest
          else if tok.kind = "newline" then
            cmLinesLoop buf fuel [] none none rest >>= fun ls =>
              .ok (⟨line ++ [CElem.tok tok], gi, some tok, fnb⟩ :: ls)
          else if tok.kind = "comment" then
            cmLinesLoop buf fuel (line ++ [CElem.tok tok]) gi fnb rest
          else
            cmLinesLoop buf fuel (line ++ [CElem.tok tok]) gi
              (if fnb.isNone then some tok else fnb) rest) = .ok lines := h
        by_cases hki : tok.kind = "indent"
        · rw [if_pos hki] at h
          by_cases hbad : !line.isEmpty || gi.isSome || fnb.isSome
          · rw [if_pos hbad] at h
            exact absurd h (by simp)
          · rw [if_neg hbad] at h
            exact ihe _ _ _ _ _ _ h hnew hrest
        · rw [if_neg hki] at h
          by_cases hkn : tok.kind = "newline"
          · rw [if_pos hkn] at h
            cases hrec : cmLinesLoop buf fuel [] none none rest with
            | error e2 =>
              rw [hrec, except_bind_error] at h
              exact absurd h (by simp)
            | ok ls =>
              rw [hrec, except_bind_ok] at h
              replace h : Except.ok
                  ((⟨line ++ [CElem.tok tok], gi, some tok, fnb⟩ : CLine)
                    :: ls) = Except.ok lines := h
              replace h := Except.ok.inj h
              subst h
              simp only [List.map_cons, List.flatten_cons]
              have h1 : cmLineText buf ⟨line ++ [CElem.tok tok], gi,
                  some tok, fnb⟩ = sliceList buf a mid :=
                cmLineText_of_tiles buf _ gi (some tok) fnb a mid
                  (by simp) hnew
              have h2 : ((ls.map (cmLineText buf)).flatten : List Char) =
                  sliceList buf mid buf.length :=
                ihe [] none none ls mid mid hrec rfl hrest
              rw [h1, h2]
              refine sliceList_append buf a mid buf.length ?_ ?_
              · exact spanTiles_le _ _ _ hnew
              · exact spanTiles_le _ _ _ hrest
          · rw [if_neg hkn] at h
            by_cases hkc : tok.kind = "comment"
            · rw [if_pos hkc] at h
              exact ihe _ _ _ _ _ _ h hnew hrest
            · rw [if_neg hkc] at h
              exact ihe _ _ _ _ _ _ h hnew hrest
      | paren left inner right =>
        replace h : cmLinesLoop buf fuel
            (line ++ [CElem.paren left inner right]) gi
            (if fnb.isNone then some left else fnb) rest = .ok lines := h
        exact ihe _ _ _ _ _ _ h hnew hrest

/-- The second component of each extracted definition is the line's
sliced text. -/
theorem defn_snd_eq (buf : List Char) (line : CLine)
    (d : List Char × List Char)
    (h : (do
      let st ← line.startPos
      let en ← line.endPos
      let line_text := sliceList buf st.index en.index
      if st.column ≠ 0 then .error .assertionError
      else do
        let defn ← parse_line_as_definition buf line
        match defn with
        | none => .ok (([] : List Char), line_text)
        | some (_, _, vtext) => .ok (vtext, line_text)) = .ok d) :
    d.2 = cmLineText buf line := by
  cases hst : line.startPos with
  | error e =>
    rw [hst, except_bind_error] at h
    exact absurd h (by simp)
  | ok st =>
    rw [hst, except_bind_ok] at h
    cases hen : line.endPos with
    | error e =>
      rw [hen, except_bind_error] at h
      exact absurd h (by simp)
    | ok en =>
      rw [hen, except_bind_ok] at h
      replace h : (if st.column ≠ 0 then
          (.error .assertionError : Except Err (List Char × List Char))
        else
          parse_line_as_definition buf line >>= fun defn =>
          match defn with
          | none => .ok (([] : List Char), sliceList buf st.index en.index)
          | some (_, _, vtext) =>
            .ok (vtext, sliceList buf st.index en.index)) = .ok d := h
      by_cases hcol : st.column ≠ 0
      · rw [if_pos hcol] at h
        exact absurd h (by simp)
      · rw [if_neg hcol] at h
        cases hp : parse_line_as_definition buf line with
        | error e =>
          rw [hp, except_bind_error] at h
          exact absurd h (by simp)
        | ok defn =>
          rw [hp, except_bind_ok] at h
          have hslice : cmLineText buf line =
              sliceList buf st.index en.index := by
            unfold CLine.startPos at hst
            unfold CLine.endPos at hen
            cases hh : line.tokens.head? with
            | none =>
              rw [hh] at hst
              exact absurd hst (by simp)
            | some e0 =>
              rw [hh] at hst
              replace hst : Except.ok e0.startPos = Except.ok st := hst
              replace hst := Except.ok.inj hst
              cases hl : line.tokens.getLast? with
              | none =>
                rw [hl] at hen
                exact absurd hen (by simp)
              | some eN =>
                rw [hl] at hen
                replace hen : Except.ok eN.endPos = Except.ok en := hen
                replace hen := Except.ok.inj hen
                unfold cmLineText
                rw [hh, hl]
                show sliceList buf e0.startPos.index eN.endPos.index = _
                rw [hst, hen]
          cases defn with
          | none =>
            replace h : Except.ok (([] : List Char),
                sliceList buf st.index en.index) = Except.ok d := h
            replace h := Except.ok.inj h
            rw [← h, hslice]
          | some x =>
            obtain ⟨a2, b2, v2⟩ := x
            replace h : Except.ok (v2,
                sliceList buf st.index en.index) = Except.ok d := h
            replace h := Except.ok.inj h
            rw [← h, hslice]

theorem mapM_snd_gen (buf : List Char)
    (f : CLine → Except Err (List Char × List Char))
    (hf : ∀ line d, f line = .ok d → d.2 = cmLineText buf line) :
    ∀ (lines : List CLine) (defs : List (List Char × List Char)),
    lines.mapM f = .ok defs →
    defs.map Prod.snd = lines.map (cmLineText buf) := by
  intro lines
  induction lines with
  | nil =>
    intro defs h
    have h2 : ([] : List (List Char × List Char)) = defs := Except.ok.inj h
    subst h2
    rfl
  | cons y ys ihy =>
    intro defs h
    rw [List.mapM_cons] at h
    cases hy : f y with
    | error e =>
      rw [hy, except_bind_error] at h
      exact absurd h (by simp)
    | ok d =>
      rw [hy, except_bind_ok] at h
      cases hm : ys.mapM f with
      | error e =>
        rw [hm, except_bind_error] at h
        exact absurd h (by simp)
      | ok ds =>
        rw [hm, except_bind_ok] at h
        have h2 : d :: ds = defs := Except.ok.inj h
        subst h2
        simp only [List.map_cons]
        rw [hf y d hy, ihy ds hm]

/-- Claim C1 (amended, CMake dialect): when the lexer leaves no
character of the buffer uncovered (no blank gap is skipped), the
extracted definition texts concatenate to exactly the input.  The
lexed `OptTok` spans tile the buffer; gap-freeness transfers the tiling
to the unwrapped tokens, paren matching and line segmentation preserve
the token sequence, and each extracted text is the slice between its
line's first and last token. -/
theorem claim_C1 (buf : List Char)
    (hgap : ∀ o ∈ iterOptTokens cmakeMatchAt buf, o.kind ≠ none)
    (defs : List (List Char × List Char))
    (h : identify_definitions buf = .ok defs) :
    (defs.map Prod.snd).flatten = buf := by
  unfold identify_definitions at h
  cases hts : iter_cmake_tokens buf with
  | error e =>
    rw [hts, except_bind_error] at h
    exact absurd h (by simp)
  | ok ts =>
    rw [hts, except_bind_ok] at h
    cases hes : iter_match_parens buf cmakeParens ts with
    | error e =>
      rw [hes, except_bind_error] at h
      exact absurd h (by simp)
    | ok es =>
      rw [hes, except_bind_ok] at h
      cases hls : identify_cmake_lines buf (ts.length + 1) es with
      | error e =>
        rw [hls, except_bind_error] at h
        exact absurd h (by simp)
      | ok lines =>
        rw [hls, except_bind_ok] at h
        have hsnd : defs.map Prod.snd = lines.map (cmLineText buf) :=
          mapM_snd_gen buf _ (fun line d hd => defn_snd_eq buf line d hd)
            lines defs h
        have h0 : startPosition.index = 0 := rfl
        have htile0 : spanTiles
            ((iterOptTokens cmakeMatchAt buf).map OptTok.span)
            0 buf.length := by
          have := lexOptLoop_tiles buf (buf.length + 1) startPosition
            (by rw [h0]; omega) (by rw [h0]; omega)
          rw [h0] at this
          exact this
        have hts2 : unwrappedNonBlank buf (iterOptTokens cmakeMatchAt buf) =
            .ok ts := hts
        have hspan := unwrapped_all_some buf _ ts hgap hts2
        have htt : spanTiles (ts.map Token.span) 0 buf.length := by
          rw [hspan]
          exact htile0
        have hfl : gFlatList es = ts :=
          iter_match_parens_gFlat buf cmakeParens ts es hes
        have het : spanTiles ((gFlatList es).map Token.span) 0 buf.length := by
          rw [hfl]
          exact htt
        have hcat : ((lines.map (cmLineText buf)).flatten : List Char) =
            sliceList buf 0 buf.length :=
          cmLinesLoop_concat buf (ts.length + 1) es [] none none lines 0 0
            hls rfl het
        rw [hsnd, hcat]
        show (buf.drop 0).take (buf.length - 0) = buf
        simp

/-- Witness for claim C1: for the gap-free input "x()\n" the
hypotheses hold and the single extracted text reproduces the input. -/
theorem claim_C1_witness :
    (∀ o ∈ iterOptTokens cmakeMatchAt ("x()\n".data), o.kind ≠ none) ∧
    identify_definitions ("x()\n".data) =
      .ok [(([] : List Char), "x()\n".data)] ∧
    (([(([] : List Char), "x()\n".data)].map Prod.snd).flatten : List Char) =
      "x()\n".data :=
  ⟨by decide, by decide,
    claim_C1 ("x()\n".data) (by decide) [(([] : List Char), "x()\n".data)]
      (by decide)⟩

end Parsing
